import Mathlib

/-!
Shallow embedding of the 2-3-tree inverted index of `tree23.py`
(class `Node23` and class `Tree23InvertedIndex`), together with proofs
of the behavioural properties stated for it.

Python's mutable nodes are embedded as a purely functional nested
inductive; every method that mutates the tree is a function returning
the new tree.  Python integer/string comparisons coincide with Lean's
`String` order (lexicographic on code points).
-/

namespace Tree23

/-- Python `<` on strings (lexicographic on code points), stated on the
underlying character lists so that it evaluates inside the kernel; it
agrees with Lean's `String` order (`strLt_iff` below). -/
def strLt (a b : String) : Bool := decide (a.data < b.data)

/-- Python `str.startswith`, on the underlying character lists. -/
def strStartsWith (a pre : String) : Bool := pre.data.isPrefixOf a.data

/-- Python `str.endswith`, on the underlying character lists. -/
def strEndsWith (a suf : String) : Bool := suf.data.isSuffixOf a.data

/-- Python `s[:-1]`: the string minus its final character. -/
def strDropLast (s : String) : String := String.mk s.data.dropLast

/-- A node of the 2-3 tree: 0-2 keys, positionally aligned posting
lists, and 0, 2 or 3 children (`Node23.__init__`). -/
inductive Node23 where
  | mk (keys : List String) (posting_lists : List (List String)) (children : List Node23)
deriving Repr

def Node23.keys : Node23 → List String
  | .mk ks _ _ => ks

def Node23.posting_lists : Node23 → List (List String)
  | .mk _ ps _ => ps

def Node23.children : Node23 → List Node23
  | .mk _ _ cs => cs

/-- `Node23.is_leaf`. -/
def Node23.is_leaf : Node23 → Bool
  | .mk _ _ cs => cs.isEmpty

/-- `Node23.is_full`. -/
def Node23.is_full : Node23 → Bool
  | .mk ks _ _ => ks.length == 2

/-- `list.insert(i, x)` of Python: insertion clamps an index beyond the
end of the list to an append. -/
def insertAt : Nat → α → List α → List α
  | 0, a, l => a :: l
  | _ + 1, a, [] => [a]
  | n + 1, a, x :: xs => x :: insertAt n a xs

/-- The index computed by the `while` loop of `insert_in_node`: the
number of leading keys strictly smaller than `key`. -/
def insertIdx (key : String) : List String → Nat
  | [] => 0
  | k :: ks => if strLt k key then insertIdx key ks + 1 else 0

/-- `Node23.insert_in_node`: insert `key` (and its posting list) in
sorted position within the node. -/
def insert_in_node (node : Node23) (key : String) (pl : List String) : Node23 :=
  match node with
  | .mk ks ps cs => .mk (insertAt (insertIdx key ks) key ks) (insertAt (insertIdx key ks) pl ps) cs

/-- The `for i, key in enumerate(node.keys)` scan shared by
`_search_recursive` and `_update_posting_list`: the posting list of the
first key equal to `term`, if any. -/
def lookupKey (term : String) : List String → List (List String) → Option (List String)
  | [], _ => none
  | k :: ks, p :: ps => if term = k then some p else lookupKey term ks ps
  | k :: ks, [] => if term = k then some [] else lookupKey term ks []

/-- `_search_recursive`.  The child taken on the descent is child 0 when
`term < keys[0]`, child 1 when the node has one key or `term < keys[1]`,
and child 2 otherwise. -/
def searchRecursive : Node23 → String → List String
  | .mk ks ps cs, term =>
    match lookupKey term ks ps with
    | some p => p
    | none =>
      match cs, ks with
      | [], _ => []
      | c0 :: cs', k0 :: ks' =>
        if strLt term k0 then searchRecursive c0 term
        else
          match ks', cs' with
          | [], c1 :: _ => searchRecursive c1 term
          | k1 :: _, c1 :: cs'' =>
            if strLt term k1 then searchRecursive c1 term
            else
              match cs'' with
              | c2 :: _ => searchRecursive c2 term
              | [] => []
          | _ :: _, [] => []
          | [], [] => []
      | _ :: _, [] => []
termination_by structural n => n

/-- `search`: search for a term starting at the root. -/
def search (root : Node23) (term : String) : List String :=
  searchRecursive root term

/-- The key scan of `_update_posting_list`: rewrite the posting list of
the first key equal to `term` (adding `doc` idempotently) and report
whether a key matched. -/
def updateInNode (term doc : String) : List String → List (List String) → List (List String) × Bool
  | [], ps => (ps, false)
  | _ :: _, [] => ([], false)
  | k :: ks, p :: ps =>
    if term = k then ((if doc ∈ p then p else p ++ [doc]) :: ps, true)
    else
      let r := updateInNode term doc ks ps
      (p :: r.1, r.2)

/-- `_update_posting_list`: update the posting list of an existing term,
descending by the same comparisons as `_search_recursive`. -/
def updatePostingList : Node23 → String → String → Node23
  | .mk ks ps cs, term, doc =>
    let r := updateInNode term doc ks ps
    if r.2 then .mk ks r.1 cs
    else
      match cs, ks with
      | [], _ => .mk ks ps cs
      | c0 :: cs', k0 :: ks' =>
        if strLt term k0 then .mk ks ps (updatePostingList c0 term doc :: cs')
        else
          match ks', cs' with
          | [], c1 :: cs'' => .mk ks ps (c0 :: updatePostingList c1 term doc :: cs'')
          | k1 :: _, c1 :: cs'' =>
            if strLt term k1 then .mk ks ps (c0 :: updatePostingList c1 term doc :: cs'')
            else
              match cs'' with
              | c2 :: cs''' => .mk ks ps (c0 :: c1 :: updatePostingList c2 term doc :: cs''')
              | [] => .mk ks ps cs
          | _ :: _, [] => .mk ks ps cs
          | [], [] => .mk ks ps cs
      | _ :: _, [] => .mk ks ps cs
termination_by structural n => n

/-- Python `<` on `list[str]` (lexicographic). -/
def listLt : List String → List String → Bool
  | [], [] => false
  | [], _ :: _ => true
  | _ :: _, [] => false
  | x :: xs, y :: ys => if strLt x y then true else if strLt y x then false else listLt xs ys

/-- Python `<` on `(str, list[str])` pairs (tuple comparison), the order
used by `sorted(zip(temp_keys, temp_postings))` in `_split_node`. -/
def pairLt (a b : String × List String) : Bool :=
  if strLt a.1 b.1 then true else if strLt b.1 a.1 then false else listLt a.2 b.2

/-- Ordered insertion for the sort in `_split_node`. -/
def orderedInsertP (x : String × List String) : List (String × List String) → List (String × List String)
  | [] => [x]
  | y :: ys => if pairLt y x then y :: orderedInsertP x ys else x :: y :: ys

/-- `sorted` of Python on (key, posting-list) pairs.  Elements that tie
on the key are compared by their posting lists, so the result is the
Python one (ties that remain are between equal pairs). -/
def sortPairs : List (String × List String) → List (String × List String)
  | [] => []
  | x :: xs => orderedInsertP x (sortPairs xs)

/-- The child-splicing loop of `_split_node` (executed only when a split
result is passed in): scan the original keys with their index `i`;
trigger on `new_key < key` or on the last index; replace the child at
the chosen index with `left`, insert `right` after it, and stop. -/
def spliceGo (new_key : String) (left right : Node23) (cs : List Node23) : Nat → List String → List Node23
  | _, [] => cs
  | i, [k] =>
    let idx := if strLt new_key k then i else i + 1
    insertAt (idx + 1) right (cs.set idx left)
  | i, k :: k' :: ks =>
    if strLt new_key k then insertAt (i + 1) right (cs.set i left)
    else spliceGo new_key left right cs (i + 1) (k' :: ks)

def spliceChildren (new_key : String) (left right : Node23) (cs : List Node23) (ks : List String) : List Node23 :=
  spliceGo new_key left right cs 0 ks

/-- `_split_node`: split a full node.  The temporary key/posting triple
is sorted, the smallest and largest become the two result nodes, the
middle key is promoted.  `split_result`, when present, carries the two
nodes returned by the child split that is being absorbed. -/
def splitNode (node : Node23) (new_key : String) (new_posting : List String)
    (split_result : Option (Node23 × Node23)) : Node23 × String × Node23 :=
  match node with
  | .mk ks ps cs =>
    let temp_keys := ks ++ [new_key]
    let temp_postings := ps ++ [new_posting]
    let temp_children :=
      match split_result with
      | none => cs
      | some (l, r) => spliceChildren new_key l r cs ks
    let sorted := sortPairs (temp_keys.zip temp_postings)
    match sorted with
    | (e1, q1) :: (e2, _) :: (e3, q3) :: _ =>
      (⟨[e1], [q1], temp_children.take 2⟩, e2, ⟨[e3], [q3], temp_children.drop 2⟩)
    | _ => (node, new_key, node)

/-- Result of `_insert_recursive`: `None` (no structural change above)
or a `(left, middle-key, right)` split to be absorbed by the caller. -/
inductive SplitRes where
  | done (n : Node23)
  | split (l : Node23) (m : String) (r : Node23)

/-- Absorption of a child's split result at index `ci` of a node that is
not full (`_insert_recursive`, non-split unwinding): the promoted key is
inserted with an empty posting list, the split child is replaced by
`left` and `right` is inserted just after it. -/
def absorb (ks : List String) (ps : List (List String)) (cs : List Node23)
    (ci : Nat) (l : Node23) (m : String) (r : Node23) : Node23 :=
  .mk (insertAt (insertIdx m ks) m ks) (insertAt (insertIdx m ks) [] ps)
    (insertAt (ci + 1) r (cs.set ci l))

/-- Handling of a child's insertion result in `_insert_recursive`:
`None` updates the child pointer in place; a split result is absorbed
when the node is not full, and otherwise re-splits the node. -/
def stepChild (ks : List String) (ps : List (List String)) (cs : List Node23)
    (ci : Nat) (res : SplitRes) : SplitRes :=
  match res with
  | .done c' => .done (.mk ks ps (cs.set ci c'))
  | .split l m r =>
    if (Node23.mk ks ps cs).is_full then
      let (l', m', r') := splitNode (.mk ks ps cs) m [] (some (l, r))
      .split l' m' r'
    else .done (absorb ks ps cs ci l m r)

/-- `_insert_recursive`: recursive insertion with node splitting. -/
def insertRecursive : Node23 → String → List String → SplitRes
  | .mk ks ps cs, term, pl =>
    match cs, ks with
    | [], _ =>
      if (Node23.mk ks ps []).is_full then
        let (l, m, r) := splitNode (.mk ks ps []) term pl none
        .split l m r
      else .done (insert_in_node (.mk ks ps []) term pl)
    | c0 :: cs', k0 :: ks' =>
      if strLt term k0 then stepChild ks ps (c0 :: cs') 0 (insertRecursive c0 term pl)
      else
        match ks', cs' with
        | [], c1 :: _ => stepChild ks ps (c0 :: cs') 1 (insertRecursive c1 term pl)
        | k1 :: _, c1 :: cs'' =>
          if strLt term k1 then stepChild ks ps (c0 :: cs') 1 (insertRecursive c1 term pl)
          else
            match cs'' with
            | c2 :: _ => stepChild ks ps (c0 :: cs') 2 (insertRecursive c2 term pl)
            | [] => .done (.mk ks ps (c0 :: cs'))
        | _ :: _, [] => .done (.mk ks ps (c0 :: cs'))
        | [], [] => .done (.mk ks ps (c0 :: cs'))
    | _ :: _, [] => .done (.mk ks ps cs)
termination_by structural n => n

/-- `insert`: a term whose `search` finds a non-empty posting list is a
posting-list update; otherwise a structural insert runs, and a split
reaching past the root creates a brand-new root holding the promoted
key (with an empty posting list) over the two returned nodes. -/
def insert (root : Node23) (term doc : String) : Node23 :=
  if search root term ≠ [] then updatePostingList root term doc
  else
    match insertRecursive root term [doc] with
    | .done n => n
    | .split l m r => .mk [m] [[]] [l, r]

mutual

/-- `_collect_with_prefix`: pre-order collection of all (key, posting
list) pairs whose key starts with `prefix`. -/
def collectWithPrefix : Node23 → String → List (String × List String)
  | .mk ks ps cs, pre =>
    (ks.zip ps).filter (fun e => strStartsWith e.1 pre) ++ collectWithPrefixList cs pre
termination_by structural n => n

def collectWithPrefixList : List Node23 → String → List (String × List String)
  | [], _ => []
  | c :: cs, pre => collectWithPrefix c pre ++ collectWithPrefixList cs pre
termination_by structural l => l

end

/-- `wildcard_search`: only a pattern with a trailing `*` triggers
prefix collection (on the pattern minus its final character); any other
pattern yields the empty list. -/
def wildcard_search (root : Node23) (pattern : String) : List (String × List String) :=
  if strEndsWith pattern "*" then collectWithPrefix root (strDropLast pattern)
  else []

mutual

/-- `_collect_all_terms`: pre-order collection of every (key, posting
list) pair in the tree. -/
def collectAllTerms : Node23 → List (String × List String)
  | .mk ks ps cs => ks.zip ps ++ collectAllTermsList cs
termination_by structural n => n

def collectAllTermsList : List Node23 → List (String × List String)
  | [] => []
  | c :: cs => collectAllTerms c ++ collectAllTermsList cs
termination_by structural l => l

end

/-- Lower-case letters, the only characters `re.findall(r'\b[a-z]+\b')`
can return on a lowercased text. -/
def isLow (c : Char) : Bool := 'a' ≤ c ∧ c ≤ 'z'

/-- Word characters of the regex `\b` boundary. -/
def isWordCh (c : Char) : Bool := c.isAlpha || c.isDigit || c = '_'

/-- Token scan of `tokenize`: maximal runs of `[a-z]` whose two ends are
word boundaries. `startOk` records whether the character before the
current run is a non-word character (or the start of the text). -/
def tokGo : List Char → Bool → List Char → List String
  | [], startOk, run => if run ≠ [] ∧ startOk then [String.mk run] else []
  | c :: cs, startOk, run =>
    if isLow c then tokGo cs startOk (run ++ [c])
    else
      (if run ≠ [] ∧ startOk ∧ ¬ isWordCh c then [String.mk run] else []) ++
        tokGo cs (¬ isWordCh c) []

/-- `tokenize`: lowercase the text, return the `\b[a-z]+\b` matches. -/
def tokenize (text : String) : List String :=
  tokGo (text.data.map Char.toLower) true []

/-- The stop-word set of `Tree23InvertedIndex.__init__`. -/
def stop_words : List String :=
  ["a", "an", "the", "in", "is", "it", "that", "they",
   "can", "be", "will", "but", "such", "also", "have",
   "if", "at", "to", "as"]

/-- `normalize`: drop stop words. -/
def normalize (tokens : List String) : List String :=
  tokens.filter (fun t => t ∉ stop_words)

/-- `add_document`: tokenize, normalize, insert each surviving term. -/
def add_document (root : Node23) (doc_id text : String) : Node23 :=
  (normalize (tokenize text)).foldl (fun n term => insert n term doc_id) root

/-- A fresh tree: a single empty leaf root (`Tree23InvertedIndex.__init__`). -/
def fresh : Node23 := .mk [] [] []

/-- The tree obtained from a fresh index by a sequence of
`insert(term, doc_id)` calls. -/
def buildT (ps : List (String × String)) : Node23 :=
  ps.foldl (fun n p => insert n p.1 p.2) fresh

/-- The index built over a corpus by `add_document`, in corpus order. -/
def buildIndex (corpus : List (String × String)) : Node23 :=
  corpus.foldl (fun n d => add_document n d.1 d.2) fresh

mutual

/-- All keys of a tree, in pre-order. -/
def allKeys : Node23 → List String
  | .mk ks _ cs => ks ++ allKeysList cs
termination_by structural n => n

def allKeysList : List Node23 → List String
  | [] => []
  | c :: cs => allKeys c ++ allKeysList cs
termination_by structural l => l

end

mutual

/-- All keys held by internal (non-leaf) nodes of a tree. -/
def internalKeys : Node23 → List String
  | .mk ks _ cs =>
    match cs with
    | [] => []
    | _ :: _ => ks ++ internalKeysList cs
termination_by structural n => n

def internalKeysList : List Node23 → List String
  | [] => []
  | c :: cs => internalKeys c ++ internalKeysList cs
termination_by structural l => l

end

/-- Strictly increasing chain of keys. -/
def chainLt : List String → Bool
  | [] => true
  | [_] => true
  | a :: b :: t => strLt a b && chainLt (b :: t)

/-- The ordering invariant in the words of the specification: keys
within each node strictly increasing; for an internal node with keys
`k0 [, k1]` and children `c0, c1 [, c2]`, every key reachable in `c0`
is `< k0`, every key reachable in `c1` is `> k0` (and `< k1` when
present), and every key reachable in `c2` is `> k1`. -/
def orderedStrict : Node23 → Bool
  | .mk ks _ cs =>
    chainLt ks &&
    (match cs, ks with
     | [], _ => true
     | [c0, c1], [k0] =>
       (allKeys c0).all (strLt · k0) && (allKeys c1).all (strLt k0 ·) &&
       orderedStrict c0 && orderedStrict c1
     | [c0, c1, c2], [k0, k1] =>
       (allKeys c0).all (strLt · k0) && (allKeys c1).all (strLt k0 ·) &&
       (allKeys c1).all (strLt · k1) && (allKeys c2).all (strLt k1 ·) &&
       orderedStrict c0 && orderedStrict c1 && orderedStrict c2
     | _, _ => false)
termination_by structural n => n

/-- Weakly non-decreasing chain of keys. -/
def chainLe : List String → Bool
  | [] => true
  | [_] => true
  | a :: b :: t => !(strLt b a) && chainLe (b :: t)

/-- The weak form of the ordering invariant: keys within each node are
weakly increasing, every key reachable in a child lies weakly between
the separators that surround that child, and every node is well-shaped.
This is the strongest ordering statement that survives the duplicate
keys introduced when a split discards a promoted key's posting list and
the key is later re-inserted. -/
def orderedWeak : Node23 → Bool
  | .mk ks _ cs =>
    chainLe ks &&
    (match cs, ks with
     | [], _ => true
     | [c0, c1], [k0] =>
       (allKeys c0).all (fun x => !(strLt k0 x)) &&
       (allKeys c1).all (fun x => !(strLt x k0)) &&
       orderedWeak c0 && orderedWeak c1
     | [c0, c1, c2], [k0, k1] =>
       (allKeys c0).all (fun x => !(strLt k0 x)) &&
       (allKeys c1).all (fun x => !(strLt x k0)) &&
       (allKeys c1).all (fun x => !(strLt k1 x)) &&
       (allKeys c2).all (fun x => !(strLt x k1)) &&
       orderedWeak c0 && orderedWeak c1 && orderedWeak c2
     | _, _ => false)
termination_by structural n => n

/-- Modelled from the spec: the reference brute-force scan (tokenize →
normalize → group doc_ids by term) that the round-trip property compares
the index against.  The posting list of `t` is the list of identifiers
of corpus documents whose normalized token list contains `t`. -/
def refPostings (corpus : List (String × String)) (t : String) : List String :=
  (corpus.filter (fun d => t ∈ normalize (tokenize d.2))).map Prod.fst

/-- Modelled from the spec: the terms produced by the reference scan. -/
def refTerms (corpus : List (String × String)) : List String :=
  ((corpus.map (fun d => normalize (tokenize d.2))).flatten).dedup

/-- Modelled from the spec: the (term, posting-list) pairs of the
reference brute-force scan. -/
def refPairs (corpus : List (String × String)) : List (String × List String) :=
  (refTerms corpus).map (fun t => (t, refPostings corpus t))

mutual

/-- The structural skeleton of a tree: keys and children, with every
posting list erased.  Two trees with equal skeletons have exactly the
same nodes, keys and child structure. -/
def skel : Node23 → Node23
  | .mk ks ps cs => .mk ks (ps.map fun _ => []) (skelList cs)
termination_by structural n => n

def skelList : List Node23 → List Node23
  | [] => []
  | c :: cs => skel c :: skelList cs
termination_by structural l => l

end

/-- Observational order on trees: every search result of the first tree
is contained in the corresponding search result of the second. -/
def SearchLe (c c' : Node23) : Prop :=
  ∀ t' x, x ∈ searchRecursive c t' → x ∈ searchRecursive c' t'

/-- How one (key, posting-list) entry may change under
`insert(t, d)` on the update path: the key is unchanged and the posting
list is either untouched or, when the key is `t`, extended by `d`. -/
def postingStep (t d : String) (a b : String × List String) : Prop :=
  a.1 = b.1 ∧ (b.2 = a.2 ∨ (a.1 = t ∧ b.2 = a.2 ++ [d]))

/-- Combined size/balance checker: returns the uniform height when every
node is well-shaped (a leaf with at most two keys — the fresh root may
hold zero — or an internal node with one key and two children or two
keys and three children, posting lists positionally aligned) and all
children of each node have the same height; `none` otherwise. -/
def bsh : Node23 → Option Nat
  | .mk ks ps [] => if ps.length = ks.length ∧ ks.length ≤ 2 then some 0 else none
  | .mk [_] [_] [c0, c1] =>
    match bsh c0, bsh c1 with
    | some h0, some h1 => if h0 = h1 then some (h0 + 1) else none
    | _, _ => none
  | .mk [_, _] [_, _] [c0, c1, c2] =>
    match bsh c0, bsh c1, bsh c2 with
    | some h0, some h1, some h2 => if h0 = h1 ∧ h1 = h2 then some (h0 + 1) else none
    | _, _, _ => none
  | _ => none
termination_by structural n => n

mutual

/-- The depths (distance from the given level) of every leaf of a tree,
in left-to-right order. -/
def leafDepths : Node23 → Nat → List Nat
  | .mk _ _ [], d => [d]
  | .mk _ _ (c :: cs), d => leafDepthsList (c :: cs) (d + 1)
termination_by structural n => n

def leafDepthsList : List Node23 → Nat → List Nat
  | [], _ => []
  | c :: cs, d => leafDepths c d ++ leafDepthsList cs d
termination_by structural l => l

end

/-- Validity of an `_insert_recursive` result at height `h`: an
unchanged-height node, or a split into two nodes of the original
height. -/
def InsOK : SplitRes → Nat → Prop
  | .done n', h => bsh n' = some h
  | .split l _ r, h => bsh l = some h ∧ bsh r = some h

/-- Weak lower bound (`none` is no bound): `lo ≤ k`. -/
def loLe (lo : Option String) (k : String) : Bool :=
  match lo with
  | none => true
  | some l => !(strLt k l)

/-- Weak upper bound (`none` is no bound): `k ≤ hi`. -/
def hiGe (hi : Option String) (k : String) : Bool :=
  match hi with
  | none => true
  | some u => !(strLt u k)

/-- Strict upper bound (`none` is no bound): `k < hi`. -/
def ltHi (k : String) (hi : Option String) : Bool :=
  match hi with
  | none => true
  | some u => strLt k u

/-- Not both keys equal to the upper bound.  Reachable trees never hold
two copies of their subtree's upper separator in one node; this is what
keeps the promoted key of every split strictly below the separator. -/
def notTwoHi (hi : Option String) (k0 k1 : String) : Bool :=
  match hi with
  | none => true
  | some u => !(k0 == u && k1 == u)

/-- The invariant that reachable trees satisfy, relative to weak bounds
`lo`/`hi` inherited from ancestor separators: every node is well-shaped,
keys are weakly sorted within `[lo, hi]`, no node holds its upper bound
twice, internal posting lists are empty, and leaf posting lists are
non-empty and duplicate-free.  (The strict textbook ordering fails on
reachable trees — see the claim C7 counterexample — but this weaker
invariant is preserved by every insertion.) -/
def wfb (lo hi : Option String) : Node23 → Bool
  | .mk [] [] [] => true
  | .mk [k0] [p0] [] =>
      loLe lo k0 && hiGe hi k0 && !p0.isEmpty && decide p0.Nodup
  | .mk [k0, k1] [p0, p1] [] =>
      loLe lo k0 && !(strLt k1 k0) && hiGe hi k1 && notTwoHi hi k0 k1 &&
      !p0.isEmpty && !p1.isEmpty && decide p0.Nodup && decide p1.Nodup
  | .mk [k0] [p0] [c0, c1] =>
      loLe lo k0 && hiGe hi k0 && p0.isEmpty &&
      wfb lo (some k0) c0 && wfb (some k0) hi c1
  | .mk [k0, k1] [p0, p1] [c0, c1, c2] =>
      loLe lo k0 && !(strLt k1 k0) && hiGe hi k1 && notTwoHi hi k0 k1 &&
      p0.isEmpty && p1.isEmpty &&
      wfb lo (some k0) c0 && wfb (some k0) (some k1) c1 && wfb (some k1) hi c2
  | _ => false
termination_by structural n => n

/-- Validity of an `_insert_recursive` result for the invariant `wfb`,
together with the bookkeeping facts the correctness proofs track: the
key multiset grows by exactly the inserted term, every entry is the new
entry, an empty-posting entry, or an old entry, and internal keys stay
internal. -/
def WfOK (n : Node23) (t : String) (pl : List String) (lo hi : Option String) :
    SplitRes → Prop
  | .done n' =>
      wfb lo hi n' = true ∧
      List.Perm (allKeys n') (t :: allKeys n) ∧
      (∀ e ∈ collectAllTerms n', e = (t, pl) ∨ e.2 = ([] : List String) ∨
        e ∈ collectAllTerms n) ∧
      (∀ k, k ∈ internalKeys n → k ∈ internalKeys n')
  | .split l m r =>
      wfb lo (some m) l = true ∧ wfb (some m) hi r = true ∧
      loLe lo m = true ∧ ltHi m hi = true ∧
      List.Perm (allKeys l ++ m :: allKeys r) (t :: allKeys n) ∧
      (∀ e, e ∈ collectAllTerms l ∨ e ∈ collectAllTerms r →
        e = (t, pl) ∨ e.2 = ([] : List String) ∨ e ∈ collectAllTerms n) ∧
      (∀ k, k ∈ internalKeys n → k ∈ internalKeys l ∨ k = m ∨ k ∈ internalKeys r)

/-- A tree reachable from a fresh index by some sequence of insertions. -/
def Reachable (n : Node23) : Prop := ∃ ps, n = buildT ps

/-- The two-document corpus of the concrete scenario in §8 of the
specification. -/
def corpusC4 : List (String × String) :=
  [("Doc1", "superconductors repel a magnet"), ("Doc2", "a magnet repels a superconductor")]

/-- A one-document corpus on which a split discards a posting list. -/
def corpusB : List (String × String) :=
  [("Doc1", "apple banana cherry")]

/-! ## Theorems -/

theorem strLt_iff (a b : String) : strLt a b = true ↔ a < b := by
  simp [strLt, String.instLT]

/-- Claim C10: for every tree state and every pattern that does not end
with `*`, `wildcard_search` returns the empty sequence without examining
the tree; a pattern with a trailing `*` triggers prefix collection on
the pattern minus its final character. -/
theorem C10_wildcard (n : Node23) (p : String) :
    (strEndsWith p "*" = false → wildcard_search n p = []) ∧
    (strEndsWith p "*" = true → wildcard_search n p = collectWithPrefix n (strDropLast p)) := by
  constructor <;> intro h <;> simp [wildcard_search, h]

theorem C10_wildcard_witness :
    wildcard_search (buildT [("a", "1")]) "ab" = [] ∧
    wildcard_search (buildT [("a", "1")]) "a*" =
      collectWithPrefix (buildT [("a", "1")]) "a" := by
  refine ⟨(C10_wildcard (buildT [("a", "1")]) "ab").1 (by decide), ?_⟩
  have h := (C10_wildcard (buildT [("a", "1")]) "a*").2 (by decide)
  simpa using h

/-- Claim C4, counterexample: on the two-document corpus the prefix
collection for `super` pairs the term `superconductor` with the empty
posting list, not with `{Doc2}` as the claim states — the posting list
was discarded when `superconductor` was promoted during a node split. -/
theorem C4_scenario_cex :
    ("superconductor", ["Doc2"]) ∉ collectWithPrefix (buildIndex corpusC4) "super" ∧
    (collectWithPrefix (buildIndex corpusC4) "super").filter (fun e => e.1 = "superconductor") =
      [("superconductor", [])] := by
  decide

/-- Claim C4, amended: `search("magnet")` returns `{Doc1, Doc2}` and
`search("superconductors")` returns exactly `{Doc1}`; the prefix
collection for `super` returns an entry for `superconductors` paired
with `{Doc1}` and an entry for `superconductor` paired with the empty
posting list (its posting list was discarded at promotion). -/
theorem C4_scenario_amended :
    search (buildIndex corpusC4) "magnet" = ["Doc1", "Doc2"] ∧
    search (buildIndex corpusC4) "superconductors" = ["Doc1"] ∧
    collectWithPrefix (buildIndex corpusC4) "super" =
      [("superconductor", []), ("superconductors", ["Doc1"])] := by
  decide

/-- Claim C1, counterexample: after inserting `(a,1)` and `(b,1)`,
`search("b")` returns `["1"]`; inserting the different term `(c,1)`
splits the leaf, promotes `b` and discards its posting list, so
`search("b")` afterwards no longer contains `"1"` — the posting list
observable for `b` shrank. -/
theorem C1_monotonicity_cex :
    "1" ∈ search (buildT [("a", "1"), ("b", "1")]) "b" ∧
    "1" ∉ search (insert (buildT [("a", "1"), ("b", "1")]) "c" "1") "b" := by
  decide

/-- Claim C3, counterexample: on the corpus `{Doc1: "apple banana
cherry"}` the reference scan produces the pair `(banana, [Doc1])`, but
the full traversal of the built index contains `banana` only with an
empty posting list: the pair with the real posting list is missing
entirely, which the internal-routing-key caveat (extra empty entries)
cannot account for. -/
theorem C3_roundtrip_cex :
    ("banana", ["Doc1"]) ∈ refPairs corpusB ∧
    ("banana", ["Doc1"]) ∉ collectAllTerms (buildIndex corpusB) ∧
    (collectAllTerms (buildIndex corpusB)).filter (fun e => e.1 = "banana") =
      [("banana", [])] := by
  decide

/-- Claim C6, counterexample: in the tree built from `(a,1)`, `(b,1)`,
`(c,1)` the term `b` exists as a key (the internal root key), yet
`insert("b","2")` performs a structural change: a fourth key appears
(the leaf that held only `c` now also holds `b`). -/
theorem C6_pure_update_cex :
    "b" ∈ allKeys (buildT [("a", "1"), ("b", "1"), ("c", "1")]) ∧
    allKeys (insert (buildT [("a", "1"), ("b", "1"), ("c", "1")]) "b" "2") ≠
      allKeys (buildT [("a", "1"), ("b", "1"), ("c", "1")]) := by
  decide

/-- Claim C7, counterexample: after the insertion sequence `(a,1)`,
`(b,1)`, `(c,1)`, `(b,2)` the key `b` occurs both in the root and in a
leaf of the middle subtree, violating both the strict subtree ordering
and the uniqueness of keys. -/
theorem C7_ordering_cex :
    orderedStrict (buildT [("a", "1"), ("b", "1"), ("c", "1"), ("b", "2")]) = false ∧
    ¬ (allKeys (buildT [("a", "1"), ("b", "1"), ("c", "1"), ("b", "2")])).Nodup := by
  decide

/-! ### The update path: `_update_posting_list` only appends to the
posting list found by the key scan; keys and child structure are
untouched. -/

theorem lookup_updateInNode (t d t' : String) (ks : List String) (ps : List (List String)) :
    lookupKey t' ks (updateInNode t d ks ps).1 = lookupKey t' ks ps ∨
    ∃ p, lookupKey t' ks ps = some p ∧
      lookupKey t' ks (updateInNode t d ks ps).1 = some (p ++ [d]) := by
  induction ks generalizing ps with
  | nil => left; simp [updateInNode]
  | cons k ks ih =>
    cases ps with
    | nil => left; simp [updateInNode]
    | cons p ps =>
      by_cases htk : t = k
      · by_cases ht'k : t' = k
        · by_cases hdp : d ∈ p
          · left; simp [updateInNode, htk, ht'k, lookupKey, hdp]
          · right
            exact ⟨p, by simp [lookupKey, ht'k],
              by simp [updateInNode, htk, ht'k, lookupKey, hdp]⟩
        · left; simp [updateInNode, htk, ht'k, lookupKey]
      · by_cases ht'k : t' = k
        · left; simp [updateInNode, htk, ht'k, lookupKey]
        · rcases ih ps with h | ⟨q, hq1, hq2⟩
          · left; simpa [updateInNode, htk, ht'k, lookupKey] using h
          · right
            exact ⟨q, by simpa [lookupKey, ht'k] using hq1,
              by simpa [updateInNode, htk, ht'k, lookupKey] using hq2⟩

theorem searchRecursive_found {t : String} {ks : List String} {ps : List (List String)}
    (cs : List Node23) {p : List String} (h : lookupKey t ks ps = some p) :
    searchRecursive (.mk ks ps cs) t = p := by
  cases cs with
  | nil => rw [searchRecursive.eq_1, h]
  | cons c0 cs1 =>
    cases ks with
    | nil => rw [searchRecursive.eq_7, h]
    | cons k0 ks1 =>
      cases ks1 with
      | nil =>
        cases cs1 with
        | nil => rw [searchRecursive.eq_6, h]
        | cons c1 cs2 => rw [searchRecursive.eq_2, h]
      | cons k1 ks2 =>
        cases cs1 with
        | nil => rw [searchRecursive.eq_5, h]
        | cons c1 cs2 =>
          cases cs2 with
          | nil => rw [searchRecursive.eq_4, h]
          | cons c2 cs3 => rw [searchRecursive.eq_3, h]

theorem searchRecursive_congr_postings {t : String} {ks : List String}
    {ps ps' : List (List String)} (cs : List Node23)
    (h : lookupKey t ks ps = lookupKey t ks ps') :
    searchRecursive (.mk ks ps cs) t = searchRecursive (.mk ks ps' cs) t := by
  cases cs with
  | nil => rw [searchRecursive.eq_1, searchRecursive.eq_1, h]
  | cons c0 cs1 =>
    cases ks with
    | nil => rw [searchRecursive.eq_7, searchRecursive.eq_7, h]
    | cons k0 ks1 =>
      cases ks1 with
      | nil =>
        cases cs1 with
        | nil => rw [searchRecursive.eq_6, searchRecursive.eq_6, h]
        | cons c1 cs2 => rw [searchRecursive.eq_2, searchRecursive.eq_2, h]
      | cons k1 ks2 =>
        cases cs1 with
        | nil => rw [searchRecursive.eq_5, searchRecursive.eq_5, h]
        | cons c1 cs2 =>
          cases cs2 with
          | nil => rw [searchRecursive.eq_4, searchRecursive.eq_4, h]
          | cons c2 cs3 => rw [searchRecursive.eq_3, searchRecursive.eq_3, h]

theorem SearchLe.rfl (c : Node23) : SearchLe c c := fun _ _ h => h

theorem searchRecursive_mono_children {ks : List String} {ps : List (List String)}
    {cs cs' : List Node23} (h : List.Forall₂ SearchLe cs cs') :
    SearchLe (.mk ks ps cs) (.mk ks ps cs') := by
  intro t' x hx
  cases h with
  | nil => exact hx
  | @cons c0 c0' cs1 cs1' h0 htl =>
    cases ks with
    | nil =>
      rw [searchRecursive.eq_7] at hx ⊢
      exact hx
    | cons k0 ks1 =>
      cases ks1 with
      | nil =>
        cases htl with
        | nil =>
          rw [searchRecursive.eq_6] at hx ⊢
          cases hl : lookupKey t' [k0] ps with
          | some p => rw [hl] at hx; exact hx
          | none =>
            rw [hl] at hx
            by_cases hc : strLt t' k0 = true
            · simp only [hc, if_true] at hx ⊢; exact h0 t' x hx
            · simp only [hc, if_false] at hx ⊢; exact hx
        | @cons c1 c1' cs2 cs2' h1 htl2 =>
          rw [searchRecursive.eq_2] at hx ⊢
          cases hl : lookupKey t' [k0] ps with
          | some p => rw [hl] at hx; exact hx
          | none =>
            rw [hl] at hx
            by_cases hc : strLt t' k0 = true
            · simp only [hc, if_true] at hx ⊢; exact h0 t' x hx
            · simp only [hc, if_false] at hx ⊢; exact h1 t' x hx
      | cons k1 ks2 =>
        cases htl with
        | nil =>
          rw [searchRecursive.eq_5] at hx ⊢
          cases hl : lookupKey t' (k0 :: k1 :: ks2) ps with
          | some p => rw [hl] at hx; exact hx
          | none =>
            rw [hl] at hx
            by_cases hc : strLt t' k0 = true
            · simp only [hc, if_true] at hx ⊢; exact h0 t' x hx
            · simp only [hc, if_false] at hx ⊢; exact hx
        | @cons c1 c1' cs2 cs2' h1 htl2 =>
          cases htl2 with
          | nil =>
            rw [searchRecursive.eq_4] at hx ⊢
            cases hl : lookupKey t' (k0 :: k1 :: ks2) ps with
            | some p => rw [hl] at hx; exact hx
            | none =>
              rw [hl] at hx
              by_cases hc : strLt t' k0 = true
              · simp only [hc, if_true] at hx ⊢; exact h0 t' x hx
              · simp only [hc, if_false] at hx ⊢
                by_cases hc1 : strLt t' k1 = true
                · simp only [hc1, if_true] at hx ⊢; exact h1 t' x hx
                · simp only [hc1, if_false] at hx ⊢; exact hx
          | @cons c2 c2' cs3 cs3' h2 htl3 =>
            rw [searchRecursive.eq_3] at hx ⊢
            cases hl : lookupKey t' (k0 :: k1 :: ks2) ps with
            | some p => rw [hl] at hx; exact hx
            | none =>
              rw [hl] at hx
              by_cases hc : strLt t' k0 = true
              · simp only [hc, if_true] at hx ⊢; exact h0 t' x hx
              · simp only [hc, if_false] at hx ⊢
                by_cases hc1 : strLt t' k1 = true
                · simp only [hc1, if_true] at hx ⊢; exact h1 t' x hx
                · simp only [hc1, if_false] at hx ⊢; exact h2 t' x hx

theorem forall₂_searchLe_refl (cs : List Node23) : List.Forall₂ SearchLe cs cs :=
  List.forall₂_same.mpr (fun c _ => SearchLe.rfl c)

theorem mem_searchRecursive_update (n : Node23) (t d : String) :
    ∀ t' x, x ∈ searchRecursive n t' → x ∈ searchRecursive (updatePostingList n t d) t' := by
  induction n, t, d using updatePostingList.induct with
  | case1 ks ps cs t d r hr =>
    intro t' x hx
    have hr' : (updateInNode t d ks ps).2 = true := hr
    have hupd : updatePostingList (Node23.mk ks ps cs) t d =
        Node23.mk ks (updateInNode t d ks ps).1 cs := by
      rw [updatePostingList.eq_def]
      simp only [hr', if_true]
    rw [hupd]
    rcases lookup_updateInNode t d t' ks ps with heq | ⟨p, hp, hq⟩
    · rw [searchRecursive_congr_postings cs heq]; exact hx
    · rw [searchRecursive_found cs hq]
      rw [searchRecursive_found cs hp] at hx
      exact List.mem_append_left [d] hx
  | case2 ks ps t d r hr =>
    intro t' x hx
    have hr' : ¬ (updateInNode t d ks ps).2 = true := hr
    have hupd : updatePostingList (Node23.mk ks ps []) t d = Node23.mk ks ps [] := by
      rw [updatePostingList.eq_def]
      simp [hr']
    rw [hupd]; exact hx
  | case3 ps t d c0 cs' k0 ks' hlt r hr ih =>
    have hr' : ¬ (updateInNode t d (k0 :: ks') ps).2 = true := hr
    have hupd : updatePostingList (Node23.mk (k0 :: ks') ps (c0 :: cs')) t d =
        Node23.mk (k0 :: ks') ps (updatePostingList c0 t d :: cs') := by
      rw [updatePostingList.eq_def]
      simp [hr', hlt]
    rw [hupd]
    exact searchRecursive_mono_children (List.Forall₂.cons ih (forall₂_searchLe_refl cs'))
  | case4 ps t d c0 k0 hge c1 tail r hr ih =>
    have hr' : ¬ (updateInNode t d [k0] ps).2 = true := hr
    have hupd : updatePostingList (Node23.mk [k0] ps (c0 :: c1 :: tail)) t d =
        Node23.mk [k0] ps (c0 :: updatePostingList c1 t d :: tail) := by
      rw [updatePostingList.eq_def]
      simp [hr', hge]
    rw [hupd]
    exact searchRecursive_mono_children
      (List.Forall₂.cons (SearchLe.rfl c0)
        (List.Forall₂.cons ih (forall₂_searchLe_refl tail)))
  | case5 ps t d c0 k0 hge k1 tail c1 cs'' hlt r hr ih =>
    have hr' : ¬ (updateInNode t d (k0 :: k1 :: tail) ps).2 = true := hr
    have hupd : updatePostingList (Node23.mk (k0 :: k1 :: tail) ps (c0 :: c1 :: cs'')) t d =
        Node23.mk (k0 :: k1 :: tail) ps (c0 :: updatePostingList c1 t d :: cs'') := by
      rw [updatePostingList.eq_def]
      simp [hr', hge, hlt]
    rw [hupd]
    exact searchRecursive_mono_children
      (List.Forall₂.cons (SearchLe.rfl c0)
        (List.Forall₂.cons ih (forall₂_searchLe_refl cs'')))
  | case6 ps t d c0 k0 hge0 k1 tail c1 hge1 c2 tail1 r hr ih =>
    have hr' : ¬ (updateInNode t d (k0 :: k1 :: tail) ps).2 = true := hr
    have hupd : updatePostingList (Node23.mk (k0 :: k1 :: tail) ps (c0 :: c1 :: c2 :: tail1)) t d =
        Node23.mk (k0 :: k1 :: tail) ps (c0 :: c1 :: updatePostingList c2 t d :: tail1) := by
      rw [updatePostingList.eq_def]
      simp [hr', hge0, hge1]
    rw [hupd]
    exact searchRecursive_mono_children
      (List.Forall₂.cons (SearchLe.rfl c0)
        (List.Forall₂.cons (SearchLe.rfl c1)
          (List.Forall₂.cons ih (forall₂_searchLe_refl tail1))))
  | case7 ps t d c0 k0 hge0 k1 tail c1 hge1 r hr =>
    intro t' x hx
    have hr' : ¬ (updateInNode t d (k0 :: k1 :: tail) ps).2 = true := hr
    have hupd : updatePostingList (Node23.mk (k0 :: k1 :: tail) ps [c0, c1]) t d =
        Node23.mk (k0 :: k1 :: tail) ps [c0, c1] := by
      rw [updatePostingList.eq_def]
      simp [hr', hge0, hge1]
    rw [hupd]; exact hx
  | case8 ps t d c0 k0 hge0 k1 tail r hr =>
    intro t' x hx
    have hr' : ¬ (updateInNode t d (k0 :: k1 :: tail) ps).2 = true := hr
    have hupd : updatePostingList (Node23.mk (k0 :: k1 :: tail) ps [c0]) t d =
        Node23.mk (k0 :: k1 :: tail) ps [c0] := by
      rw [updatePostingList.eq_def]
      simp [hr', hge0]
    rw [hupd]; exact hx
  | case9 ps t d c0 k0 hge0 r hr =>
    intro t' x hx
    have hr' : ¬ (updateInNode t d [k0] ps).2 = true := hr
    have hupd : updatePostingList (Node23.mk [k0] ps [c0]) t d = Node23.mk [k0] ps [c0] := by
      rw [updatePostingList.eq_def]
      simp [hr', hge0]
    rw [hupd]; exact hx
  | case10 ps t d hd tl r hr =>
    intro t' x hx
    have hr' : ¬ (updateInNode t d [] ps).2 = true := hr
    have hupd : updatePostingList (Node23.mk [] ps (hd :: tl)) t d =
        Node23.mk [] ps (hd :: tl) := by
      rw [updatePostingList.eq_def]
      simp [hr']
    rw [hupd]; exact hx
theorem updateInNode_length (t d : String) (ks : List String) (ps : List (List String)) :
    (updateInNode t d ks ps).1.length = ps.length := by
  induction ks generalizing ps with
  | nil => simp [updateInNode]
  | cons k ks ih =>
    cases ps with
    | nil => simp [updateInNode]
    | cons p ps =>
      by_cases htk : t = k
      · simp [updateInNode, htk]
      · simp [updateInNode, htk, ih]

theorem updateInNode_forall₂ (t d : String) (ks : List String) (ps : List (List String)) :
    List.Forall₂ (postingStep t d) (ks.zip ps) (ks.zip (updateInNode t d ks ps).1) := by
  induction ks generalizing ps with
  | nil => simp [updateInNode]
  | cons k ks ih =>
    cases ps with
    | nil => simp [updateInNode]
    | cons p ps =>
      by_cases htk : t = k
      · by_cases hdp : d ∈ p
        · simp only [updateInNode, htk, if_pos rfl, hdp, if_true, List.zip_cons_cons]
          exact List.Forall₂.cons ⟨rfl, Or.inl rfl⟩
            (List.forall₂_same.mpr (fun _ _ => ⟨rfl, Or.inl rfl⟩))
        · simp only [updateInNode, htk, if_pos rfl, hdp, if_false, List.zip_cons_cons]
          refine List.Forall₂.cons ?_ (List.forall₂_same.mpr (fun _ _ => ⟨rfl, Or.inl rfl⟩))
          simp [postingStep, htk]
      · simp only [updateInNode, htk, if_neg htk, List.zip_cons_cons]
        exact List.Forall₂.cons ⟨rfl, Or.inl rfl⟩ (ih ps)

theorem skel_mk (ks : List String) (ps : List (List String)) (cs : List Node23) :
    skel (.mk ks ps cs) = .mk ks (ps.map fun _ => []) (skelList cs) := rfl

theorem skelList_cons (c : Node23) (cs : List Node23) :
    skelList (c :: cs) = skel c :: skelList cs := rfl

theorem collectAllTerms_mk (ks : List String) (ps : List (List String)) (cs : List Node23) :
    collectAllTerms (.mk ks ps cs) = ks.zip ps ++ collectAllTermsList cs := rfl

theorem collectAllTermsList_cons (c : Node23) (cs : List Node23) :
    collectAllTermsList (c :: cs) = collectAllTerms c ++ collectAllTermsList cs := rfl

theorem skel_updatePostingList (n : Node23) (t d : String) :
    skel (updatePostingList n t d) = skel n := by
  induction n, t, d using updatePostingList.induct with
  | case1 ks ps cs t d r hr =>
    have hr' : (updateInNode t d ks ps).2 = true := hr
    have hupd : updatePostingList (Node23.mk ks ps cs) t d =
        Node23.mk ks (updateInNode t d ks ps).1 cs := by
      rw [updatePostingList.eq_def]; simp only [hr', if_true]
    rw [hupd, skel_mk, skel_mk]
    rw [List.map_const', List.map_const', updateInNode_length]
  | case2 ks ps t d r hr =>
    have hr' : ¬ (updateInNode t d ks ps).2 = true := hr
    have hupd : updatePostingList (Node23.mk ks ps []) t d = Node23.mk ks ps [] := by
      rw [updatePostingList.eq_def]; simp [hr']
    rw [hupd]
  | case3 ps t d c0 cs' k0 ks' hlt r hr ih =>
    have hr' : ¬ (updateInNode t d (k0 :: ks') ps).2 = true := hr
    have hupd : updatePostingList (Node23.mk (k0 :: ks') ps (c0 :: cs')) t d =
        Node23.mk (k0 :: ks') ps (updatePostingList c0 t d :: cs') := by
      rw [updatePostingList.eq_def]; simp [hr', hlt]
    rw [hupd, skel_mk, skel_mk, skelList_cons, skelList_cons, ih]
  | case4 ps t d c0 k0 hge c1 tail r hr ih =>
    have hr' : ¬ (updateInNode t d [k0] ps).2 = true := hr
    have hupd : updatePostingList (Node23.mk [k0] ps (c0 :: c1 :: tail)) t d =
        Node23.mk [k0] ps (c0 :: updatePostingList c1 t d :: tail) := by
      rw [updatePostingList.eq_def]; simp [hr', hge]
    rw [hupd, skel_mk, skel_mk, skelList_cons, skelList_cons, skelList_cons, skelList_cons, ih]
  | case5 ps t d c0 k0 hge k1 tail c1 cs'' hlt r hr ih =>
    have hr' : ¬ (updateInNode t d (k0 :: k1 :: tail) ps).2 = true := hr
    have hupd : updatePostingList (Node23.mk (k0 :: k1 :: tail) ps (c0 :: c1 :: cs'')) t d =
        Node23.mk (k0 :: k1 :: tail) ps (c0 :: updatePostingList c1 t d :: cs'') := by
      rw [updatePostingList.eq_def]; simp [hr', hge, hlt]
    rw [hupd, skel_mk, skel_mk, skelList_cons, skelList_cons, skelList_cons, skelList_cons, ih]
  | case6 ps t d c0 k0 hge0 k1 tail c1 hge1 c2 tail1 r hr ih =>
    have hr' : ¬ (updateInNode t d (k0 :: k1 :: tail) ps).2 = true := hr
    have hupd : updatePostingList (Node23.mk (k0 :: k1 :: tail) ps (c0 :: c1 :: c2 :: tail1)) t d =
        Node23.mk (k0 :: k1 :: tail) ps (c0 :: c1 :: updatePostingList c2 t d :: tail1) := by
      rw [updatePostingList.eq_def]; simp [hr', hge0, hge1]
    rw [hupd, skel_mk, skel_mk]
    rw [skelList_cons, skelList_cons, skelList_cons, skelList_cons, skelList_cons, skelList_cons, ih]
  | case7 ps t d c0 k0 hge0 k1 tail c1 hge1 r hr =>
    have hr' : ¬ (updateInNode t d (k0 :: k1 :: tail) ps).2 = true := hr
    have hupd : updatePostingList (Node23.mk (k0 :: k1 :: tail) ps [c0, c1]) t d =
        Node23.mk (k0 :: k1 :: tail) ps [c0, c1] := by
      rw [updatePostingList.eq_def]; simp [hr', hge0, hge1]
    rw [hupd]
  | case8 ps t d c0 k0 hge0 k1 tail r hr =>
    have hr' : ¬ (updateInNode t d (k0 :: k1 :: tail) ps).2 = true := hr
    have hupd : updatePostingList (Node23.mk (k0 :: k1 :: tail) ps [c0]) t d =
        Node23.mk (k0 :: k1 :: tail) ps [c0] := by
      rw [updatePostingList.eq_def]; simp [hr', hge0]
    rw [hupd]
  | case9 ps t d c0 k0 hge0 r hr =>
    have hr' : ¬ (updateInNode t d [k0] ps).2 = true := hr
    have hupd : updatePostingList (Node23.mk [k0] ps [c0]) t d = Node23.mk [k0] ps [c0] := by
      rw [updatePostingList.eq_def]; simp [hr', hge0]
    rw [hupd]
  | case10 ps t d hd tl r hr =>
    have hr' : ¬ (updateInNode t d [] ps).2 = true := hr
    have hupd : updatePostingList (Node23.mk [] ps (hd :: tl)) t d =
        Node23.mk [] ps (hd :: tl) := by
      rw [updatePostingList.eq_def]; simp [hr']
    rw [hupd]

theorem forall₂_postingStep_refl (t d : String) (l : List (String × List String)) :
    List.Forall₂ (postingStep t d) l l :=
  List.forall₂_same.mpr (fun _ _ => ⟨rfl, Or.inl rfl⟩)

theorem entries_updatePostingList (n : Node23) (t d : String) :
    List.Forall₂ (postingStep t d) (collectAllTerms n)
      (collectAllTerms (updatePostingList n t d)) := by
  induction n, t, d using updatePostingList.induct with
  | case1 ks ps cs t d r hr =>
    have hr' : (updateInNode t d ks ps).2 = true := hr
    have hupd : updatePostingList (Node23.mk ks ps cs) t d =
        Node23.mk ks (updateInNode t d ks ps).1 cs := by
      rw [updatePostingList.eq_def]; simp only [hr', if_true]
    rw [hupd, collectAllTerms_mk, collectAllTerms_mk]
    exact List.rel_append (updateInNode_forall₂ t d ks ps)
      (forall₂_postingStep_refl t d _)
  | case2 ks ps t d r hr =>
    have hr' : ¬ (updateInNode t d ks ps).2 = true := hr
    have hupd : updatePostingList (Node23.mk ks ps []) t d = Node23.mk ks ps [] := by
      rw [updatePostingList.eq_def]; simp [hr']
    rw [hupd]
    exact forall₂_postingStep_refl t d _
  | case3 ps t d c0 cs' k0 ks' hlt r hr ih =>
    have hr' : ¬ (updateInNode t d (k0 :: ks') ps).2 = true := hr
    have hupd : updatePostingList (Node23.mk (k0 :: ks') ps (c0 :: cs')) t d =
        Node23.mk (k0 :: ks') ps (updatePostingList c0 t d :: cs') := by
      rw [updatePostingList.eq_def]; simp [hr', hlt]
    rw [hupd, collectAllTerms_mk, collectAllTerms_mk, collectAllTermsList_cons,
      collectAllTermsList_cons]
    exact List.rel_append (forall₂_postingStep_refl t d _)
      (List.rel_append ih (forall₂_postingStep_refl t d _))
  | case4 ps t d c0 k0 hge c1 tail r hr ih =>
    have hr' : ¬ (updateInNode t d [k0] ps).2 = true := hr
    have hupd : updatePostingList (Node23.mk [k0] ps (c0 :: c1 :: tail)) t d =
        Node23.mk [k0] ps (c0 :: updatePostingList c1 t d :: tail) := by
      rw [updatePostingList.eq_def]; simp [hr', hge]
    rw [hupd, collectAllTerms_mk, collectAllTerms_mk, collectAllTermsList_cons,
      collectAllTermsList_cons, collectAllTermsList_cons, collectAllTermsList_cons]
    exact List.rel_append (forall₂_postingStep_refl t d _)
      (List.rel_append (forall₂_postingStep_refl t d _)
        (List.rel_append ih (forall₂_postingStep_refl t d _)))
  | case5 ps t d c0 k0 hge k1 tail c1 cs'' hlt r hr ih =>
    have hr' : ¬ (updateInNode t d (k0 :: k1 :: tail) ps).2 = true := hr
    have hupd : updatePostingList (Node23.mk (k0 :: k1 :: tail) ps (c0 :: c1 :: cs'')) t d =
        Node23.mk (k0 :: k1 :: tail) ps (c0 :: updatePostingList c1 t d :: cs'') := by
      rw [updatePostingList.eq_def]; simp [hr', hge, hlt]
    rw [hupd, collectAllTerms_mk, collectAllTerms_mk, collectAllTermsList_cons,
      collectAllTermsList_cons, collectAllTermsList_cons, collectAllTermsList_cons]
    exact List.rel_append (forall₂_postingStep_refl t d _)
      (List.rel_append (forall₂_postingStep_refl t d _)
        (List.rel_append ih (forall₂_postingStep_refl t d _)))
  | case6 ps t d c0 k0 hge0 k1 tail c1 hge1 c2 tail1 r hr ih =>
    have hr' : ¬ (updateInNode t d (k0 :: k1 :: tail) ps).2 = true := hr
    have hupd : updatePostingList (Node23.mk (k0 :: k1 :: tail) ps (c0 :: c1 :: c2 :: tail1)) t d =
        Node23.mk (k0 :: k1 :: tail) ps (c0 :: c1 :: updatePostingList c2 t d :: tail1) := by
      rw [updatePostingList.eq_def]; simp [hr', hge0, hge1]
    rw [hupd, collectAllTerms_mk, collectAllTerms_mk, collectAllTermsList_cons,
      collectAllTermsList_cons, collectAllTermsList_cons, collectAllTermsList_cons,
      collectAllTermsList_cons, collectAllTermsList_cons]
    exact List.rel_append (forall₂_postingStep_refl t d _)
      (List.rel_append (forall₂_postingStep_refl t d _)
        (List.rel_append (forall₂_postingStep_refl t d _)
          (List.rel_append ih (forall₂_postingStep_refl t d _))))
  | case7 ps t d c0 k0 hge0 k1 tail c1 hge1 r hr =>
    have hr' : ¬ (updateInNode t d (k0 :: k1 :: tail) ps).2 = true := hr
    have hupd : updatePostingList (Node23.mk (k0 :: k1 :: tail) ps [c0, c1]) t d =
        Node23.mk (k0 :: k1 :: tail) ps [c0, c1] := by
      rw [updatePostingList.eq_def]; simp [hr', hge0, hge1]
    rw [hupd]
    exact forall₂_postingStep_refl t d _
  | case8 ps t d c0 k0 hge0 k1 tail r hr =>
    have hr' : ¬ (updateInNode t d (k0 :: k1 :: tail) ps).2 = true := hr
    have hupd : updatePostingList (Node23.mk (k0 :: k1 :: tail) ps [c0]) t d =
        Node23.mk (k0 :: k1 :: tail) ps [c0] := by
      rw [updatePostingList.eq_def]; simp [hr', hge0]
    rw [hupd]
    exact forall₂_postingStep_refl t d _
  | case9 ps t d c0 k0 hge0 r hr =>
    have hr' : ¬ (updateInNode t d [k0] ps).2 = true := hr
    have hupd : updatePostingList (Node23.mk [k0] ps [c0]) t d = Node23.mk [k0] ps [c0] := by
      rw [updatePostingList.eq_def]; simp [hr', hge0]
    rw [hupd]
    exact forall₂_postingStep_refl t d _
  | case10 ps t d hd tl r hr =>
    have hr' : ¬ (updateInNode t d [] ps).2 = true := hr
    have hupd : updatePostingList (Node23.mk [] ps (hd :: tl)) t d =
        Node23.mk [] ps (hd :: tl) := by
      rw [updatePostingList.eq_def]; simp [hr']
    rw [hupd]
    exact forall₂_postingStep_refl t d _

theorem insert_update_of_found (n : Node23) (t d : String) (h : search n t ≠ []) :
    insert n t d = updatePostingList n t d := by
  simp only [insert, if_pos h]

theorem C1_monotonicity_amended (n : Node23) (t d t' x : String)
    (h : search n t ≠ []) (hx : x ∈ search n t') : x ∈ search (insert n t d) t' := by
  rw [insert_update_of_found n t d h]
  exact mem_searchRecursive_update n t d t' x hx

theorem C1_monotonicity_amended_witness :
    search (buildT [("a", "1")]) "a" ≠ [] ∧
    "1" ∈ search (insert (buildT [("a", "1")]) "a" "2") "a" :=
  ⟨by decide, C1_monotonicity_amended (buildT [("a", "1")]) "a" "2" "a" "1"
    (by decide) (by decide)⟩

theorem C6_pure_update_amended (n : Node23) (t d : String) (h : search n t ≠ []) :
    skel (insert n t d) = skel n ∧
    List.Forall₂ (postingStep t d) (collectAllTerms n) (collectAllTerms (insert n t d)) := by
  rw [insert_update_of_found n t d h]
  exact ⟨skel_updatePostingList n t d, entries_updatePostingList n t d⟩

theorem C6_pure_update_amended_witness :
    search (buildT [("a", "1"), ("b", "1")]) "b" ≠ [] ∧
    skel (insert (buildT [("a", "1"), ("b", "1")]) "b" "2") =
      skel (buildT [("a", "1"), ("b", "1")]) ∧
    List.Forall₂ (postingStep "b" "2") (collectAllTerms (buildT [("a", "1"), ("b", "1")]))
      (collectAllTerms (insert (buildT [("a", "1"), ("b", "1")]) "b" "2")) := by
  refine ⟨by decide, ?_, ?_⟩
  · exact (C6_pure_update_amended (buildT [("a", "1"), ("b", "1")]) "b" "2" (by decide)).1
  · exact (C6_pure_update_amended (buildT [("a", "1"), ("b", "1")]) "b" "2" (by decide)).2
theorem insertAt_length (i : Nat) (a : α) (l : List α) :
    (insertAt i a l).length = l.length + 1 := by
  induction i generalizing l with
  | zero => simp [insertAt]
  | succ n ih =>
    cases l with
    | nil => simp [insertAt]
    | cons x xs => simp [insertAt, ih]

theorem orderedInsertP_length (x : String × List String) (l : List (String × List String)) :
    (orderedInsertP x l).length = l.length + 1 := by
  induction l with
  | nil => simp [orderedInsertP]
  | cons y ys ih =>
    by_cases h : pairLt y x = true
    · simp [orderedInsertP, h, ih]
    · simp [orderedInsertP, h]

theorem sortPairs_length (l : List (String × List String)) :
    (sortPairs l).length = l.length := by
  induction l with
  | nil => rfl
  | cons x xs ih => simp [sortPairs, orderedInsertP_length, ih]

theorem sortPairs_three (a b c : String × List String) :
    ∃ x y z, sortPairs [a, b, c] = [x, y, z] := by
  have h : (sortPairs [a, b, c]).length = 3 := by simp [sortPairs_length]
  rcases List.length_eq_three.mp h with ⟨x, y, z, hxyz⟩
  exact ⟨x, y, z, hxyz⟩

theorem spliceChildren_two (m : String) (l r c0 c1 c2 : Node23) (k0 k1 : String) :
    spliceChildren m l r [c0, c1, c2] [k0, k1] =
      if strLt m k0 then [l, r, c1, c2]
      else if strLt m k1 then [c0, l, r, c2]
      else [c0, c1, l, r] := by
  by_cases h0 : strLt m k0 = true
  · simp [spliceChildren, spliceGo, h0, insertAt]
  · by_cases h1 : strLt m k1 = true
    · simp [spliceChildren, spliceGo, h0, h1, insertAt]
    · simp [spliceChildren, spliceGo, h0, h1, insertAt]

theorem splitNode_leaf_eq (k0 k1 : String) (p0 p1 : List String) (t : String) (pl : List String) :
    ∃ x1 x2 y1 y2 z1 z2,
      sortPairs [(k0, p0), (k1, p1), (t, pl)] = [(x1, x2), (y1, y2), (z1, z2)] ∧
      splitNode (.mk [k0, k1] [p0, p1] []) t pl none =
        (.mk [x1] [x2] [], y1, .mk [z1] [z2] []) := by
  obtain ⟨x, y, z, h⟩ := sortPairs_three (k0, p0) (k1, p1) (t, pl)
  obtain ⟨x1, x2⟩ := x
  obtain ⟨y1, y2⟩ := y
  obtain ⟨z1, z2⟩ := z
  refine ⟨x1, x2, y1, y2, z1, z2, h, ?_⟩
  simp only [splitNode]
  rw [show ([k0, k1] ++ [t]).zip ([p0, p1] ++ [pl]) = [(k0, p0), (k1, p1), (t, pl)] from rfl]
  rw [h]
  rfl

theorem splitNode_internal_eq (k0 k1 : String) (p0 p1 : List String) (c0 c1 c2 : Node23)
    (m : String) (mp : List String) (l r : Node23) :
    ∃ x1 x2 y1 y2 z1 z2,
      sortPairs [(k0, p0), (k1, p1), (m, mp)] = [(x1, x2), (y1, y2), (z1, z2)] ∧
      splitNode (.mk [k0, k1] [p0, p1] [c0, c1, c2]) m mp (some (l, r)) =
        (.mk [x1] [x2]
            ((if strLt m k0 then [l, r, c1, c2]
              else if strLt m k1 then [c0, l, r, c2]
              else [c0, c1, l, r]).take 2), y1,
         .mk [z1] [z2]
            ((if strLt m k0 then [l, r, c1, c2]
              else if strLt m k1 then [c0, l, r, c2]
              else [c0, c1, l, r]).drop 2)) := by
  obtain ⟨x, y, z, h⟩ := sortPairs_three (k0, p0) (k1, p1) (m, mp)
  obtain ⟨x1, x2⟩ := x
  obtain ⟨y1, y2⟩ := y
  obtain ⟨z1, z2⟩ := z
  refine ⟨x1, x2, y1, y2, z1, z2, h, ?_⟩
  simp only [splitNode, spliceChildren_two]
  rw [show ([k0, k1] ++ [m]).zip ([p0, p1] ++ [mp]) = [(k0, p0), (k1, p1), (m, mp)] from rfl]
  rw [h]
theorem bsh_inv {ks : List String} {ps : List (List String)} {cs : List Node23} {h : Nat}
    (hb : bsh (.mk ks ps cs) = some h) :
    (cs = [] ∧ h = 0 ∧ ps.length = ks.length ∧ ks.length ≤ 2) ∨
    (∃ k0 p0 c0 c1 h', ks = [k0] ∧ ps = [p0] ∧ cs = [c0, c1] ∧
      bsh c0 = some h' ∧ bsh c1 = some h' ∧ h = h' + 1) ∨
    (∃ k0 k1 p0 p1 c0 c1 c2 h', ks = [k0, k1] ∧ ps = [p0, p1] ∧ cs = [c0, c1, c2] ∧
      bsh c0 = some h' ∧ bsh c1 = some h' ∧ bsh c2 = some h' ∧ h = h' + 1) := by
  cases cs with
  | nil =>
    left
    rw [bsh.eq_1] at hb
    by_cases hc : ps.length = ks.length ∧ ks.length ≤ 2
    · rw [if_pos hc] at hb
      exact ⟨rfl, by injection hb; omega, hc.1, hc.2⟩
    · rw [if_neg hc] at hb; exact absurd hb (by simp)
  | cons c0 cs1 =>
    right
    cases ks with
    | nil => rw [bsh.eq_def] at hb; simp at hb
    | cons k0 ks1 =>
      cases ks1 with
      | nil =>
        cases ps with
        | nil => rw [bsh.eq_def] at hb; simp at hb
        | cons p0 ps1 =>
          cases ps1 with
          | nil =>
            cases cs1 with
            | nil => rw [bsh.eq_def] at hb; simp at hb
            | cons c1 cs2 =>
              cases cs2 with
              | nil =>
                left
                rw [bsh.eq_def] at hb
                simp only at hb
                cases h0 : bsh c0 with
                | none => rw [h0] at hb; simp at hb
                | some v0 =>
                  cases h1 : bsh c1 with
                  | none => rw [h0, h1] at hb; simp at hb
                  | some v1 =>
                    rw [h0, h1] at hb
                    by_cases hv : v0 = v1
                    · simp only [hv, if_pos rfl] at hb
                      exact ⟨k0, p0, c0, c1, v1, rfl, rfl, rfl, by rw [h0, hv], h1,
                        by injection hb; omega⟩
                    · simp [hv] at hb
              | cons c2 cs3 => rw [bsh.eq_def] at hb; simp at hb
          | cons p1 ps2 => rw [bsh.eq_def] at hb; simp at hb
      | cons k1 ks2 =>
        right
        cases ks2 with
        | nil =>
          cases ps with
          | nil => rw [bsh.eq_def] at hb; simp at hb
          | cons p0 ps1 =>
            cases ps1 with
            | nil => rw [bsh.eq_def] at hb; simp at hb
            | cons p1 ps2 =>
              cases ps2 with
              | nil =>
                cases cs1 with
                | nil => rw [bsh.eq_def] at hb; simp at hb
                | cons c1 cs2 =>
                  cases cs2 with
                  | nil => rw [bsh.eq_def] at hb; simp at hb
                  | cons c2 cs3 =>
                    cases cs3 with
                    | nil =>
                      rw [bsh.eq_def] at hb
                      simp only at hb
                      cases h0 : bsh c0 with
                      | none => rw [h0] at hb; simp at hb
                      | some v0 =>
                        cases h1 : bsh c1 with
                        | none => rw [h0, h1] at hb; simp at hb
                        | some v1 =>
                          cases h2 : bsh c2 with
                          | none => rw [h0, h1, h2] at hb; simp at hb
                          | some v2 =>
                            rw [h0, h1, h2] at hb
                            by_cases hv : v0 = v1 ∧ v1 = v2
                            · simp only [hv, if_pos, and_self] at hb
                              refine ⟨k0, k1, p0, p1, c0, c1, c2, v2, rfl, rfl, rfl,
                                by rw [h0, hv.1, hv.2], by rw [h1, hv.2], h2, ?_⟩
                              have := hv
                              injection hb; omega
                            · simp [hv] at hb
                    | cons c3 cs4 => rw [bsh.eq_def] at hb; simp at hb
              | cons p2 ps3 => rw [bsh.eq_def] at hb; simp at hb
        | cons k2 ks3 => rw [bsh.eq_def] at hb; simp at hb

theorem bsh_leaf {ks : List String} {ps : List (List String)}
    (h1 : ps.length = ks.length) (h2 : ks.length ≤ 2) :
    bsh (.mk ks ps []) = some 0 := by
  rw [bsh.eq_1, if_pos ⟨h1, h2⟩]

theorem bsh_two_node {k0 : String} {p0 : List String} {c0 c1 : Node23} {h' : Nat}
    (hc0 : bsh c0 = some h') (hc1 : bsh c1 = some h') :
    bsh (.mk [k0] [p0] [c0, c1]) = some (h' + 1) := by
  rw [bsh.eq_def]
  simp [hc0, hc1]

theorem bsh_three_node {k0 k1 : String} {p0 p1 : List String} {c0 c1 c2 : Node23} {h' : Nat}
    (hc0 : bsh c0 = some h') (hc1 : bsh c1 = some h') (hc2 : bsh c2 = some h') :
    bsh (.mk [k0, k1] [p0, p1] [c0, c1, c2]) = some (h' + 1) := by
  rw [bsh.eq_def]
  simp [hc0, hc1, hc2]

theorem bsh_insert_in_node_leaf {ks : List String} {ps : List (List String)}
    (t : String) (pl : List String)
    (h1 : ps.length = ks.length) (h2 : ks.length ≤ 1) :
    bsh (insert_in_node (.mk ks ps []) t pl) = some 0 := by
  rw [insert_in_node]
  exact bsh_leaf (by rw [insertAt_length, insertAt_length, h1]) (by rw [insertAt_length]; omega)

theorem stepChild_bsh_two {k0 : String} {p0 : List String} {c0 c1 : Node23} {h' : Nat}
    {ci : Nat} (hci : ci = 0 ∨ ci = 1) (res : SplitRes)
    (hc0 : bsh c0 = some h') (hc1 : bsh c1 = some h') (hres : InsOK res h') :
    InsOK (stepChild [k0] [p0] [c0, c1] ci res) (h' + 1) := by
  cases res with
  | done c' =>
    rcases hci with rfl | rfl
    · exact bsh_two_node hres hc1
    · exact bsh_two_node hc0 hres
  | split l m r =>
    obtain ⟨hl, hr⟩ := hres
    show bsh (absorb [k0] [p0] [c0, c1] ci l m r) = some (h' + 1)
    rw [absorb]
    rcases hci with rfl | rfl
    · by_cases hk : strLt k0 m = true
      · simp only [insertIdx, hk, if_true, insertAt, List.set]
        exact bsh_three_node hl hr hc1
      · simp only [insertIdx, hk, if_false, insertAt, List.set]
        exact bsh_three_node hl hr hc1
    · by_cases hk : strLt k0 m = true
      · simp only [insertIdx, hk, if_true, insertAt, List.set]
        exact bsh_three_node hc0 hl hr
      · simp only [insertIdx, hk, if_false, insertAt, List.set]
        exact bsh_three_node hc0 hl hr

theorem stepChild_bsh_three {k0 k1 : String} {p0 p1 : List String} {c0 c1 c2 : Node23} {h' : Nat}
    {ci : Nat} (hci : ci = 0 ∨ ci = 1 ∨ ci = 2) (res : SplitRes)
    (hc0 : bsh c0 = some h') (hc1 : bsh c1 = some h') (hc2 : bsh c2 = some h')
    (hres : InsOK res h') :
    InsOK (stepChild [k0, k1] [p0, p1] [c0, c1, c2] ci res) (h' + 1) := by
  cases res with
  | done c' =>
    rcases hci with rfl | rfl | rfl
    · exact bsh_three_node hres hc1 hc2
    · exact bsh_three_node hc0 hres hc2
    · exact bsh_three_node hc0 hc1 hres
  | split l m r =>
    obtain ⟨hl, hr⟩ := hres
    obtain ⟨x1, x2, y1, y2, z1, z2, hsort, hsplit⟩ :=
      splitNode_internal_eq k0 k1 p0 p1 c0 c1 c2 m [] l r
    have hstep : stepChild [k0, k1] [p0, p1] [c0, c1, c2] ci (.split l m r) =
        .split (splitNode (.mk [k0, k1] [p0, p1] [c0, c1, c2]) m [] (some (l, r))).1
          (splitNode (.mk [k0, k1] [p0, p1] [c0, c1, c2]) m [] (some (l, r))).2.1
          (splitNode (.mk [k0, k1] [p0, p1] [c0, c1, c2]) m [] (some (l, r))).2.2 := rfl
    rw [hstep, hsplit]
    by_cases h0 : strLt m k0 = true
    · simp only [h0, if_true, List.take, List.drop]
      exact ⟨bsh_two_node hl hr, bsh_two_node hc1 hc2⟩
    · by_cases h1 : strLt m k1 = true
      · simp only [h0, h1, if_true, if_false, List.take, List.drop]
        exact ⟨bsh_two_node hc0 hl, bsh_two_node hr hc2⟩
      · simp only [h0, h1, if_false, List.take, List.drop]
        exact ⟨bsh_two_node hc0 hc1, bsh_two_node hl hr⟩

theorem insOK_insertRecursive (n : Node23) (t : String) (pl : List String) :
    ∀ h, bsh n = some h → InsOK (insertRecursive n t pl) h := by
  induction n, t, pl using insertRecursive.induct with
  | case1 ks ps t pl hfull l' m' r' hsp =>
    intro h hb
    rcases bsh_inv hb with ⟨_, rfl, hlen, hle⟩ | ⟨k0, p0, c0, c1, h', _, _, hcs, _⟩ |
      ⟨k0, k1, p0, p1, c0, c1, c2, h', _, _, hcs, _⟩
    · have hks2 : ks.length = 2 := by
        have : (ks.length == 2) = true := hfull
        simpa using this
      obtain ⟨k0, k1, rfl⟩ := List.length_eq_two.mp hks2
      have hps2 : ps.length = 2 := by rw [hlen, hks2]
      obtain ⟨p0, p1, rfl⟩ := List.length_eq_two.mp hps2
      have hins : insertRecursive (.mk [k0, k1] [p0, p1] []) t pl =
          .split l' m' r' := by
        rw [insertRecursive.eq_def]
        simp only [hfull, if_true, hsp]
      rw [hins]
      obtain ⟨x1, x2, y1, y2, z1, z2, hsort, hsplit⟩ := splitNode_leaf_eq k0 k1 p0 p1 t pl
      rw [hsp] at hsplit
      injection hsplit with h1 h23
      injection h23 with h2 h3
      constructor
      · rw [h1]; exact bsh_leaf rfl (by simp)
      · rw [h3]; exact bsh_leaf rfl (by simp)
    · exact absurd hcs (by simp)
    · exact absurd hcs (by simp)
  | case2 ks ps t pl hfull =>
    intro h hb
    rcases bsh_inv hb with ⟨_, rfl, hlen, hle⟩ | ⟨k0, p0, c0, c1, h', _, _, hcs, _⟩ |
      ⟨k0, k1, p0, p1, c0, c1, c2, h', _, _, hcs, _⟩
    · have hks : ks.length ≠ 2 := by
        intro hc
        exact hfull (by simpa [Node23.is_full] using hc)
      have hins : insertRecursive (.mk ks ps []) t pl =
          .done (insert_in_node (.mk ks ps []) t pl) := by
        rw [insertRecursive.eq_def]
        simp [hfull]
      rw [hins]
      exact bsh_insert_in_node_leaf t pl hlen (by omega)
    · exact absurd hcs (by simp)
    · exact absurd hcs (by simp)
  | case3 ps t pl c0 cs' k0 ks' hlt ih =>
    intro h hb
    have hins : insertRecursive (.mk (k0 :: ks') ps (c0 :: cs')) t pl =
        stepChild (k0 :: ks') ps (c0 :: cs') 0 (insertRecursive c0 t pl) := by
      rw [insertRecursive.eq_def]
      simp only [hlt, if_true]
    rw [hins]
    rcases bsh_inv hb with ⟨hcs, _, _, _⟩ | ⟨k0', p0, d0, d1, h', hks, hps, hcs, hb0, hb1, rfl⟩ |
      ⟨k0', k1', p0, p1, d0, d1, d2, h', hks, hps, hcs, hb0, hb1, hb2, rfl⟩
    · exact absurd hcs (by simp)
    · injection hks with hk hktl
      injection hcs with hc hctl
      subst hk; subst hktl; subst hps; subst hc; subst hctl
      exact stepChild_bsh_two (Or.inl rfl) _ hb0 hb1 (ih h' hb0)
    · injection hks with hk hktl
      injection hcs with hc hctl
      subst hk; subst hktl; subst hps; subst hc; subst hctl
      exact stepChild_bsh_three (Or.inl rfl) _ hb0 hb1 hb2 (ih h' hb0)
  | case4 ps t pl c0 k0 hge c1 tail ih =>
    intro h hb
    have hins : insertRecursive (.mk [k0] ps (c0 :: c1 :: tail)) t pl =
        stepChild [k0] ps (c0 :: c1 :: tail) 1 (insertRecursive c1 t pl) := by
      rw [insertRecursive.eq_def]
      simp [hge]
    rw [hins]
    rcases bsh_inv hb with ⟨hcs, _, _, _⟩ | ⟨k0', p0, d0, d1, h', hks, hps, hcs, hb0, hb1, rfl⟩ |
      ⟨k0', k1', p0, p1, d0, d1, d2, h', hks, hps, hcs, hb0, hb1, hb2, rfl⟩
    · exact absurd hcs (by simp)
    · injection hks with hk hktl
      injection hcs with hc hctl
      injection hctl with hc1 hctl2
      subst hk; subst hps; subst hc; subst hc1; subst hctl2
      exact stepChild_bsh_two (Or.inr rfl) _ hb0 hb1 (ih h' hb1)
    · exact absurd hks (by simp)
  | case5 ps t pl c0 k0 hge0 k1 tail c1 cs'' hlt1 ih =>
    intro h hb
    have hins : insertRecursive (.mk (k0 :: k1 :: tail) ps (c0 :: c1 :: cs'')) t pl =
        stepChild (k0 :: k1 :: tail) ps (c0 :: c1 :: cs'') 1 (insertRecursive c1 t pl) := by
      rw [insertRecursive.eq_def]
      simp [hge0, hlt1]
    rw [hins]
    rcases bsh_inv hb with ⟨hcs, _, _, _⟩ | ⟨k0', p0, d0, d1, h', hks, hps, hcs, hb0, hb1, rfl⟩ |
      ⟨k0', k1', p0, p1, d0, d1, d2, h', hks, hps, hcs, hb0, hb1, hb2, rfl⟩
    · exact absurd hcs (by simp)
    · exact absurd hks (by simp)
    · injection hks with hk hktl
      injection hktl with hk1 hktl2
      injection hcs with hc hctl
      injection hctl with hc1 hctl2
      subst hk; subst hk1; subst hktl2; subst hps; subst hc; subst hc1; subst hctl2
      exact stepChild_bsh_three (Or.inr (Or.inl rfl)) _ hb0 hb1 hb2 (ih h' hb1)
  | case6 ps t pl c0 k0 hge0 k1 tail c1 hge1 c2 tail1 ih =>
    intro h hb
    have hins : insertRecursive (.mk (k0 :: k1 :: tail) ps (c0 :: c1 :: c2 :: tail1)) t pl =
        stepChild (k0 :: k1 :: tail) ps (c0 :: c1 :: c2 :: tail1) 2 (insertRecursive c2 t pl) := by
      rw [insertRecursive.eq_def]
      simp [hge0, hge1]
    rw [hins]
    rcases bsh_inv hb with ⟨hcs, _, _, _⟩ | ⟨k0', p0, d0, d1, h', hks, hps, hcs, hb0, hb1, rfl⟩ |
      ⟨k0', k1', p0, p1, d0, d1, d2, h', hks, hps, hcs, hb0, hb1, hb2, rfl⟩
    · exact absurd hcs (by simp)
    · exact absurd hks (by simp)
    · injection hks with hk hktl
      injection hktl with hk1 hktl2
      injection hcs with hc hctl
      injection hctl with hc1 hctl2
      injection hctl2 with hc2 hctl3
      subst hk; subst hk1; subst hktl2; subst hps; subst hc; subst hc1; subst hc2; subst hctl3
      exact stepChild_bsh_three (Or.inr (Or.inr rfl)) _ hb0 hb1 hb2 (ih h' hb2)
  | case7 ps t pl c0 k0 hge0 k1 tail c1 hge1 =>
    intro h hb
    rcases bsh_inv hb with ⟨hcs, _, _, _⟩ | ⟨k0', p0, d0, d1, h', hks, hps, hcs, hb0, hb1, rfl⟩ |
      ⟨k0', k1', p0, p1, d0, d1, d2, h', hks, hps, hcs, hb0, hb1, hb2, rfl⟩
    · exact absurd hcs (by simp)
    · exact absurd hks (by simp)
    · exact absurd hcs (by simp)
  | case8 ps t pl c0 k0 hge0 hd tail =>
    intro h hb
    rcases bsh_inv hb with ⟨hcs, _, _, _⟩ | ⟨k0', p0, d0, d1, h', hks, hps, hcs, hb0, hb1, rfl⟩ |
      ⟨k0', k1', p0, p1, d0, d1, d2, h', hks, hps, hcs, hb0, hb1, hb2, rfl⟩
    · exact absurd hcs (by simp)
    · exact absurd hks (by simp)
    · exact absurd hcs (by simp)
  | case9 ps t pl c0 k0 hge0 =>
    intro h hb
    rcases bsh_inv hb with ⟨hcs, _, _, _⟩ | ⟨k0', p0, d0, d1, h', hks, hps, hcs, hb0, hb1, rfl⟩ |
      ⟨k0', k1', p0, p1, d0, d1, d2, h', hks, hps, hcs, hb0, hb1, hb2, rfl⟩
    · exact absurd hcs (by simp)
    · exact absurd hcs (by simp)
    · exact absurd hcs (by simp)
  | case10 ps t pl hd tail =>
    intro h hb
    rcases bsh_inv hb with ⟨hcs, _, _, _⟩ | ⟨k0', p0, d0, d1, h', hks, hps, hcs, hb0, hb1, rfl⟩ |
      ⟨k0', k1', p0, p1, d0, d1, d2, h', hks, hps, hcs, hb0, hb1, hb2, rfl⟩
    · exact absurd hcs (by simp)
    · exact absurd hks (by simp)
    · exact absurd hks (by simp)

theorem bsh_none_one_child (ks : List String) (ps : List (List String)) (c0 : Node23) :
    bsh (.mk ks ps [c0]) = none := by
  rw [bsh.eq_def]; simp only

theorem bsh_none_many (ks : List String) (ps : List (List String)) (c0 c1 c2 c3 : Node23)
    (cs : List Node23) : bsh (.mk ks ps (c0 :: c1 :: c2 :: c3 :: cs)) = none := by
  rw [bsh.eq_def]; simp only

theorem bsh_two_shape (ks : List String) (ps : List (List String)) (c0 c1 : Node23) :
    bsh (.mk ks ps [c0, c1]) =
      match ks, ps with
      | [_], [_] =>
        (match bsh c0, bsh c1 with
         | some h0, some h1 => if h0 = h1 then some (h0 + 1) else none
         | _, _ => none)
      | _, _ => none := by
  rw [bsh.eq_def]
  cases ks with
  | nil => simp only
  | cons k0 ks1 =>
    cases ks1 with
    | nil =>
      cases ps with
      | nil => simp only
      | cons p0 ps1 =>
        cases ps1 with
        | nil => simp only
        | cons p1 ps2 => simp only
    | cons k1 ks2 => simp only

theorem bsh_three_shape (ks : List String) (ps : List (List String)) (c0 c1 c2 : Node23) :
    bsh (.mk ks ps [c0, c1, c2]) =
      match ks, ps with
      | [_, _], [_, _] =>
        (match bsh c0, bsh c1, bsh c2 with
         | some h0, some h1, some h2 => if h0 = h1 ∧ h1 = h2 then some (h0 + 1) else none
         | _, _, _ => none)
      | _, _ => none := by
  rw [bsh.eq_def]
  cases ks with
  | nil => simp only
  | cons k0 ks1 =>
    cases ks1 with
    | nil => simp only
    | cons k1 ks2 =>
      cases ks2 with
      | nil =>
        cases ps with
        | nil => simp only
        | cons p0 ps1 =>
          cases ps1 with
          | nil => simp only
          | cons p1 ps2 =>
            cases ps2 with
            | nil => simp only
            | cons p2 ps3 => simp only
      | cons k2 ks3 => simp only

theorem bsh_congr {ks : List String} {ps ps' : List (List String)} {cs cs' : List Node23}
    (hps : ps.length = ps'.length)
    (hcs : List.Forall₂ (fun a b => bsh a = bsh b) cs cs') :
    bsh (.mk ks ps cs) = bsh (.mk ks ps' cs') := by
  cases hcs with
  | nil => rw [bsh.eq_1, bsh.eq_1, hps]
  | @cons c0 c0' cs1 cs1' h0 htl =>
    cases htl with
    | nil => rw [bsh_none_one_child, bsh_none_one_child]
    | @cons c1 c1' cs2 cs2' h1 htl2 =>
      cases htl2 with
      | nil =>
        rw [bsh_two_shape, bsh_two_shape, h0, h1]
        cases ks with
        | nil => simp only
        | cons k0 ks1 =>
          cases ks1 with
          | nil =>
            cases ps with
            | nil =>
              cases ps' with
              | nil => simp only
              | cons q0 qs1 => simp at hps
            | cons p0 ps1 =>
              cases ps1 with
              | nil =>
                cases ps' with
                | nil => simp at hps
                | cons q0 qs1 =>
                  cases qs1 with
                  | nil => simp only
                  | cons q1 qs2 => simp at hps
              | cons p1 ps2 =>
                cases ps' with
                | nil => simp at hps
                | cons q0 qs1 =>
                  cases qs1 with
                  | nil => simp at hps
                  | cons q1 qs2 => simp only
          | cons k1 ks2 => simp only
      | @cons c2 c2' cs3 cs3' h2 htl3 =>
        cases htl3 with
        | nil =>
          rw [bsh_three_shape, bsh_three_shape, h0, h1, h2]
          cases ks with
          | nil => simp only
          | cons k0 ks1 =>
            cases ks1 with
            | nil => simp only
            | cons k1 ks2 =>
              cases ks2 with
              | nil =>
                cases ps with
                | nil =>
                  cases ps' with
                  | nil => simp only
                  | cons q0 qs1 => simp at hps
                | cons p0 ps1 =>
                  cases ps1 with
                  | nil =>
                    cases ps' with
                    | nil => simp at hps
                    | cons q0 qs1 =>
                      cases qs1 with
                      | nil => simp only
                      | cons q1 qs2 => simp at hps
                  | cons p1 ps2 =>
                    cases ps2 with
                    | nil =>
                      cases ps' with
                      | nil => simp at hps
                      | cons q0 qs1 =>
                        cases qs1 with
                        | nil => simp at hps
                        | cons q1 qs2 =>
                          cases qs2 with
                          | nil => simp only
                          | cons q2 qs3 => simp at hps
                    | cons p2 ps3 =>
                      cases ps' with
                      | nil => simp at hps
                      | cons q0 qs1 =>
                        cases qs1 with
                        | nil => simp at hps
                        | cons q1 qs2 =>
                          cases qs2 with
                          | nil => simp at hps
                          | cons q2 qs3 => simp only
              | cons k2 ks3 => simp only
        | @cons c3 c3' cs4 cs4' h3 htl4 =>
          rw [bsh_none_many, bsh_none_many]

theorem forall₂_bsh_refl (cs : List Node23) : List.Forall₂ (fun a b => bsh a = bsh b) cs cs :=
  List.forall₂_same.mpr (fun _ _ => rfl)

theorem bsh_updatePostingList (n : Node23) (t d : String) :
    bsh (updatePostingList n t d) = bsh n := by
  induction n, t, d using updatePostingList.induct with
  | case1 ks ps cs t d r hr =>
    have hr' : (updateInNode t d ks ps).2 = true := hr
    have hupd : updatePostingList (Node23.mk ks ps cs) t d =
        Node23.mk ks (updateInNode t d ks ps).1 cs := by
      rw [updatePostingList.eq_def]; simp only [hr', if_true]
    rw [hupd]
    exact bsh_congr (by rw [updateInNode_length]) (forall₂_bsh_refl cs)
  | case2 ks ps t d r hr =>
    have hr' : ¬ (updateInNode t d ks ps).2 = true := hr
    have hupd : updatePostingList (Node23.mk ks ps []) t d = Node23.mk ks ps [] := by
      rw [updatePostingList.eq_def]; simp [hr']
    rw [hupd]
  | case3 ps t d c0 cs' k0 ks' hlt r hr ih =>
    have hr' : ¬ (updateInNode t d (k0 :: ks') ps).2 = true := hr
    have hupd : updatePostingList (Node23.mk (k0 :: ks') ps (c0 :: cs')) t d =
        Node23.mk (k0 :: ks') ps (updatePostingList c0 t d :: cs') := by
      rw [updatePostingList.eq_def]; simp [hr', hlt]
    rw [hupd]
    exact bsh_congr rfl (List.Forall₂.cons ih (forall₂_bsh_refl cs'))
  | case4 ps t d c0 k0 hge c1 tail r hr ih =>
    have hr' : ¬ (updateInNode t d [k0] ps).2 = true := hr
    have hupd : updatePostingList (Node23.mk [k0] ps (c0 :: c1 :: tail)) t d =
        Node23.mk [k0] ps (c0 :: updatePostingList c1 t d :: tail) := by
      rw [updatePostingList.eq_def]; simp [hr', hge]
    rw [hupd]
    exact bsh_congr rfl (List.Forall₂.cons rfl (List.Forall₂.cons ih (forall₂_bsh_refl tail)))
  | case5 ps t d c0 k0 hge k1 tail c1 cs'' hlt r hr ih =>
    have hr' : ¬ (updateInNode t d (k0 :: k1 :: tail) ps).2 = true := hr
    have hupd : updatePostingList (Node23.mk (k0 :: k1 :: tail) ps (c0 :: c1 :: cs'')) t d =
        Node23.mk (k0 :: k1 :: tail) ps (c0 :: updatePostingList c1 t d :: cs'') := by
      rw [updatePostingList.eq_def]; simp [hr', hge, hlt]
    rw [hupd]
    exact bsh_congr rfl (List.Forall₂.cons rfl (List.Forall₂.cons ih (forall₂_bsh_refl cs'')))
  | case6 ps t d c0 k0 hge0 k1 tail c1 hge1 c2 tail1 r hr ih =>
    have hr' : ¬ (updateInNode t d (k0 :: k1 :: tail) ps).2 = true := hr
    have hupd : updatePostingList (Node23.mk (k0 :: k1 :: tail) ps (c0 :: c1 :: c2 :: tail1)) t d =
        Node23.mk (k0 :: k1 :: tail) ps (c0 :: c1 :: updatePostingList c2 t d :: tail1) := by
      rw [updatePostingList.eq_def]; simp [hr', hge0, hge1]
    rw [hupd]
    exact bsh_congr rfl (List.Forall₂.cons rfl (List.Forall₂.cons rfl
      (List.Forall₂.cons ih (forall₂_bsh_refl tail1))))
  | case7 ps t d c0 k0 hge0 k1 tail c1 hge1 r hr =>
    have hr' : ¬ (updateInNode t d (k0 :: k1 :: tail) ps).2 = true := hr
    have hupd : updatePostingList (Node23.mk (k0 :: k1 :: tail) ps [c0, c1]) t d =
        Node23.mk (k0 :: k1 :: tail) ps [c0, c1] := by
      rw [updatePostingList.eq_def]; simp [hr', hge0, hge1]
    rw [hupd]
  | case8 ps t d c0 k0 hge0 k1 tail r hr =>
    have hr' : ¬ (updateInNode t d (k0 :: k1 :: tail) ps).2 = true := hr
    have hupd : updatePostingList (Node23.mk (k0 :: k1 :: tail) ps [c0]) t d =
        Node23.mk (k0 :: k1 :: tail) ps [c0] := by
      rw [updatePostingList.eq_def]; simp [hr', hge0]
    rw [hupd]
  | case9 ps t d c0 k0 hge0 r hr =>
    have hr' : ¬ (updateInNode t d [k0] ps).2 = true := hr
    have hupd : updatePostingList (Node23.mk [k0] ps [c0]) t d = Node23.mk [k0] ps [c0] := by
      rw [updatePostingList.eq_def]; simp [hr', hge0]
    rw [hupd]
  | case10 ps t d hd tl r hr =>
    have hr' : ¬ (updateInNode t d [] ps).2 = true := hr
    have hupd : updatePostingList (Node23.mk [] ps (hd :: tl)) t d =
        Node23.mk [] ps (hd :: tl) := by
      rw [updatePostingList.eq_def]; simp [hr']
    rw [hupd]
theorem bsh_insert (n : Node23) (t d : String) (h : Nat) (hb : bsh n = some h) :
    bsh (insert n t d) = some h ∨
    (∃ l m r, search n t = [] ∧ insertRecursive n t [d] = .split l m r ∧
      insert n t d = .mk [m] [[]] [l, r] ∧ bsh (insert n t d) = some (h + 1)) := by
  by_cases hs : search n t = []
  · cases hres : insertRecursive n t [d] with
    | done n' =>
      left
      have : insert n t d = n' := by
        simp only [insert, hs, ne_eq, not_true_eq_false, if_false, hres]
      rw [this]
      have := insOK_insertRecursive n t [d] h hb
      rwa [hres] at this
    | split l m r =>
      right
      have hins : insert n t d = .mk [m] [[]] [l, r] := by
        simp only [insert, hs, ne_eq, not_true_eq_false, if_false, hres]
      have hok := insOK_insertRecursive n t [d] h hb
      rw [hres] at hok
      obtain ⟨hl, hr⟩ := hok
      exact ⟨l, m, r, hs, rfl, hins, by rw [hins]; exact bsh_two_node hl hr⟩
  · left
    have : insert n t d = updatePostingList n t d := by
      simp only [insert, ne_eq, hs, not_false_eq_true, if_true]
    rw [this, bsh_updatePostingList]
    exact hb

theorem bsh_buildT (ps : List (String × String)) : ∃ h, bsh (buildT ps) = some h := by
  suffices H : ∀ (l : List (String × String)) (n : Node23) (h : Nat), bsh n = some h →
      ∃ h', bsh (l.foldl (fun n p => insert n p.1 p.2) n) = some h' by
    exact H ps fresh 0 (by rw [fresh, bsh.eq_1]; simp)
  intro l
  induction l with
  | nil => intro n h hb; exact ⟨h, hb⟩
  | cons p l ih =>
    intro n h hb
    rcases bsh_insert n p.1 p.2 h hb with h1 | ⟨_, _, _, _, _, _, h1⟩
    · exact ih (insert n p.1 p.2) h h1
    · exact ih (insert n p.1 p.2) (h + 1) h1

theorem node_ind (P : Node23 → Prop)
    (step : ∀ ks ps cs, (∀ c ∈ cs, P c) → P (.mk ks ps cs)) : ∀ n, P n
  | .mk ks ps cs => step ks ps cs (fun c hc => node_ind P step c)
termination_by n => sizeOf n
decreasing_by
  have := List.sizeOf_lt_of_mem hc
  simp only [Node23.mk.sizeOf_spec]
  omega

theorem leafDepths_bsh (n : Node23) :
    ∀ h, bsh n = some h → ∀ d0 x, x ∈ leafDepths n d0 → x = d0 + h := by
  induction n using node_ind with
  | step ks ps cs ih =>
    intro h hb d0 x hx
    rcases bsh_inv hb with ⟨rfl, rfl, _, _⟩ |
      ⟨k0, p0, c0, c1, h', hks, hps, rfl, hb0, hb1, rfl⟩ |
      ⟨k0, k1, p0, p1, c0, c1, c2, h', hks, hps, rfl, hb0, hb1, hb2, rfl⟩
    · rw [show leafDepths (.mk ks ps []) d0 = [d0] from rfl] at hx
      simpa using hx
    · rw [show leafDepths (.mk ks ps [c0, c1]) d0 =
          leafDepths c0 (d0 + 1) ++ (leafDepths c1 (d0 + 1) ++ []) from rfl] at hx
      rw [List.append_nil] at hx
      rcases List.mem_append.mp hx with hx0 | hx1
      · have := ih c0 (by simp) h' hb0 (d0 + 1) x hx0
        omega
      · have := ih c1 (by simp) h' hb1 (d0 + 1) x hx1
        omega
    · rw [show leafDepths (.mk ks ps [c0, c1, c2]) d0 =
          leafDepths c0 (d0 + 1) ++ (leafDepths c1 (d0 + 1) ++ (leafDepths c2 (d0 + 1) ++ []))
          from rfl] at hx
      rw [List.append_nil] at hx
      rcases List.mem_append.mp hx with hx0 | hx12
      · have := ih c0 (by simp) h' hb0 (d0 + 1) x hx0
        omega
      · rcases List.mem_append.mp hx12 with hx1 | hx2
        · have := ih c1 (by simp) h' hb1 (d0 + 1) x hx1
          omega
        · have := ih c2 (by simp) h' hb2 (d0 + 1) x hx2
          omega

/-- Claim C8: for every tree obtained from a fresh tree by any sequence
of `insert(term, doc_id)` calls, every leaf lies at the same depth from
the root. -/
theorem C8_balance (ps : List (String × String)) :
    ∃ h, ∀ d ∈ leafDepths (buildT ps) 0, d = h := by
  obtain ⟨h, hb⟩ := bsh_buildT ps
  exact ⟨h, fun d hd => by simpa using leafDepths_bsh (buildT ps) h hb 0 d hd⟩

theorem C8_balance_witness :
    ∃ h, (∀ d ∈ leafDepths (buildT [("a", "1"), ("b", "1"), ("c", "1")]) 0, d = h) ∧ h = 1 := by
  obtain ⟨h, hh⟩ := C8_balance [("a", "1"), ("b", "1"), ("c", "1")]
  exact ⟨h, hh, (hh 1 (by decide)).symm⟩

/-- Claim C9: whenever a structural insert propagates a split past the
root, a brand-new root is created holding exactly the promoted key
(with an empty posting list) and the two returned nodes as its only
children, and the height increases by exactly one; every insertion that
does not split the root leaves the height unchanged. -/
theorem C9_root_growth (ps : List (String × String)) (t d : String) :
    ∃ h, bsh (buildT ps) = some h ∧
      ((∃ l m r, search (buildT ps) t = [] ∧
          insertRecursive (buildT ps) t [d] = .split l m r ∧
          insert (buildT ps) t d = .mk [m] [[]] [l, r] ∧
          bsh (insert (buildT ps) t d) = some (h + 1)) ∨
        bsh (insert (buildT ps) t d) = some h) := by
  obtain ⟨h, hb⟩ := bsh_buildT ps
  rcases bsh_insert (buildT ps) t d h hb with h1 | h2
  · exact ⟨h, hb, Or.inr h1⟩
  · exact ⟨h, hb, Or.inl h2⟩

theorem C9_root_growth_witness :
    bsh (buildT [("a", "1"), ("b", "1")]) = some 0 ∧
    bsh (insert (buildT [("a", "1"), ("b", "1")]) "c" "1") = some 1 := by
  obtain ⟨h, hb, hcase⟩ := C9_root_growth [("a", "1"), ("b", "1")] "c" "1"
  have hb0 : bsh (buildT [("a", "1"), ("b", "1")]) = some 0 := by decide
  have hh : h = 0 := by
    rw [hb0] at hb
    injection hb with hv
    omega
  subst hh
  rcases hcase with ⟨l, m, r, _, _, _, hafter⟩ | hsame
  · exact ⟨hb0, hafter⟩
  · have h1 : bsh (insert (buildT [("a", "1"), ("b", "1")]) "c" "1") = some 1 := by decide
    rw [h1] at hsame
    exact absurd hsame (by simp)
theorem strLt_irrefl (a : String) : strLt a a = false := by
  simp [strLt]

theorem strLt_false_iff (a b : String) : strLt a b = false ↔ b ≤ a := by
  rw [← Bool.not_eq_true, strLt_iff]
  exact not_lt

theorem strLt_asymm {a b : String} (h : strLt a b = true) : strLt b a = false := by
  rw [strLt_iff] at h
  rw [strLt_false_iff]
  exact le_of_lt h

theorem strLt_trans {a b c : String} (h1 : strLt a b = true) (h2 : strLt b c = true) :
    strLt a c = true := by
  rw [strLt_iff] at h1 h2 ⊢
  exact lt_trans h1 h2

theorem strLt_antisymm {a b : String} (h1 : strLt a b = false) (h2 : strLt b a = false) :
    a = b := by
  rw [strLt_false_iff] at h1 h2
  exact le_antisymm h2 h1

theorem strLt_of_lt_of_le {a b c : String} (h1 : strLt a b = true) (h2 : strLt c b = false) :
    strLt a c = true := by
  rw [strLt_iff] at h1 ⊢
  rw [strLt_false_iff] at h2
  exact lt_of_lt_of_le h1 h2

theorem strLt_of_le_of_lt {a b c : String} (h1 : strLt b a = false) (h2 : strLt b c = true) :
    strLt a c = true := by
  rw [strLt_iff] at h2 ⊢
  rw [strLt_false_iff] at h1
  exact lt_of_le_of_lt h1 h2

theorem strLt_le_trans {a b c : String} (h1 : strLt b a = false) (h2 : strLt c b = false) :
    strLt c a = false := by
  rw [strLt_false_iff] at h1 h2 ⊢
  exact le_trans h1 h2

theorem hiGe_of_ltHi {k : String} {hi : Option String} (h : ltHi k hi = true) :
    hiGe hi k = true := by
  cases hi with
  | none => rfl
  | some u =>
    simp only [ltHi] at h
    simp only [hiGe, Bool.not_eq_true']
    exact strLt_asymm h

theorem ltHi_ne {k u : String} (h : ltHi k (some u) = true) : k ≠ u := by
  simp only [ltHi] at h
  intro he
  subst he
  rw [strLt_irrefl] at h
  exact absurd h (by simp)

theorem orderedInsertP_perm (x : String × List String) (l : List (String × List String)) :
    List.Perm (orderedInsertP x l) (x :: l) := by
  induction l with
  | nil => rfl
  | cons y ys ih =>
    by_cases h : pairLt y x = true
    · simp only [orderedInsertP, h, if_true]
      exact (ih.cons y).trans (List.Perm.swap x y ys)
    · simp [orderedInsertP, h]

theorem sortPairs_perm (l : List (String × List String)) :
    List.Perm (sortPairs l) l := by
  induction l with
  | nil => rfl
  | cons x xs ih => exact (orderedInsertP_perm x (sortPairs xs)).trans (ih.cons x)

theorem pairLt_false_key {x y : String × List String} (h : pairLt y x = false) :
    strLt y.1 x.1 = false := by
  by_contra hc
  rw [Bool.not_eq_false] at hc
  rw [pairLt, hc] at h
  simp at h

theorem pairLt_true_key {x y : String × List String} (h : pairLt y x = true) :
    strLt x.1 y.1 = false := by
  by_contra hc
  rw [Bool.not_eq_false] at hc
  have hyx := strLt_asymm hc
  rw [pairLt, hyx, hc] at h
  simp at h

theorem sortPairs_three_sorted (a b c : String × List String) :
    ∃ x y z, sortPairs [a, b, c] = [x, y, z] ∧
      strLt y.1 x.1 = false ∧ strLt z.1 y.1 = false := by
  show ∃ x y z, orderedInsertP a (orderedInsertP b (orderedInsertP c [])) = [x, y, z] ∧ _
  simp only [orderedInsertP]
  by_cases hcb : pairLt c b = true
  · simp only [hcb, if_true]
    by_cases hca : pairLt c a = true
    · simp only [orderedInsertP, hca, if_true]
      by_cases hba : pairLt b a = true
      · simp only [orderedInsertP, hba, if_true]
        exact ⟨c, b, a, rfl, pairLt_true_key hcb, pairLt_true_key hba⟩
      · rw [Bool.not_eq_true] at hba
        simp only [orderedInsertP, hba, if_false]
        exact ⟨c, a, b, rfl, pairLt_true_key hca, pairLt_false_key hba⟩
    · rw [Bool.not_eq_true] at hca
      simp only [orderedInsertP, hca, if_false]
      exact ⟨a, c, b, rfl, pairLt_false_key hca, pairLt_true_key hcb⟩
  · rw [Bool.not_eq_true] at hcb
    simp only [hcb, if_false]
    by_cases hba : pairLt b a = true
    · simp only [orderedInsertP, hba, if_true]
      by_cases hca : pairLt c a = true
      · simp only [orderedInsertP, hca, if_true]
        exact ⟨b, c, a, rfl, pairLt_false_key hcb, pairLt_true_key hca⟩
      · rw [Bool.not_eq_true] at hca
        simp only [orderedInsertP, hca, if_false]
        exact ⟨b, a, c, rfl, pairLt_true_key hba, pairLt_false_key hca⟩
    · rw [Bool.not_eq_true] at hba
      simp only [orderedInsertP, hba, if_false]
      exact ⟨a, b, c, rfl, pairLt_false_key hba, pairLt_false_key hcb⟩

theorem pairLt_nil (x y : String) : pairLt (x, []) (y, []) = strLt x y := by
  rw [pairLt]
  by_cases h : strLt x y = true
  · rw [h]; simp
  · rw [Bool.not_eq_true] at h
    rw [h]
    by_cases h2 : strLt y x = true
    · rw [h2]; simp [listLt]
    · rw [Bool.not_eq_true] at h2
      rw [h2]
      simp [listLt]

theorem sortPairs_nil_postings (a b c : String) (hab : strLt b a = false) :
    sortPairs [(a, []), (b, []), (c, [])] =
      if strLt c a then [(c, []), (a, []), (b, [])]
      else if strLt c b then [(a, []), (c, []), (b, [])]
      else [(a, []), (b, []), (c, [])] := by
  show orderedInsertP (a, []) (orderedInsertP (b, []) (orderedInsertP (c, []) [])) = _
  by_cases hcb : strLt c b = true
  · by_cases hca : strLt c a = true
    · simp [orderedInsertP, pairLt_nil, hab, hcb, hca]
    · rw [Bool.not_eq_true] at hca
      simp [orderedInsertP, pairLt_nil, hab, hcb, hca]
  · rw [Bool.not_eq_true] at hcb
    have hca : strLt c a = false := strLt_le_trans hab hcb
    simp [orderedInsertP, pairLt_nil, hab, hcb, hca]
theorem wfb_junk {lo hi : Option String} {ks : List String} {ps : List (List String)}
    {cs : List Node23}
    (h1 : ¬(ks = [] ∧ ps = [] ∧ cs = []))
    (h2 : ∀ k0 p0, ¬(ks = [k0] ∧ ps = [p0] ∧ cs = []))
    (h3 : ∀ k0 k1 p0 p1, ¬(ks = [k0, k1] ∧ ps = [p0, p1] ∧ cs = []))
    (h4 : ∀ k0 p0 c0 c1, ¬(ks = [k0] ∧ ps = [p0] ∧ cs = [c0, c1]))
    (h5 : ∀ k0 k1 p0 p1 c0 c1 c2, ¬(ks = [k0, k1] ∧ ps = [p0, p1] ∧ cs = [c0, c1, c2])) :
    wfb lo hi (.mk ks ps cs) = false := by
  apply wfb.eq_6
  · intro he; injection he with a b c; exact h1 ⟨a, b, c⟩
  · intro k0 p0 he; injection he with a b c; exact h2 k0 p0 ⟨a, b, c⟩
  · intro k0 k1 p0 p1 he; injection he with a b c; exact h3 k0 k1 p0 p1 ⟨a, b, c⟩
  · intro k0 p0 c0 c1 he; injection he with a b c; exact h4 k0 p0 c0 c1 ⟨a, b, c⟩
  · intro k0 k1 p0 p1 c0 c1 c2 he; injection he with a b c
    exact h5 k0 k1 p0 p1 c0 c1 c2 ⟨a, b, c⟩

theorem wfb_inv {lo hi : Option String} {ks : List String} {ps : List (List String)}
    {cs : List Node23} (hw : wfb lo hi (.mk ks ps cs) = true) :
    (ks = [] ∧ ps = [] ∧ cs = []) ∨
    (∃ k0 p0, ks = [k0] ∧ ps = [p0] ∧ cs = [] ∧ loLe lo k0 = true ∧ hiGe hi k0 = true ∧
      p0 ≠ [] ∧ p0.Nodup) ∨
    (∃ k0 k1 p0 p1, ks = [k0, k1] ∧ ps = [p0, p1] ∧ cs = [] ∧ loLe lo k0 = true ∧
      strLt k1 k0 = false ∧ hiGe hi k1 = true ∧ notTwoHi hi k0 k1 = true ∧
      p0 ≠ [] ∧ p1 ≠ [] ∧ p0.Nodup ∧ p1.Nodup) ∨
    (∃ k0 p0 c0 c1, ks = [k0] ∧ ps = [p0] ∧ cs = [c0, c1] ∧ loLe lo k0 = true ∧
      hiGe hi k0 = true ∧ p0 = [] ∧ wfb lo (some k0) c0 = true ∧ wfb (some k0) hi c1 = true) ∨
    (∃ k0 k1 p0 p1 c0 c1 c2, ks = [k0, k1] ∧ ps = [p0, p1] ∧ cs = [c0, c1, c2] ∧
      loLe lo k0 = true ∧ strLt k1 k0 = false ∧ hiGe hi k1 = true ∧
      notTwoHi hi k0 k1 = true ∧ p0 = [] ∧ p1 = [] ∧
      wfb lo (some k0) c0 = true ∧ wfb (some k0) (some k1) c1 = true ∧
      wfb (some k1) hi c2 = true) := by
  by_cases s1 : ks = [] ∧ ps = [] ∧ cs = []
  · exact Or.inl s1
  by_cases s2 : ∃ k0 p0, ks = [k0] ∧ ps = [p0] ∧ cs = []
  · obtain ⟨k0, p0, rfl, rfl, rfl⟩ := s2
    rw [wfb.eq_2] at hw
    simp only [Bool.and_eq_true] at hw
    obtain ⟨⟨⟨hlo, hhi⟩, hne⟩, hnd⟩ := hw
    refine Or.inr (Or.inl ⟨k0, p0, rfl, rfl, rfl, hlo, hhi, ?_, of_decide_eq_true hnd⟩)
    intro he; subst he; simp at hne
  by_cases s3 : ∃ k0 k1 p0 p1, ks = [k0, k1] ∧ ps = [p0, p1] ∧ cs = []
  · obtain ⟨k0, k1, p0, p1, rfl, rfl, rfl⟩ := s3
    rw [wfb.eq_3] at hw
    simp only [Bool.and_eq_true] at hw
    obtain ⟨⟨⟨⟨⟨⟨⟨hlo, hs⟩, hhi⟩, h2⟩, hne0⟩, hne1⟩, hnd0⟩, hnd1⟩ := hw
    refine Or.inr (Or.inr (Or.inl ⟨k0, k1, p0, p1, rfl, rfl, rfl, hlo, ?_, hhi, h2, ?_, ?_,
      of_decide_eq_true hnd0, of_decide_eq_true hnd1⟩))
    · rwa [Bool.not_eq_true'] at hs
    · intro he; subst he; simp at hne0
    · intro he; subst he; simp at hne1
  by_cases s4 : ∃ k0 p0 c0 c1, ks = [k0] ∧ ps = [p0] ∧ cs = [c0, c1]
  · obtain ⟨k0, p0, c0, c1, rfl, rfl, rfl⟩ := s4
    rw [wfb.eq_4] at hw
    simp only [Bool.and_eq_true] at hw
    obtain ⟨⟨⟨⟨hlo, hhi⟩, hpe⟩, hw0⟩, hw1⟩ := hw
    exact Or.inr (Or.inr (Or.inr (Or.inl ⟨k0, p0, c0, c1, rfl, rfl, rfl, hlo, hhi,
      List.isEmpty_iff.mp hpe, hw0, hw1⟩)))
  by_cases s5 : ∃ k0 k1 p0 p1 c0 c1 c2, ks = [k0, k1] ∧ ps = [p0, p1] ∧ cs = [c0, c1, c2]
  · obtain ⟨k0, k1, p0, p1, c0, c1, c2, rfl, rfl, rfl⟩ := s5
    rw [wfb.eq_5] at hw
    simp only [Bool.and_eq_true] at hw
    obtain ⟨⟨⟨⟨⟨⟨⟨⟨hlo, hs⟩, hhi⟩, h2⟩, hp0⟩, hp1⟩, hw0⟩, hw1⟩, hw2⟩ := hw
    refine Or.inr (Or.inr (Or.inr (Or.inr ⟨k0, k1, p0, p1, c0, c1, c2, rfl, rfl, rfl, hlo, ?_,
      hhi, h2, List.isEmpty_iff.mp hp0, List.isEmpty_iff.mp hp1, hw0, hw1, hw2⟩)))
    rwa [Bool.not_eq_true'] at hs
  · exfalso
    rw [wfb_junk (fun hc => s1 hc) (fun k0 p0 hc => s2 ⟨k0, p0, hc⟩)
      (fun k0 k1 p0 p1 hc => s3 ⟨k0, k1, p0, p1, hc⟩)
      (fun k0 p0 c0 c1 hc => s4 ⟨k0, p0, c0, c1, hc⟩)
      (fun k0 k1 p0 p1 c0 c1 c2 hc => s5 ⟨k0, k1, p0, p1, c0, c1, c2, hc⟩)] at hw
    exact absurd hw (by simp)

theorem loLe_some_iff {l k : String} : loLe (some l) k = true ↔ strLt k l = false := by
  simp [loLe, Bool.not_eq_true']

theorem hiGe_some_iff {u k : String} : hiGe (some u) k = true ↔ strLt u k = false := by
  simp [hiGe, Bool.not_eq_true']

theorem hiGe_weaken {u k : String} {hi : Option String}
    (h1 : hiGe (some u) k = true) (h2 : hiGe hi u = true) : hiGe hi k = true := by
  cases hi with
  | none => rfl
  | some v =>
    rw [hiGe_some_iff] at h1 h2 ⊢
    exact strLt_le_trans h1 h2

theorem loLe_weaken {u k : String} {lo : Option String}
    (h1 : loLe (some u) k = true) (h2 : loLe lo u = true) : loLe lo k = true := by
  cases lo with
  | none => rfl
  | some v =>
    rw [loLe_some_iff] at h1 h2 ⊢
    exact strLt_le_trans h2 h1

theorem allKeys_mk (ks : List String) (ps : List (List String)) (cs : List Node23) :
    allKeys (.mk ks ps cs) = ks ++ allKeysList cs := rfl

theorem allKeysList_cons (c : Node23) (cs : List Node23) :
    allKeysList (c :: cs) = allKeys c ++ allKeysList cs := rfl

theorem allKeys_bounds (n : Node23) :
    ∀ {lo hi : Option String}, wfb lo hi n = true →
      ∀ k ∈ allKeys n, loLe lo k = true ∧ hiGe hi k = true := by
  induction n using node_ind with
  | step ks ps cs ih =>
    intro lo hi hw k hk
    rcases wfb_inv hw with ⟨rfl, rfl, rfl⟩ |
      ⟨k0, p0, rfl, rfl, rfl, hlo, hhi, _, _⟩ |
      ⟨k0, k1, p0, p1, rfl, rfl, rfl, hlo, hs, hhi, _, _, _, _, _⟩ |
      ⟨k0, p0, c0, c1, rfl, rfl, rfl, hlo, hhi, _, hw0, hw1⟩ |
      ⟨k0, k1, p0, p1, c0, c1, c2, rfl, rfl, rfl, hlo, hs, hhi, _, _, _, hw0, hw1, hw2⟩
    · simp [allKeys_mk, show allKeysList ([] : List Node23) = [] from rfl] at hk
    · simp only [allKeys_mk] at hk
      rw [show allKeysList ([] : List Node23) = [] from rfl] at hk
      simp at hk
      subst hk
      exact ⟨hlo, hhi⟩
    · simp only [allKeys_mk] at hk
      rw [show allKeysList ([] : List Node23) = [] from rfl] at hk
      simp at hk
      rcases hk with rfl | rfl
      · refine ⟨hlo, ?_⟩
        cases hi with
        | none => rfl
        | some u =>
          rw [hiGe_some_iff] at hhi ⊢
          exact strLt_le_trans hs hhi
      · refine ⟨?_, hhi⟩
        cases lo with
        | none => rfl
        | some l =>
          rw [loLe_some_iff] at hlo ⊢
          exact strLt_le_trans hlo hs
    · simp only [allKeys_mk, allKeysList_cons] at hk
      rw [show allKeysList ([] : List Node23) = [] from rfl, List.append_nil] at hk
      simp only [List.mem_append, List.mem_singleton] at hk
      rcases hk with rfl | hk0 | hk1
      · exact ⟨hlo, hhi⟩
      · obtain ⟨hl, hh⟩ := ih c0 (by simp) hw0 k hk0
        exact ⟨hl, hiGe_weaken hh hhi⟩
      · obtain ⟨hl, hh⟩ := ih c1 (by simp) hw1 k hk1
        exact ⟨loLe_weaken hl hlo, hh⟩
    · simp only [allKeys_mk, allKeysList_cons] at hk
      rw [show allKeysList ([] : List Node23) = [] from rfl, List.append_nil] at hk
      simp only [List.mem_append, List.mem_cons, List.mem_singleton] at hk
      have hk0hi : hiGe hi k0 = true := by
        cases hi with
        | none => rfl
        | some u =>
          rw [hiGe_some_iff] at hhi ⊢
          exact strLt_le_trans hs hhi
      have hk1lo : loLe lo k1 = true := by
        cases lo with
        | none => rfl
        | some l =>
          rw [loLe_some_iff] at hlo ⊢
          exact strLt_le_trans hlo hs
      rcases hk with (rfl | rfl | hnil) | hk0 | hk1 | hk2
      · exact ⟨hlo, hk0hi⟩
      · exact ⟨hk1lo, hhi⟩
      · exact absurd hnil (List.not_mem_nil k)
      · obtain ⟨hl, hh⟩ := ih c0 (by simp) hw0 k hk0
        exact ⟨hl, hiGe_weaken hh hk0hi⟩
      · obtain ⟨hl, hh⟩ := ih c1 (by simp) hw1 k hk1
        exact ⟨loLe_weaken hl hlo, hiGe_weaken hh hhi⟩
      · obtain ⟨hl, hh⟩ := ih c2 (by simp) hw2 k hk2
        exact ⟨loLe_weaken hl hk1lo, hh⟩

theorem allKeysList_nil : allKeysList [] = [] := rfl

theorem collectAllTermsList_nil : collectAllTermsList [] = [] := rfl

theorem internalKeys_leaf (ks : List String) (ps : List (List String)) :
    internalKeys (.mk ks ps []) = [] := rfl

theorem internalKeys_node (ks : List String) (ps : List (List String)) (c : Node23)
    (cs : List Node23) :
    internalKeys (.mk ks ps (c :: cs)) = ks ++ internalKeysList (c :: cs) := rfl

theorem internalKeysList_cons (c : Node23) (cs : List Node23) :
    internalKeysList (c :: cs) = internalKeys c ++ internalKeysList cs := rfl

theorem internalKeysList_nil : internalKeysList [] = [] := rfl

theorem notTwoHi_of_ne {hi : Option String} {k0 k1 : String} (h : k0 ≠ k1) :
    notTwoHi hi k0 k1 = true := by
  cases hi with
  | none => rfl
  | some u =>
    simp only [notTwoHi, Bool.not_eq_true', Bool.and_eq_false_iff, beq_eq_false_iff_ne, ne_eq]
    by_cases h0 : k0 = u
    · subst h0
      exact Or.inr (fun hc => h hc.symm)
    · exact Or.inl h0

theorem notTwoHi_of_ltHi_left {hi : Option String} {k0 k1 : String}
    (h : ltHi k0 hi = true) : notTwoHi hi k0 k1 = true := by
  cases hi with
  | none => rfl
  | some u =>
    simp only [notTwoHi, Bool.not_eq_true', Bool.and_eq_false_iff, beq_eq_false_iff_ne, ne_eq]
    exact Or.inl (ltHi_ne h)

theorem notTwoHi_of_ltHi_right {hi : Option String} {k0 k1 : String}
    (h : ltHi k1 hi = true) : notTwoHi hi k0 k1 = true := by
  cases hi with
  | none => rfl
  | some u =>
    simp only [notTwoHi, Bool.not_eq_true', Bool.and_eq_false_iff, beq_eq_false_iff_ne, ne_eq]
    exact Or.inr (ltHi_ne h)

theorem ltHi_of_notTwoHi {hi : Option String} {k0 k1 : String}
    (hs : strLt k1 k0 = false) (hhi : hiGe hi k1 = true) (h2 : notTwoHi hi k0 k1 = true) :
    ltHi k0 hi = true := by
  cases hi with
  | none => rfl
  | some u =>
    rw [ltHi]
    by_contra hc
    rw [Bool.not_eq_true] at hc
    rw [hiGe_some_iff] at hhi
    have hk0u : k0 = u := strLt_antisymm hc (strLt_le_trans hs hhi)
    have hk1u : k1 = u := strLt_antisymm (strLt_le_trans (hk0u ▸ hc) hs) hhi
    rw [notTwoHi, hk0u, hk1u] at h2
    simp at h2

theorem loLe_of_le {lo : Option String} {k0 k1 : String}
    (hlo : loLe lo k0 = true) (hs : strLt k1 k0 = false) : loLe lo k1 = true := by
  cases lo with
  | none => rfl
  | some l =>
    rw [loLe_some_iff] at hlo ⊢
    exact strLt_le_trans hlo hs

theorem hiGe_of_le {hi : Option String} {k0 k1 : String}
    (hhi : hiGe hi k1 = true) (hs : strLt k1 k0 = false) : hiGe hi k0 = true := by
  cases hi with
  | none => rfl
  | some u =>
    rw [hiGe_some_iff] at hhi ⊢
    exact strLt_le_trans hs hhi

theorem ltHi_trans_hiGe {k u : String} {hi : Option String}
    (h1 : ltHi k (some u) = true) (h2 : hiGe hi u = true) : ltHi k hi = true := by
  cases hi with
  | none => rfl
  | some v =>
    rw [ltHi] at h1 ⊢
    rw [hiGe_some_iff] at h2
    exact strLt_of_lt_of_le h1 h2

theorem wfb_leaf1 {lo hi : Option String} {k0 : String} {p0 : List String}
    (hlo : loLe lo k0 = true) (hhi : hiGe hi k0 = true) (h0 : p0 ≠ [])
    (hn0 : p0.Nodup) : wfb lo hi (.mk [k0] [p0] []) = true := by
  rw [wfb.eq_2]
  simp [hlo, hhi, h0, hn0]

theorem wfb_leaf2 {lo hi : Option String} {k0 k1 : String} {p0 p1 : List String}
    (hlo : loLe lo k0 = true) (hs : strLt k1 k0 = false) (hhi : hiGe hi k1 = true)
    (h2 : notTwoHi hi k0 k1 = true) (h0 : p0 ≠ []) (h1 : p1 ≠ [])
    (hn0 : p0.Nodup) (hn1 : p1.Nodup) :
    wfb lo hi (.mk [k0, k1] [p0, p1] []) = true := by
  rw [wfb.eq_3]
  simp [hlo, hs, hhi, h2, h0, h1, hn0, hn1]

theorem wfb_int2 {lo hi : Option String} {k0 : String} {c0 c1 : Node23}
    (hlo : loLe lo k0 = true) (hhi : hiGe hi k0 = true)
    (hc0 : wfb lo (some k0) c0 = true) (hc1 : wfb (some k0) hi c1 = true) :
    wfb lo hi (.mk [k0] [[]] [c0, c1]) = true := by
  rw [wfb.eq_4]
  simp [hlo, hhi, hc0, hc1]

theorem wfb_int3 {lo hi : Option String} {k0 k1 : String} {c0 c1 c2 : Node23}
    (hlo : loLe lo k0 = true) (hs : strLt k1 k0 = false) (hhi : hiGe hi k1 = true)
    (h2 : notTwoHi hi k0 k1 = true)
    (hc0 : wfb lo (some k0) c0 = true) (hc1 : wfb (some k0) (some k1) c1 = true)
    (hc2 : wfb (some k1) hi c2 = true) :
    wfb lo hi (.mk [k0, k1] [[], []] [c0, c1, c2]) = true := by
  rw [wfb.eq_5]
  simp [hlo, hs, hhi, h2, hc0, hc1, hc2]

theorem wf_ins_leaf {lo hi : Option String} {ks : List String} {ps : List (List String)}
    {t : String} {pl : List String}
    (hw : wfb lo hi (.mk ks ps []) = true) (hnf : ¬ (Node23.mk ks ps []).is_full = true)
    (hlot : loLe lo t = true) (hhit : ltHi t hi = true)
    (hple : pl ≠ []) (hplnd : pl.Nodup) :
    WfOK (.mk ks ps []) t pl lo hi (.done (insert_in_node (.mk ks ps []) t pl)) := by
  rcases wfb_inv hw with ⟨rfl, rfl, _⟩ |
    ⟨k0, p0, rfl, rfl, _, hlo, hhi, hp0, hn0⟩ |
    ⟨k0, k1, p0, p1, hks, _, _, _⟩ |
    ⟨k0, p0, c0, c1, _, _, hcs, _⟩ |
    ⟨k0, k1, p0, p1, c0, c1, c2, _, _, hcs, _⟩
  · have he : insert_in_node (.mk [] [] []) t pl = .mk [t] [pl] [] := rfl
    rw [he]
    refine ⟨wfb_leaf1 hlot (hiGe_of_ltHi hhit) hple hplnd, ?_, ?_, ?_⟩
    · simp [allKeys_mk, allKeysList_nil]
    · intro e he
      simp only [collectAllTerms_mk, collectAllTermsList_nil] at he
      simp at he
      exact Or.inl he
    · intro k hk
      simp [internalKeys_leaf] at hk
  · by_cases hk : strLt k0 t = true
    · have he : insert_in_node (.mk [k0] [p0] []) t pl = .mk [k0, t] [p0, pl] [] := by
        simp [insert_in_node, insertIdx, hk, insertAt]
      rw [he]
      refine ⟨wfb_leaf2 hlo (strLt_asymm hk) (hiGe_of_ltHi hhit)
        (notTwoHi_of_ltHi_right hhit) hp0 hple hn0 hplnd, ?_, ?_, ?_⟩
      · simp only [allKeys_mk, allKeysList_nil, List.append_nil]
        exact List.Perm.swap t k0 []
      · intro e he
        simp only [collectAllTerms_mk, collectAllTermsList_nil] at he
        simp at he
        rcases he with rfl | rfl
        · right; right; simp [collectAllTerms_mk, collectAllTermsList_nil]
        · exact Or.inl rfl
      · intro k hk
        simp [internalKeys_leaf] at hk
    · rw [Bool.not_eq_true] at hk
      have he : insert_in_node (.mk [k0] [p0] []) t pl = .mk [t, k0] [pl, p0] [] := by
        simp [insert_in_node, insertIdx, hk, insertAt]
      rw [he]
      refine ⟨wfb_leaf2 hlot hk hhi (notTwoHi_of_ltHi_left hhit) hple hp0 hplnd hn0,
        ?_, ?_, ?_⟩
      · simp [allKeys_mk, allKeysList_nil]
      · intro e he
        simp only [collectAllTerms_mk, collectAllTermsList_nil] at he
        simp at he
        rcases he with rfl | rfl
        · exact Or.inl rfl
        · right; right; simp [collectAllTerms_mk, collectAllTermsList_nil]
      · intro k hk
        simp [internalKeys_leaf] at hk
  · exfalso
    apply hnf
    rw [hks]
    rfl
  · simp at hcs
  · simp at hcs

theorem wf_splitNode_leaf {lo hi : Option String} {k0 k1 t : String} {p0 p1 pl : List String}
    {l' r' : Node23} {m' : String}
    (hw : wfb lo hi (.mk [k0, k1] [p0, p1] []) = true)
    (hlot : loLe lo t = true) (hhit : ltHi t hi = true)
    (hple : pl ≠ []) (hplnd : pl.Nodup)
    (hsp : splitNode (.mk [k0, k1] [p0, p1] []) t pl none = (l', m', r')) :
    WfOK (.mk [k0, k1] [p0, p1] []) t pl lo hi (.split l' m' r') := by
  rcases wfb_inv hw with ⟨hks, _⟩ |
    ⟨a, b, hks, _⟩ |
    ⟨a0, a1, b0, b1, hks, hps, _, hlo, hs, hhi, h2, hb0, hb1, hn0, hn1⟩ |
    ⟨a, b, c0, c1, _, _, hcs, _⟩ |
    ⟨a0, a1, b0, b1, c0, c1, c2, _, _, hcs, _⟩
  · simp at hks
  · simp at hks
  · injection hks with e0 hks'
    injection hks' with e1 _
    injection hps with f0 hps'
    injection hps' with f1 _
    subst e0; subst e1; subst f0; subst f1
    obtain ⟨x1, x2, y1, y2, z1, z2, hsort, hsplit⟩ := splitNode_leaf_eq k0 k1 p0 p1 t pl
    rw [hsp] at hsplit
    injection hsplit with hl hmr
    injection hmr with hm hr
    subst hl; subst hm; subst hr
    obtain ⟨x', y', z', heq, hs1, hs2⟩ := sortPairs_three_sorted (k0, p0) (k1, p1) (t, pl)
    rw [hsort] at heq
    injection heq with hx heq'
    injection heq' with hy heq''
    injection heq'' with hz _
    subst hx; subst hy; subst hz
    simp only at hs1 hs2
    have hperm2 : List.Perm [(x1, x2), (m', y2), (z1, z2)]
        [(k0, p0), (k1, p1), (t, pl)] := by
      rw [← hsort]; exact sortPairs_perm _
    have hkperm : List.Perm [x1, m', z1] [k0, k1, t] := by
      have := hperm2.map Prod.fst
      simpa using this
    have hbound : ∀ k ∈ ([k0, k1, t] : List String),
        loLe lo k = true ∧ hiGe hi k = true := by
      intro k hk
      simp at hk
      rcases hk with rfl | rfl | rfl
      · exact ⟨hlo, hiGe_of_le hhi hs⟩
      · exact ⟨loLe_of_le hlo hs, hhi⟩
      · exact ⟨hlot, hiGe_of_ltHi hhit⟩
    have hxm : x1 ∈ ([k0, k1, t] : List String) := hkperm.subset (by simp)
    have hym : m' ∈ ([k0, k1, t] : List String) := hkperm.subset (by simp)
    have hzm : z1 ∈ ([k0, k1, t] : List String) := hkperm.subset (by simp)
    have hpmem : ∀ e ∈ [(x1, x2), (m', y2), (z1, z2)],
        e = (k0, p0) ∨ e = (k1, p1) ∨ e = (t, pl) := by
      intro e he
      have := hperm2.subset he
      simpa using this
    have hgood : ∀ e ∈ [(x1, x2), (m', y2), (z1, z2)], e.2 ≠ [] ∧ e.2.Nodup := by
      intro e he
      rcases hpmem e he with rfl | rfl | rfl
      · exact ⟨hb0, hn0⟩
      · exact ⟨hb1, hn1⟩
      · exact ⟨hple, hplnd⟩
    have hmhi : ltHi m' hi = true := by
      cases hi with
      | none => rfl
      | some u =>
        rw [ltHi]
        by_contra hc
        rw [Bool.not_eq_true] at hc
        have hm'u : m' = u :=
          strLt_antisymm hc (hiGe_some_iff.mp (hbound m' hym).2)
        have hz1u : z1 = u := by
          refine strLt_antisymm ?_ (hiGe_some_iff.mp (hbound z1 hzm).2)
          rw [← hm'u]
          exact hs2
        have htu : t ≠ u := ltHi_ne hhit
        have hut : (t == u) = false := beq_eq_false_iff_ne.mpr htu
        have hcnt := hkperm.count_eq u
        rw [hm'u, hz1u] at hcnt
        simp only [List.count_cons, List.count_nil, beq_self_eq_true, hut,
          Bool.false_eq_true, if_true, if_false] at hcnt
        split_ifs at hcnt <;> try omega
        all_goals
          have hbk0 : (k0 == u) = true := by assumption
          have hbk1 : (k1 == u) = true := by assumption
          rw [notTwoHi] at h2
          rw [hbk0, hbk1] at h2
          simp at h2
    refine ⟨?_, ?_, (hbound m' hym).1, hmhi, ?_, ?_, ?_⟩
    · refine wfb_leaf1 (hbound x1 hxm).1 (hiGe_some_iff.mpr hs1)
        (hgood (x1, x2) (by simp)).1 (hgood (x1, x2) (by simp)).2
    · refine wfb_leaf1 (loLe_some_iff.mpr hs2) (hbound z1 hzm).2
        (hgood (z1, z2) (by simp)).1 (hgood (z1, z2) (by simp)).2
    · simp only [allKeys_mk, allKeysList_nil, List.append_nil]
      have hgoal : List.Perm ([x1] ++ m' :: [z1]) (t :: [k0, k1]) := by
        rw [List.perm_iff_count] at hkperm ⊢
        intro a
        have h := hkperm a
        simp only [List.count_cons, List.count_nil, List.count_append] at h ⊢
        split_ifs at h ⊢ <;> omega
      simpa using hgoal
    · intro e he
      simp only [collectAllTerms_mk, collectAllTermsList_nil] at he
      simp only [List.append_nil] at he
      have he' : e = (x1, x2) ∨ e = (z1, z2) := by
        rcases he with h | h
        · exact Or.inl (by simpa using h)
        · exact Or.inr (by simpa using h)
      have hm : e = (k0, p0) ∨ e = (k1, p1) ∨ e = (t, pl) := by
        rcases he' with rfl | rfl
        · exact hpmem (x1, x2) (by simp)
        · exact hpmem (z1, z2) (by simp)
      rcases hm with rfl | rfl | rfl
      · right; right; simp [collectAllTerms_mk, collectAllTermsList_nil]
      · right; right; simp [collectAllTerms_mk, collectAllTermsList_nil]
      · exact Or.inl rfl
    · intro k hk
      simp [internalKeys_leaf] at hk
  · simp at hcs
  · simp at hcs

theorem wf_done_two_0 {lo hi : Option String} {k0 t : String} {c0 c1 c0' : Node23}
    {pl : List String}
    (hw : wfb lo hi (.mk [k0] [[]] [c0, c1]) = true)
    (hok : WfOK c0 t pl lo (some k0) (.done c0')) :
    WfOK (.mk [k0] [[]] [c0, c1]) t pl lo hi
      (stepChild [k0] [[]] [c0, c1] 0 (.done c0')) := by
  rcases wfb_inv hw with ⟨_, _, hcs⟩ | ⟨a, b, _, _, hcs, _⟩ | ⟨a0, a1, b0, b1, _, _, hcs, _⟩ |
    ⟨a, b, d0, d1, hks, _, hcs, hlo, hhi, _, hw0, hw1⟩ |
    ⟨a0, a1, b0, b1, d0, d1, d2, hks, _, hcs, _⟩
  · simp at hcs
  · simp at hcs
  · simp at hcs
  · injection hks with ha _
    injection hcs with hc0 hcs'
    injection hcs' with hc1 _
    subst ha; subst hc0; subst hc1
    obtain ⟨hwc, hpc, hec, hic⟩ := hok
    have hstep : stepChild [k0] [[]] [c0, c1] 0 (.done c0') =
        .done (.mk [k0] [[]] [c0', c1]) := rfl
    rw [hstep]
    refine ⟨wfb_int2 hlo hhi hwc hw1, ?_, ?_, ?_⟩
    · simp only [allKeys_mk, allKeysList_cons, allKeysList_nil]
      rw [List.perm_iff_count] at hpc ⊢
      intro a
      have h := hpc a
      simp only [List.count_append, List.count_cons, List.count_nil] at h ⊢
      split_ifs at h ⊢ <;> omega
    · intro e he
      simp only [collectAllTerms_mk, collectAllTermsList_cons, collectAllTermsList_nil,
        List.append_nil, List.mem_append] at he
      rcases he with he | he | he
      · right; right
        simp only [collectAllTerms_mk, collectAllTermsList_cons, collectAllTermsList_nil,
          List.append_nil, List.mem_append]
        exact Or.inl he
      · rcases hec e he with h | h | h
        · exact Or.inl h
        · exact Or.inr (Or.inl h)
        · right; right
          simp only [collectAllTerms_mk, collectAllTermsList_cons, collectAllTermsList_nil,
            List.append_nil, List.mem_append]
          exact Or.inr (Or.inl h)
      · right; right
        simp only [collectAllTerms_mk, collectAllTermsList_cons, collectAllTermsList_nil,
          List.append_nil, List.mem_append]
        exact Or.inr (Or.inr he)
    · intro k hk
      simp only [internalKeys_node, internalKeysList_cons, internalKeysList_nil,
        List.append_nil, List.mem_append] at hk ⊢
      rcases hk with hk | hk | hk
      · exact Or.inl hk
      · exact Or.inr (Or.inl (hic k hk))
      · exact Or.inr (Or.inr hk)
  · simp at hcs

theorem wf_done_two_1 {lo hi : Option String} {k0 t : String} {c0 c1 c1' : Node23}
    {pl : List String}
    (hw : wfb lo hi (.mk [k0] [[]] [c0, c1]) = true)
    (hok : WfOK c1 t pl (some k0) hi (.done c1')) :
    WfOK (.mk [k0] [[]] [c0, c1]) t pl lo hi
      (stepChild [k0] [[]] [c0, c1] 1 (.done c1')) := by
  rcases wfb_inv hw with ⟨_, _, hcs⟩ | ⟨a, b, _, _, hcs, _⟩ | ⟨a0, a1, b0, b1, _, _, hcs, _⟩ |
    ⟨a, b, d0, d1, hks, _, hcs, hlo, hhi, _, hw0, hw1⟩ |
    ⟨a0, a1, b0, b1, d0, d1, d2, hks, _, hcs, _⟩
  · simp at hcs
  · simp at hcs
  · simp at hcs
  · injection hks with ha _
    injection hcs with hc0 hcs'
    injection hcs' with hc1 _
    subst ha; subst hc0; subst hc1
    obtain ⟨hwc, hpc, hec, hic⟩ := hok
    have hstep : stepChild [k0] [[]] [c0, c1] 1 (.done c1') =
        .done (.mk [k0] [[]] [c0, c1']) := rfl
    rw [hstep]
    refine ⟨wfb_int2 hlo hhi hw0 hwc, ?_, ?_, ?_⟩
    · simp only [allKeys_mk, allKeysList_cons, allKeysList_nil]
      rw [List.perm_iff_count] at hpc ⊢
      intro a
      have h := hpc a
      simp only [List.count_append, List.count_cons, List.count_nil] at h ⊢
      split_ifs at h ⊢ <;> omega
    · intro e he
      simp only [collectAllTerms_mk, collectAllTermsList_cons, collectAllTermsList_nil,
        List.append_nil, List.mem_append] at he
      rcases he with he | he | he
      · right; right
        simp only [collectAllTerms_mk, collectAllTermsList_cons, collectAllTermsList_nil,
          List.append_nil, List.mem_append]
        exact Or.inl he
      · right; right
        simp only [collectAllTerms_mk, collectAllTermsList_cons, collectAllTermsList_nil,
          List.append_nil, List.mem_append]
        exact Or.inr (Or.inl he)
      · rcases hec e he with h | h | h
        · exact Or.inl h
        · exact Or.inr (Or.inl h)
        · right; right
          simp only [collectAllTerms_mk, collectAllTermsList_cons, collectAllTermsList_nil,
            List.append_nil, List.mem_append]
          exact Or.inr (Or.inr h)
    · intro k hk
      simp only [internalKeys_node, internalKeysList_cons, internalKeysList_nil,
        List.append_nil, List.mem_append] at hk ⊢
      rcases hk with hk | hk | hk
      · exact Or.inl hk
      · exact Or.inr (Or.inl hk)
      · exact Or.inr (Or.inr (hic k hk))
  · simp at hcs

theorem wf_done_three_0 {lo hi : Option String} {k0 k1 t : String} {c0 c1 c2 c0' : Node23}
    {pl : List String}
    (hw : wfb lo hi (.mk [k0, k1] [[], []] [c0, c1, c2]) = true)
    (hok : WfOK c0 t pl lo (some k0) (.done c0')) :
    WfOK (.mk [k0, k1] [[], []] [c0, c1, c2]) t pl lo hi
      (stepChild [k0, k1] [[], []] [c0, c1, c2] 0 (.done c0')) := by
  rcases wfb_inv hw with ⟨_, _, hcs⟩ | ⟨a, b, _, _, hcs, _⟩ | ⟨a0, a1, b0, b1, _, _, hcs, _⟩ |
    ⟨a, b, d0, d1, hks, _, hcs, _⟩ |
    ⟨a0, a1, b0, b1, d0, d1, d2, hks, _, hcs, hlo, hs, hhi, h2, _, _, hw0, hw1, hw2⟩
  · simp at hcs
  · simp at hcs
  · simp at hcs
  · simp at hks
  · injection hks with ha hks'
    injection hks' with ha1 _
    injection hcs with hc0 hcs'
    injection hcs' with hc1 hcs''
    injection hcs'' with hc2 _
    subst ha; subst ha1; subst hc0; subst hc1; subst hc2
    obtain ⟨hwc, hpc, hec, hic⟩ := hok
    have hstep : stepChild [k0, k1] [[], []] [c0, c1, c2] 0 (.done c0') =
        .done (.mk [k0, k1] [[], []] [c0', c1, c2]) := rfl
    rw [hstep]
    refine ⟨wfb_int3 hlo hs hhi h2 hwc hw1 hw2, ?_, ?_, ?_⟩
    · simp only [allKeys_mk, allKeysList_cons, allKeysList_nil]
      rw [List.perm_iff_count] at hpc ⊢
      intro a
      have h := hpc a
      simp only [List.count_append, List.count_cons, List.count_nil] at h ⊢
      split_ifs at h ⊢ <;> omega
    · intro e he
      simp only [collectAllTerms_mk, collectAllTermsList_cons, collectAllTermsList_nil,
        List.append_nil, List.mem_append] at he
      rcases he with he | he | he | he
      · right; right
        simp only [collectAllTerms_mk, collectAllTermsList_cons, collectAllTermsList_nil,
          List.append_nil, List.mem_append]
        exact Or.inl he
      · rcases hec e he with h | h | h
        · exact Or.inl h
        · exact Or.inr (Or.inl h)
        · right; right
          simp only [collectAllTerms_mk, collectAllTermsList_cons, collectAllTermsList_nil,
            List.append_nil, List.mem_append]
          exact Or.inr (Or.inl h)
      · right; right
        simp only [collectAllTerms_mk, collectAllTermsList_cons, collectAllTermsList_nil,
          List.append_nil, List.mem_append]
        exact Or.inr (Or.inr (Or.inl he))
      · right; right
        simp only [collectAllTerms_mk, collectAllTermsList_cons, collectAllTermsList_nil,
          List.append_nil, List.mem_append]
        exact Or.inr (Or.inr (Or.inr he))
    · intro k hk
      simp only [internalKeys_node, internalKeysList_cons, internalKeysList_nil,
        List.append_nil, List.mem_append] at hk ⊢
      rcases hk with hk | hk | hk | hk
      · exact Or.inl hk
      · exact Or.inr (Or.inl (hic k hk))
      · exact Or.inr (Or.inr (Or.inl hk))
      · exact Or.inr (Or.inr (Or.inr hk))

theorem wf_done_three_1 {lo hi : Option String} {k0 k1 t : String} {c0 c1 c2 c1' : Node23}
    {pl : List String}
    (hw : wfb lo hi (.mk [k0, k1] [[], []] [c0, c1, c2]) = true)
    (hok : WfOK c1 t pl (some k0) (some k1) (.done c1')) :
    WfOK (.mk [k0, k1] [[], []] [c0, c1, c2]) t pl lo hi
      (stepChild [k0, k1] [[], []] [c0, c1, c2] 1 (.done c1')) := by
  rcases wfb_inv hw with ⟨_, _, hcs⟩ | ⟨a, b, _, _, hcs, _⟩ | ⟨a0, a1, b0, b1, _, _, hcs, _⟩ |
    ⟨a, b, d0, d1, hks, _, hcs, _⟩ |
    ⟨a0, a1, b0, b1, d0, d1, d2, hks, _, hcs, hlo, hs, hhi, h2, _, _, hw0, hw1, hw2⟩
  · simp at hcs
  · simp at hcs
  · simp at hcs
  · simp at hks
  · injection hks with ha hks'
    injection hks' with ha1 _
    injection hcs with hc0 hcs'
    injection hcs' with hc1 hcs''
    injection hcs'' with hc2 _
    subst ha; subst ha1; subst hc0; subst hc1; subst hc2
    obtain ⟨hwc, hpc, hec, hic⟩ := hok
    have hstep : stepChild [k0, k1] [[], []] [c0, c1, c2] 1 (.done c1') =
        .done (.mk [k0, k1] [[], []] [c0, c1', c2]) := rfl
    rw [hstep]
    refine ⟨wfb_int3 hlo hs hhi h2 hw0 hwc hw2, ?_, ?_, ?_⟩
    · simp only [allKeys_mk, allKeysList_cons, allKeysList_nil]
      rw [List.perm_iff_count] at hpc ⊢
      intro a
      have h := hpc a
      simp only [List.count_append, List.count_cons, List.count_nil] at h ⊢
      split_ifs at h ⊢ <;> omega
    · intro e he
      simp only [collectAllTerms_mk, collectAllTermsList_cons, collectAllTermsList_nil,
        List.append_nil, List.mem_append] at he
      rcases he with he | he | he | he
      · right; right
        simp only [collectAllTerms_mk, collectAllTermsList_cons, collectAllTermsList_nil,
          List.append_nil, List.mem_append]
        exact Or.inl he
      · right; right
        simp only [collectAllTerms_mk, collectAllTermsList_cons, collectAllTermsList_nil,
          List.append_nil, List.mem_append]
        exact Or.inr (Or.inl he)
      · rcases hec e he with h | h | h
        · exact Or.inl h
        · exact Or.inr (Or.inl h)
        · right; right
          simp only [collectAllTerms_mk, collectAllTermsList_cons, collectAllTermsList_nil,
            List.append_nil, List.mem_append]
          exact Or.inr (Or.inr (Or.inl h))
      · right; right
        simp only [collectAllTerms_mk, collectAllTermsList_cons, collectAllTermsList_nil,
          List.append_nil, List.mem_append]
        exact Or.inr (Or.inr (Or.inr he))
    · intro k hk
      simp only [internalKeys_node, internalKeysList_cons, internalKeysList_nil,
        List.append_nil, List.mem_append] at hk ⊢
      rcases hk with hk | hk | hk | hk
      · exact Or.inl hk
      · exact Or.inr (Or.inl hk)
      · exact Or.inr (Or.inr (Or.inl (hic k hk)))
      · exact Or.inr (Or.inr (Or.inr hk))

theorem wf_done_three_2 {lo hi : Option String} {k0 k1 t : String} {c0 c1 c2 c2' : Node23}
    {pl : List String}
    (hw : wfb lo hi (.mk [k0, k1] [[], []] [c0, c1, c2]) = true)
    (hok : WfOK c2 t pl (some k1) hi (.done c2')) :
    WfOK (.mk [k0, k1] [[], []] [c0, c1, c2]) t pl lo hi
      (stepChild [k0, k1] [[], []] [c0, c1, c2] 2 (.done c2')) := by
  rcases wfb_inv hw with ⟨_, _, hcs⟩ | ⟨a, b, _, _, hcs, _⟩ | ⟨a0, a1, b0, b1, _, _, hcs, _⟩ |
    ⟨a, b, d0, d1, hks, _, hcs, _⟩ |
    ⟨a0, a1, b0, b1, d0, d1, d2, hks, _, hcs, hlo, hs, hhi, h2, _, _, hw0, hw1, hw2⟩
  · simp at hcs
  · simp at hcs
  · simp at hcs
  · simp at hks
  · injection hks with ha hks'
    injection hks' with ha1 _
    injection hcs with hc0 hcs'
    injection hcs' with hc1 hcs''
    injection hcs'' with hc2 _
    subst ha; subst ha1; subst hc0; subst hc1; subst hc2
    obtain ⟨hwc, hpc, hec, hic⟩ := hok
    have hstep : stepChild [k0, k1] [[], []] [c0, c1, c2] 2 (.done c2') =
        .done (.mk [k0, k1] [[], []] [c0, c1, c2']) := rfl
    rw [hstep]
    refine ⟨wfb_int3 hlo hs hhi h2 hw0 hw1 hwc, ?_, ?_, ?_⟩
    · simp only [allKeys_mk, allKeysList_cons, allKeysList_nil]
      rw [List.perm_iff_count] at hpc ⊢
      intro a
      have h := hpc a
      simp only [List.count_append, List.count_cons, List.count_nil] at h ⊢
      split_ifs at h ⊢ <;> omega
    · intro e he
      simp only [collectAllTerms_mk, collectAllTermsList_cons, collectAllTermsList_nil,
        List.append_nil, List.mem_append] at he
      rcases he with he | he | he | he
      · right; right
        simp only [collectAllTerms_mk, collectAllTermsList_cons, collectAllTermsList_nil,
          List.append_nil, List.mem_append]
        exact Or.inl he
      · right; right
        simp only [collectAllTerms_mk, collectAllTermsList_cons, collectAllTermsList_nil,
          List.append_nil, List.mem_append]
        exact Or.inr (Or.inl he)
      · right; right
        simp only [collectAllTerms_mk, collectAllTermsList_cons, collectAllTermsList_nil,
          List.append_nil, List.mem_append]
        exact Or.inr (Or.inr (Or.inl he))
      · rcases hec e he with h | h | h
        · exact Or.inl h
        · exact Or.inr (Or.inl h)
        · right; right
          simp only [collectAllTerms_mk, collectAllTermsList_cons, collectAllTermsList_nil,
            List.append_nil, List.mem_append]
          exact Or.inr (Or.inr (Or.inr h))
    · intro k hk
      simp only [internalKeys_node, internalKeysList_cons, internalKeysList_nil,
        List.append_nil, List.mem_append] at hk ⊢
      rcases hk with hk | hk | hk | hk
      · exact Or.inl hk
      · exact Or.inr (Or.inl hk)
      · exact Or.inr (Or.inr (Or.inl hk))
      · exact Or.inr (Or.inr (Or.inr (hic k hk)))

theorem wf_absorb_two_0 {lo hi : Option String} {k0 m t : String} {c0 c1 l r : Node23}
    {pl : List String}
    (hw : wfb lo hi (.mk [k0] [[]] [c0, c1]) = true)
    (hok : WfOK c0 t pl lo (some k0) (.split l m r)) :
    WfOK (.mk [k0] [[]] [c0, c1]) t pl lo hi
      (stepChild [k0] [[]] [c0, c1] 0 (.split l m r)) := by
  rcases wfb_inv hw with ⟨_, _, hcs⟩ | ⟨a, b, _, _, hcs, _⟩ | ⟨a0, a1, b0, b1, _, _, hcs, _⟩ |
    ⟨a, b, d0, d1, hks, _, hcs, hlo, hhi, _, hw0, hw1⟩ |
    ⟨a0, a1, b0, b1, d0, d1, d2, hks, _, hcs, _⟩
  · simp at hcs
  · simp at hcs
  · simp at hcs
  · injection hks with ha _
    injection hcs with hc0 hcs'
    injection hcs' with hc1 _
    subst ha; subst hc0; subst hc1
    obtain ⟨hwl, hwr, hlom, hmlt, hpc, hec, hic⟩ := hok
    have hmk0 : strLt m k0 = true := hmlt
    have hk0m : strLt k0 m = false := strLt_asymm hmk0
    have hstep : stepChild [k0] [[]] [c0, c1] 0 (.split l m r) =
        .done (.mk [m, k0] [[], []] [l, r, c1]) := by
      have h1 : stepChild [k0] [[]] [c0, c1] 0 (.split l m r) =
          .done (absorb [k0] [[]] [c0, c1] 0 l m r) := rfl
      rw [h1]
      simp [absorb, insertIdx, hk0m, insertAt]
    rw [hstep]
    refine ⟨wfb_int3 hlom hk0m hhi (notTwoHi_of_ne (ltHi_ne hmlt)) hwl hwr hw1, ?_, ?_, ?_⟩
    · simp only [allKeys_mk, allKeysList_cons, allKeysList_nil]
      rw [List.perm_iff_count] at hpc ⊢
      intro a
      have h := hpc a
      simp only [List.count_append, List.count_cons, List.count_nil] at h ⊢
      split_ifs at h ⊢ <;> omega
    · intro e he
      have hne : collectAllTerms (.mk [m, k0] [[], []] [l, r, c1]) =
          (m, []) :: (k0, []) ::
            (collectAllTerms l ++ (collectAllTerms r ++ (collectAllTerms c1 ++ []))) := rfl
      rw [hne] at he
      simp only [List.append_nil, List.mem_cons, List.mem_append] at he
      rcases he with rfl | rfl | he | he | he
      · exact Or.inr (Or.inl rfl)
      · exact Or.inr (Or.inl rfl)
      · rcases hec e (Or.inl he) with h | h | h
        · exact Or.inl h
        · exact Or.inr (Or.inl h)
        · right; right
          simp only [collectAllTerms_mk, collectAllTermsList_cons, collectAllTermsList_nil,
            List.append_nil, List.mem_append]
          exact Or.inr (Or.inl h)
      · rcases hec e (Or.inr he) with h | h | h
        · exact Or.inl h
        · exact Or.inr (Or.inl h)
        · right; right
          simp only [collectAllTerms_mk, collectAllTermsList_cons, collectAllTermsList_nil,
            List.append_nil, List.mem_append]
          exact Or.inr (Or.inl h)
      · right; right
        simp only [collectAllTerms_mk, collectAllTermsList_cons, collectAllTermsList_nil,
          List.append_nil, List.mem_append]
        exact Or.inr (Or.inr he)
    · intro k hk
      simp only [internalKeys_node, internalKeysList_cons, internalKeysList_nil,
        List.append_nil, List.mem_append] at hk ⊢
      rcases hk with hk | hk | hk
      · simp only [List.mem_singleton] at hk
        subst hk
        exact Or.inl (by simp)
      · rcases hic k hk with h | h | h
        · exact Or.inr (Or.inl h)
        · subst h
          exact Or.inl (by simp)
        · exact Or.inr (Or.inr (Or.inl h))
      · exact Or.inr (Or.inr (Or.inr hk))
  · simp at hcs

theorem wf_absorb_two_1 {lo hi : Option String} {k0 m t : String} {c0 c1 l r : Node23}
    {pl : List String}
    (hw : wfb lo hi (.mk [k0] [[]] [c0, c1]) = true)
    (hok : WfOK c1 t pl (some k0) hi (.split l m r)) :
    WfOK (.mk [k0] [[]] [c0, c1]) t pl lo hi
      (stepChild [k0] [[]] [c0, c1] 1 (.split l m r)) := by
  rcases wfb_inv hw with ⟨_, _, hcs⟩ | ⟨a, b, _, _, hcs, _⟩ | ⟨a0, a1, b0, b1, _, _, hcs, _⟩ |
    ⟨a, b, d0, d1, hks, _, hcs, hlo, hhi, _, hw0, hw1⟩ |
    ⟨a0, a1, b0, b1, d0, d1, d2, hks, _, hcs, _⟩
  · simp at hcs
  · simp at hcs
  · simp at hcs
  · injection hks with ha _
    injection hcs with hc0 hcs'
    injection hcs' with hc1 _
    subst ha; subst hc0; subst hc1
    obtain ⟨hwl, hwr, hlom, hmlt, hpc, hec, hic⟩ := hok
    have hmk0 : strLt m k0 = false := by
      have := hlom
      rwa [loLe_some_iff] at this
    by_cases hk0m : strLt k0 m = true
    · have hstep : stepChild [k0] [[]] [c0, c1] 1 (.split l m r) =
          .done (.mk [k0, m] [[], []] [c0, l, r]) := by
        have h1 : stepChild [k0] [[]] [c0, c1] 1 (.split l m r) =
            .done (absorb [k0] [[]] [c0, c1] 1 l m r) := rfl
        rw [h1]
        simp [absorb, insertIdx, hk0m, insertAt]
      rw [hstep]
      refine ⟨wfb_int3 hlo hmk0 (hiGe_of_ltHi hmlt) (notTwoHi_of_ltHi_right hmlt)
        hw0 hwl hwr, ?_, ?_, ?_⟩
      · simp only [allKeys_mk, allKeysList_cons, allKeysList_nil]
        rw [List.perm_iff_count] at hpc ⊢
        intro a
        have h := hpc a
        simp only [List.count_append, List.count_cons, List.count_nil] at h ⊢
        split_ifs at h ⊢ <;> omega
      · intro e he
        have hne : collectAllTerms (.mk [k0, m] [[], []] [c0, l, r]) =
            (k0, []) :: (m, []) ::
              (collectAllTerms c0 ++ (collectAllTerms l ++ (collectAllTerms r ++ []))) := rfl
        rw [hne] at he
        simp only [List.append_nil, List.mem_cons, List.mem_append] at he
        rcases he with rfl | rfl | he | he | he
        · exact Or.inr (Or.inl rfl)
        · exact Or.inr (Or.inl rfl)
        · right; right
          simp only [collectAllTerms_mk, collectAllTermsList_cons, collectAllTermsList_nil,
            List.append_nil, List.mem_append]
          exact Or.inr (Or.inl he)
        · rcases hec e (Or.inl he) with h | h | h
          · exact Or.inl h
          · exact Or.inr (Or.inl h)
          · right; right
            simp only [collectAllTerms_mk, collectAllTermsList_cons, collectAllTermsList_nil,
              List.append_nil, List.mem_append]
            exact Or.inr (Or.inr h)
        · rcases hec e (Or.inr he) with h | h | h
          · exact Or.inl h
          · exact Or.inr (Or.inl h)
          · right; right
            simp only [collectAllTerms_mk, collectAllTermsList_cons, collectAllTermsList_nil,
              List.append_nil, List.mem_append]
            exact Or.inr (Or.inr h)
      · intro k hk
        simp only [internalKeys_node, internalKeysList_cons, internalKeysList_nil,
          List.append_nil, List.mem_append] at hk ⊢
        rcases hk with hk | hk | hk
        · simp only [List.mem_singleton] at hk
          subst hk
          exact Or.inl (by simp)
        · exact Or.inr (Or.inl hk)
        · rcases hic k hk with h | h | h
          · exact Or.inr (Or.inr (Or.inl h))
          · subst h
            exact Or.inl (by simp)
          · exact Or.inr (Or.inr (Or.inr h))
    · rw [Bool.not_eq_true] at hk0m
      have hmeq : m = k0 := strLt_antisymm hmk0 hk0m
      subst hmeq
      have hstep : stepChild [m] [[]] [c0, c1] 1 (.split l m r) =
          .done (.mk [m, m] [[], []] [c0, l, r]) := by
        have h1 : stepChild [m] [[]] [c0, c1] 1 (.split l m r) =
            .done (absorb [m] [[]] [c0, c1] 1 l m r) := rfl
        rw [h1]
        simp [absorb, insertIdx, strLt_irrefl, insertAt]
      rw [hstep]
      refine ⟨wfb_int3 hlo (strLt_irrefl m) hhi (notTwoHi_of_ltHi_left hmlt)
        hw0 hwl hwr, ?_, ?_, ?_⟩
      · simp only [allKeys_mk, allKeysList_cons, allKeysList_nil]
        rw [List.perm_iff_count] at hpc ⊢
        intro a
        have h := hpc a
        simp only [List.count_append, List.count_cons, List.count_nil] at h ⊢
        split_ifs at h ⊢ <;> omega
      · intro e he
        have hne : collectAllTerms (.mk [m, m] [[], []] [c0, l, r]) =
            (m, []) :: (m, []) ::
              (collectAllTerms c0 ++ (collectAllTerms l ++ (collectAllTerms r ++ []))) := rfl
        rw [hne] at he
        simp only [List.append_nil, List.mem_cons, List.mem_append] at he
        rcases he with rfl | rfl | he | he | he
        · exact Or.inr (Or.inl rfl)
        · exact Or.inr (Or.inl rfl)
        · right; right
          simp only [collectAllTerms_mk, collectAllTermsList_cons, collectAllTermsList_nil,
            List.append_nil, List.mem_append]
          exact Or.inr (Or.inl he)
        · rcases hec e (Or.inl he) with h | h | h
          · exact Or.inl h
          · exact Or.inr (Or.inl h)
          · right; right
            simp only [collectAllTerms_mk, collectAllTermsList_cons, collectAllTermsList_nil,
              List.append_nil, List.mem_append]
            exact Or.inr (Or.inr h)
        · rcases hec e (Or.inr he) with h | h | h
          · exact Or.inl h
          · exact Or.inr (Or.inl h)
          · right; right
            simp only [collectAllTerms_mk, collectAllTermsList_cons, collectAllTermsList_nil,
              List.append_nil, List.mem_append]
            exact Or.inr (Or.inr h)
      · intro k hk
        simp only [internalKeys_node, internalKeysList_cons, internalKeysList_nil,
          List.append_nil, List.mem_append] at hk ⊢
        rcases hk with hk | hk | hk
        · simp only [List.mem_singleton] at hk
          subst hk
          exact Or.inl (by simp)
        · exact Or.inr (Or.inl hk)
        · rcases hic k hk with h | h | h
          · exact Or.inr (Or.inr (Or.inl h))
          · subst h
            exact Or.inl (by simp)
          · exact Or.inr (Or.inr (Or.inr h))
  · simp at hcs

theorem wf_split_three_0 {lo hi : Option String} {k0 k1 m t : String} {c0 c1 c2 l r : Node23}
    {pl : List String}
    (hw : wfb lo hi (.mk [k0, k1] [[], []] [c0, c1, c2]) = true)
    (hok : WfOK c0 t pl lo (some k0) (.split l m r)) :
    WfOK (.mk [k0, k1] [[], []] [c0, c1, c2]) t pl lo hi
      (stepChild [k0, k1] [[], []] [c0, c1, c2] 0 (.split l m r)) := by
  rcases wfb_inv hw with ⟨_, _, hcs⟩ | ⟨a, b, _, _, hcs, _⟩ | ⟨a0, a1, b0, b1, _, _, hcs, _⟩ |
    ⟨a, b, d0, d1, hks, _, hcs, _⟩ |
    ⟨a0, a1, b0, b1, d0, d1, d2, hks, _, hcs, hlo, hs, hhi, h2, _, _, hw0, hw1, hw2⟩
  · simp at hcs
  · simp at hcs
  · simp at hcs
  · simp at hks
  · injection hks with ha hks'
    injection hks' with ha1 _
    injection hcs with hc0 hcs'
    injection hcs' with hc1 hcs''
    injection hcs'' with hc2 _
    subst ha; subst ha1; subst hc0; subst hc1; subst hc2
    obtain ⟨hwl, hwr, hlom, hmlt, hpc, hec, hic⟩ := hok
    have hmk0 : strLt m k0 = true := hmlt
    have hcomp : splitNode (.mk [k0, k1] [[], []] [c0, c1, c2]) m [] (some (l, r)) =
        (.mk [m] [[]] [l, r], k0, .mk [k1] [[]] [c1, c2]) := by
      simp only [splitNode, spliceChildren_two]
      rw [show (([k0, k1] ++ [m]).zip ([[], []] ++ [([] : List String)])) =
          [(k0, ([] : List String)), (k1, []), (m, [])] from rfl]
      rw [sortPairs_nil_postings k0 k1 m hs]
      simp only [hmk0, if_true]
      rfl
    have hstep : stepChild [k0, k1] [[], []] [c0, c1, c2] 0 (.split l m r) =
        .split (.mk [m] [[]] [l, r]) k0 (.mk [k1] [[]] [c1, c2]) := by
      have h1 : stepChild [k0, k1] [[], []] [c0, c1, c2] 0 (.split l m r) =
          (match splitNode (.mk [k0, k1] [[], []] [c0, c1, c2]) m [] (some (l, r)) with
           | (l', m', r') => SplitRes.split l' m' r') := rfl
      rw [h1, hcomp]
    rw [hstep]
    refine ⟨?_, ?_, hlo, ltHi_of_notTwoHi hs hhi h2, ?_, ?_, ?_⟩
    · exact wfb_int2 hlom (hiGe_some_iff.mpr (strLt_asymm hmk0)) hwl hwr
    · exact wfb_int2 (loLe_some_iff.mpr hs) hhi hw1 hw2
    · simp only [allKeys_mk, allKeysList_cons, allKeysList_nil]
      rw [List.perm_iff_count] at hpc ⊢
      intro a
      have h := hpc a
      simp only [List.count_append, List.count_cons, List.count_nil] at h ⊢
      split_ifs at h ⊢ <;> omega
    · intro e he
      have hne1 : collectAllTerms (.mk [m] [[]] [l, r]) =
          (m, []) :: (collectAllTerms l ++ (collectAllTerms r ++ [])) := rfl
      have hne2 : collectAllTerms (.mk [k1] [[]] [c1, c2]) =
          (k1, []) :: (collectAllTerms c1 ++ (collectAllTerms c2 ++ [])) := rfl
      rw [hne1, hne2] at he
      simp only [List.append_nil, List.mem_cons, List.mem_append] at he
      rcases he with (rfl | he | he) | (rfl | he | he)
      · exact Or.inr (Or.inl rfl)
      · rcases hec e (Or.inl he) with h | h | h
        · exact Or.inl h
        · exact Or.inr (Or.inl h)
        · right; right
          simp only [collectAllTerms_mk, collectAllTermsList_cons, collectAllTermsList_nil,
            List.append_nil, List.mem_append]
          exact Or.inr (Or.inl h)
      · rcases hec e (Or.inr he) with h | h | h
        · exact Or.inl h
        · exact Or.inr (Or.inl h)
        · right; right
          simp only [collectAllTerms_mk, collectAllTermsList_cons, collectAllTermsList_nil,
            List.append_nil, List.mem_append]
          exact Or.inr (Or.inl h)
      · exact Or.inr (Or.inl rfl)
      · right; right
        simp only [collectAllTerms_mk, collectAllTermsList_cons, collectAllTermsList_nil,
          List.append_nil, List.mem_append]
        exact Or.inr (Or.inr (Or.inl he))
      · right; right
        simp only [collectAllTerms_mk, collectAllTermsList_cons, collectAllTermsList_nil,
          List.append_nil, List.mem_append]
        exact Or.inr (Or.inr (Or.inr he))
    · intro k hk
      simp only [internalKeys_node, internalKeysList_cons, internalKeysList_nil,
        List.append_nil, List.mem_append, List.mem_cons, List.mem_singleton,
        List.not_mem_nil, or_false] at hk ⊢
      rcases hk with (rfl | rfl) | hk | hk | hk
      · exact Or.inr (Or.inl rfl)
      · right; right
        exact Or.inl rfl
      · rcases hic k hk with h | h | h
        · exact Or.inl (Or.inr (Or.inl h))
        · exact Or.inl (Or.inl h)
        · exact Or.inl (Or.inr (Or.inr h))
      · right; right
        exact Or.inr (Or.inl hk)
      · right; right
        exact Or.inr (Or.inr hk)

theorem wf_split_three_1 {lo hi : Option String} {k0 k1 m t : String} {c0 c1 c2 l r : Node23}
    {pl : List String}
    (hw : wfb lo hi (.mk [k0, k1] [[], []] [c0, c1, c2]) = true)
    (hok : WfOK c1 t pl (some k0) (some k1) (.split l m r)) :
    WfOK (.mk [k0, k1] [[], []] [c0, c1, c2]) t pl lo hi
      (stepChild [k0, k1] [[], []] [c0, c1, c2] 1 (.split l m r)) := by
  rcases wfb_inv hw with ⟨_, _, hcs⟩ | ⟨a, b, _, _, hcs, _⟩ | ⟨a0, a1, b0, b1, _, _, hcs, _⟩ |
    ⟨a, b, d0, d1, hks, _, hcs, _⟩ |
    ⟨a0, a1, b0, b1, d0, d1, d2, hks, _, hcs, hlo, hs, hhi, h2, _, _, hw0, hw1, hw2⟩
  · simp at hcs
  · simp at hcs
  · simp at hcs
  · simp at hks
  · injection hks with ha hks'
    injection hks' with ha1 _
    injection hcs with hc0 hcs'
    injection hcs' with hc1 hcs''
    injection hcs'' with hc2 _
    subst ha; subst ha1; subst hc0; subst hc1; subst hc2
    obtain ⟨hwl, hwr, hlom, hmlt, hpc, hec, hic⟩ := hok
    have hmk1 : strLt m k1 = true := hmlt
    have hmk0 : strLt m k0 = false := loLe_some_iff.mp hlom
    have hcomp : splitNode (.mk [k0, k1] [[], []] [c0, c1, c2]) m [] (some (l, r)) =
        (.mk [k0] [[]] [c0, l], m, .mk [k1] [[]] [r, c2]) := by
      simp only [splitNode, spliceChildren_two]
      rw [show (([k0, k1] ++ [m]).zip ([[], []] ++ [([] : List String)])) =
          [(k0, ([] : List String)), (k1, []), (m, [])] from rfl]
      rw [sortPairs_nil_postings k0 k1 m hs]
      simp only [hmk0, hmk1, Bool.false_eq_true, if_false, if_true]
      rfl
    have hstep : stepChild [k0, k1] [[], []] [c0, c1, c2] 1 (.split l m r) =
        .split (.mk [k0] [[]] [c0, l]) m (.mk [k1] [[]] [r, c2]) := by
      have h1 : stepChild [k0, k1] [[], []] [c0, c1, c2] 1 (.split l m r) =
          (match splitNode (.mk [k0, k1] [[], []] [c0, c1, c2]) m [] (some (l, r)) with
           | (l', m', r') => SplitRes.split l' m' r') := rfl
      rw [h1, hcomp]
    rw [hstep]
    refine ⟨?_, ?_, loLe_weaken hlom hlo, ltHi_trans_hiGe hmlt hhi, ?_, ?_, ?_⟩
    · exact wfb_int2 hlo (hiGe_some_iff.mpr hmk0) hw0 hwl
    · exact wfb_int2 (loLe_some_iff.mpr (strLt_asymm hmk1)) hhi hwr hw2
    · simp only [allKeys_mk, allKeysList_cons, allKeysList_nil]
      rw [List.perm_iff_count] at hpc ⊢
      intro a
      have h := hpc a
      simp only [List.count_append, List.count_cons, List.count_nil] at h ⊢
      split_ifs at h ⊢ <;> omega
    · intro e he
      have hne1 : collectAllTerms (.mk [k0] [[]] [c0, l]) =
          (k0, []) :: (collectAllTerms c0 ++ (collectAllTerms l ++ [])) := rfl
      have hne2 : collectAllTerms (.mk [k1] [[]] [r, c2]) =
          (k1, []) :: (collectAllTerms r ++ (collectAllTerms c2 ++ [])) := rfl
      rw [hne1, hne2] at he
      simp only [List.append_nil, List.mem_cons, List.mem_append] at he
      rcases he with (rfl | he | he) | (rfl | he | he)
      · exact Or.inr (Or.inl rfl)
      · right; right
        simp only [collectAllTerms_mk, collectAllTermsList_cons, collectAllTermsList_nil,
          List.append_nil, List.mem_append]
        exact Or.inr (Or.inl he)
      · rcases hec e (Or.inl he) with h | h | h
        · exact Or.inl h
        · exact Or.inr (Or.inl h)
        · right; right
          simp only [collectAllTerms_mk, collectAllTermsList_cons, collectAllTermsList_nil,
            List.append_nil, List.mem_append]
          exact Or.inr (Or.inr (Or.inl h))
      · exact Or.inr (Or.inl rfl)
      · rcases hec e (Or.inr he) with h | h | h
        · exact Or.inl h
        · exact Or.inr (Or.inl h)
        · right; right
          simp only [collectAllTerms_mk, collectAllTermsList_cons, collectAllTermsList_nil,
            List.append_nil, List.mem_append]
          exact Or.inr (Or.inr (Or.inl h))
      · right; right
        simp only [collectAllTerms_mk, collectAllTermsList_cons, collectAllTermsList_nil,
          List.append_nil, List.mem_append]
        exact Or.inr (Or.inr (Or.inr he))
    · intro k hk
      simp only [internalKeys_node, internalKeysList_cons, internalKeysList_nil,
        List.append_nil, List.mem_append, List.mem_cons, List.mem_singleton,
        List.not_mem_nil, or_false] at hk ⊢
      rcases hk with (rfl | rfl) | hk | hk | hk
      · exact Or.inl (Or.inl rfl)
      · right; right
        exact Or.inl rfl
      · exact Or.inl (Or.inr (Or.inl hk))
      · rcases hic k hk with h | h | h
        · exact Or.inl (Or.inr (Or.inr h))
        · exact Or.inr (Or.inl h)
        · right; right
          exact Or.inr (Or.inl h)
      · right; right
        exact Or.inr (Or.inr hk)

theorem wf_split_three_2 {lo hi : Option String} {k0 k1 m t : String} {c0 c1 c2 l r : Node23}
    {pl : List String}
    (hw : wfb lo hi (.mk [k0, k1] [[], []] [c0, c1, c2]) = true)
    (hok : WfOK c2 t pl (some k1) hi (.split l m r)) :
    WfOK (.mk [k0, k1] [[], []] [c0, c1, c2]) t pl lo hi
      (stepChild [k0, k1] [[], []] [c0, c1, c2] 2 (.split l m r)) := by
  rcases wfb_inv hw with ⟨_, _, hcs⟩ | ⟨a, b, _, _, hcs, _⟩ | ⟨a0, a1, b0, b1, _, _, hcs, _⟩ |
    ⟨a, b, d0, d1, hks, _, hcs, _⟩ |
    ⟨a0, a1, b0, b1, d0, d1, d2, hks, _, hcs, hlo, hs, hhi, h2, _, _, hw0, hw1, hw2⟩
  · simp at hcs
  · simp at hcs
  · simp at hcs
  · simp at hks
  · injection hks with ha hks'
    injection hks' with ha1 _
    injection hcs with hc0 hcs'
    injection hcs' with hc1 hcs''
    injection hcs'' with hc2 _
    subst ha; subst ha1; subst hc0; subst hc1; subst hc2
    obtain ⟨hwl, hwr, hlom, hmlt, hpc, hec, hic⟩ := hok
    have hmk1 : strLt m k1 = false := loLe_some_iff.mp hlom
    have hmk0 : strLt m k0 = false := strLt_le_trans hs hmk1
    have hcomp : splitNode (.mk [k0, k1] [[], []] [c0, c1, c2]) m [] (some (l, r)) =
        (.mk [k0] [[]] [c0, c1], k1, .mk [m] [[]] [l, r]) := by
      simp only [splitNode, spliceChildren_two]
      rw [show (([k0, k1] ++ [m]).zip ([[], []] ++ [([] : List String)])) =
          [(k0, ([] : List String)), (k1, []), (m, [])] from rfl]
      rw [sortPairs_nil_postings k0 k1 m hs]
      simp only [hmk0, hmk1, Bool.false_eq_true, if_false]
      rfl
    have hstep : stepChild [k0, k1] [[], []] [c0, c1, c2] 2 (.split l m r) =
        .split (.mk [k0] [[]] [c0, c1]) k1 (.mk [m] [[]] [l, r]) := by
      have h1 : stepChild [k0, k1] [[], []] [c0, c1, c2] 2 (.split l m r) =
          (match splitNode (.mk [k0, k1] [[], []] [c0, c1, c2]) m [] (some (l, r)) with
           | (l', m', r') => SplitRes.split l' m' r') := rfl
      rw [h1, hcomp]
    rw [hstep]
    have hk1hi : ltHi k1 hi = true := by
      cases hi with
      | none => rfl
      | some u =>
        rw [ltHi] at hmlt ⊢
        exact strLt_of_le_of_lt hmk1 hmlt
    refine ⟨?_, ?_, loLe_of_le hlo hs, hk1hi, ?_, ?_, ?_⟩
    · exact wfb_int2 hlo (hiGe_some_iff.mpr hs) hw0 hw1
    · exact wfb_int2 hlom (hiGe_of_ltHi hmlt) hwl hwr
    · simp only [allKeys_mk, allKeysList_cons, allKeysList_nil]
      rw [List.perm_iff_count] at hpc ⊢
      intro a
      have h := hpc a
      simp only [List.count_append, List.count_cons, List.count_nil] at h ⊢
      split_ifs at h ⊢ <;> omega
    · intro e he
      have hne1 : collectAllTerms (.mk [k0] [[]] [c0, c1]) =
          (k0, []) :: (collectAllTerms c0 ++ (collectAllTerms c1 ++ [])) := rfl
      have hne2 : collectAllTerms (.mk [m] [[]] [l, r]) =
          (m, []) :: (collectAllTerms l ++ (collectAllTerms r ++ [])) := rfl
      rw [hne1, hne2] at he
      simp only [List.append_nil, List.mem_cons, List.mem_append] at he
      rcases he with (rfl | he | he) | (rfl | he | he)
      · exact Or.inr (Or.inl rfl)
      · right; right
        simp only [collectAllTerms_mk, collectAllTermsList_cons, collectAllTermsList_nil,
          List.append_nil, List.mem_append]
        exact Or.inr (Or.inl he)
      · right; right
        simp only [collectAllTerms_mk, collectAllTermsList_cons, collectAllTermsList_nil,
          List.append_nil, List.mem_append]
        exact Or.inr (Or.inr (Or.inl he))
      · exact Or.inr (Or.inl rfl)
      · rcases hec e (Or.inl he) with h | h | h
        · exact Or.inl h
        · exact Or.inr (Or.inl h)
        · right; right
          simp only [collectAllTerms_mk, collectAllTermsList_cons, collectAllTermsList_nil,
            List.append_nil, List.mem_append]
          exact Or.inr (Or.inr (Or.inr h))
      · rcases hec e (Or.inr he) with h | h | h
        · exact Or.inl h
        · exact Or.inr (Or.inl h)
        · right; right
          simp only [collectAllTerms_mk, collectAllTermsList_cons, collectAllTermsList_nil,
            List.append_nil, List.mem_append]
          exact Or.inr (Or.inr (Or.inr h))
    · intro k hk
      simp only [internalKeys_node, internalKeysList_cons, internalKeysList_nil,
        List.append_nil, List.mem_append, List.mem_cons, List.mem_singleton,
        List.not_mem_nil, or_false] at hk ⊢
      rcases hk with (rfl | rfl) | hk | hk | hk
      · exact Or.inl (Or.inl rfl)
      · exact Or.inr (Or.inl rfl)
      · exact Or.inl (Or.inr (Or.inl hk))
      · exact Or.inl (Or.inr (Or.inr hk))
      · rcases hic k hk with h | h | h
        · right; right
          exact Or.inr (Or.inl h)
        · right; right
          exact Or.inl h
        · right; right
          exact Or.inr (Or.inr h)

theorem wfOK_insertRecursive (n : Node23) (t : String) (pl : List String) :
    ∀ lo hi, wfb lo hi n = true → loLe lo t = true → ltHi t hi = true →
      pl ≠ [] → pl.Nodup → WfOK n t pl lo hi (insertRecursive n t pl) := by
  induction n, t, pl using insertRecursive.induct with
  | case1 ks ps t pl hfull l' m' r' hsp =>
    intro lo hi hw hlot hhit hple hplnd
    rcases wfb_inv hw with ⟨rfl, rfl, _⟩ | ⟨k0, p0, rfl, rfl, _⟩ |
      ⟨k0, k1, p0, p1, rfl, rfl, _⟩ | ⟨k0, p0, c0, c1, _, _, hcs, _⟩ |
      ⟨k0, k1, p0, p1, c0, c1, c2, _, _, hcs, _⟩
    · simp [Node23.is_full] at hfull
    · simp [Node23.is_full] at hfull
    · have hins : insertRecursive (.mk [k0, k1] [p0, p1] []) t pl = .split l' m' r' := by
        rw [insertRecursive.eq_def]
        simp only [hfull, if_true, hsp]
      rw [hins]
      exact wf_splitNode_leaf hw hlot hhit hple hplnd hsp
    · simp at hcs
    · simp at hcs
  | case2 ks ps t pl hfull =>
    intro lo hi hw hlot hhit hple hplnd
    have hins : insertRecursive (.mk ks ps []) t pl =
        .done (insert_in_node (.mk ks ps []) t pl) := by
      rw [insertRecursive.eq_def]
      simp [hfull]
    rw [hins]
    exact wf_ins_leaf hw hfull hlot hhit hple hplnd
  | case3 ps t pl c0 cs' k0 ks' hlt ih =>
    intro lo hi hw hlot hhit hple hplnd
    have hins : insertRecursive (.mk (k0 :: ks') ps (c0 :: cs')) t pl =
        stepChild (k0 :: ks') ps (c0 :: cs') 0 (insertRecursive c0 t pl) := by
      rw [insertRecursive.eq_def]
      simp only [hlt, if_true]
    rw [hins]
    rcases wfb_inv hw with ⟨hks, _⟩ | ⟨a, b, _, _, hcs, _⟩ | ⟨a0, a1, b0, b1, _, _, hcs, _⟩ |
      ⟨a, b, d0, d1, hks, hps, hcs, _, _, hp0, hw0, hw1⟩ |
      ⟨a0, a1, b0, b1, d0, d1, d2, hks, hps, hcs, _, _, _, _, hp0, hp1, hw0, hw1, hw2⟩
    · simp at hks
    · simp at hcs
    · simp at hcs
    · injection hks with ha htl
      injection hcs with hc hctl
      subst ha; subst htl; subst hps; subst hp0; subst hc; subst hctl
      have hok := ih lo (some k0) hw0 hlot hlt hple hplnd
      cases hres : insertRecursive c0 t pl with
      | done c' =>
        rw [hres] at hok
        exact wf_done_two_0 hw hok
      | split l m r =>
        rw [hres] at hok
        exact wf_absorb_two_0 hw hok
    · injection hks with ha htl
      injection hcs with hc hctl
      subst ha; subst htl; subst hps; subst hp0; subst hp1
      subst hc; subst hctl
      have hok := ih lo (some k0) hw0 hlot hlt hple hplnd
      cases hres : insertRecursive c0 t pl with
      | done c' =>
        rw [hres] at hok
        exact wf_done_three_0 hw hok
      | split l m r =>
        rw [hres] at hok
        exact wf_split_three_0 hw hok
  | case4 ps t pl c0 k0 hge c1 tail ih =>
    intro lo hi hw hlot hhit hple hplnd
    have hins : insertRecursive (.mk [k0] ps (c0 :: c1 :: tail)) t pl =
        stepChild [k0] ps (c0 :: c1 :: tail) 1 (insertRecursive c1 t pl) := by
      rw [insertRecursive.eq_def]
      simp [hge]
    rw [hins]
    rcases wfb_inv hw with ⟨hks, _⟩ | ⟨a, b, _, _, hcs, _⟩ | ⟨a0, a1, b0, b1, _, _, hcs, _⟩ |
      ⟨a, b, d0, d1, hks, hps, hcs, _, _, hp0, hw0, hw1⟩ |
      ⟨a0, a1, b0, b1, d0, d1, d2, hks, hps, hcs, _⟩
    · simp at hks
    · simp at hcs
    · simp at hcs
    · injection hks with ha _
      injection hcs with hc hctl
      injection hctl with hc1 hctl2
      subst ha; subst hps; subst hp0; subst hc; subst hc1; subst hctl2
      have hge' : strLt t k0 = false := by
        rwa [Bool.not_eq_true] at hge
      have hok := ih (some k0) hi hw1 (loLe_some_iff.mpr hge') hhit hple hplnd
      cases hres : insertRecursive c1 t pl with
      | done c' =>
        rw [hres] at hok
        exact wf_done_two_1 hw hok
      | split l m r =>
        rw [hres] at hok
        exact wf_absorb_two_1 hw hok
    · simp at hks
  | case5 ps t pl c0 k0 hge0 k1 tail c1 cs'' hlt1 ih =>
    intro lo hi hw hlot hhit hple hplnd
    have hins : insertRecursive (.mk (k0 :: k1 :: tail) ps (c0 :: c1 :: cs'')) t pl =
        stepChild (k0 :: k1 :: tail) ps (c0 :: c1 :: cs'') 1 (insertRecursive c1 t pl) := by
      rw [insertRecursive.eq_def]
      simp [hge0, hlt1]
    rw [hins]
    rcases wfb_inv hw with ⟨hks, _⟩ | ⟨a, b, hks, _⟩ | ⟨a0, a1, b0, b1, _, _, hcs, _⟩ |
      ⟨a, b, d0, d1, hks, hps, hcs, _⟩ |
      ⟨a0, a1, b0, b1, d0, d1, d2, hks, hps, hcs, _, _, _, _, hp0, hp1, hw0, hw1, hw2⟩
    · simp at hks
    · simp at hks
    · simp at hcs
    · simp at hks
    · injection hks with ha htl
      injection htl with ha1 htl2
      injection hcs with hc hctl
      injection hctl with hc1 hctl2
      subst ha; subst ha1; subst htl2; subst hps; subst hp0; subst hp1
      subst hc; subst hc1; subst hctl2
      have hge0' : strLt t k0 = false := by
        rwa [Bool.not_eq_true] at hge0
      have hok := ih (some k0) (some k1) hw1 (loLe_some_iff.mpr hge0') hlt1 hple hplnd
      cases hres : insertRecursive c1 t pl with
      | done c' =>
        rw [hres] at hok
        exact wf_done_three_1 hw hok
      | split l m r =>
        rw [hres] at hok
        exact wf_split_three_1 hw hok
  | case6 ps t pl c0 k0 hge0 k1 tail c1 hge1 c2 tail1 ih =>
    intro lo hi hw hlot hhit hple hplnd
    have hins : insertRecursive (.mk (k0 :: k1 :: tail) ps (c0 :: c1 :: c2 :: tail1)) t pl =
        stepChild (k0 :: k1 :: tail) ps (c0 :: c1 :: c2 :: tail1) 2
          (insertRecursive c2 t pl) := by
      rw [insertRecursive.eq_def]
      simp [hge0, hge1]
    rw [hins]
    rcases wfb_inv hw with ⟨hks, _⟩ | ⟨a, b, hks, _⟩ | ⟨a0, a1, b0, b1, _, _, hcs, _⟩ |
      ⟨a, b, d0, d1, hks, hps, hcs, _⟩ |
      ⟨a0, a1, b0, b1, d0, d1, d2, hks, hps, hcs, _, _, _, _, hp0, hp1, hw0, hw1, hw2⟩
    · simp at hks
    · simp at hks
    · simp at hcs
    · simp at hks
    · injection hks with ha htl
      injection htl with ha1 htl2
      injection hcs with hc hctl
      injection hctl with hc1 hctl2
      injection hctl2 with hc2 hctl3
      subst ha; subst ha1; subst htl2; subst hps; subst hp0; subst hp1
      subst hc; subst hc1; subst hc2; subst hctl3
      have hge1' : strLt t k1 = false := by
        rwa [Bool.not_eq_true] at hge1
      have hok := ih (some k1) hi hw2 (loLe_some_iff.mpr hge1') hhit hple hplnd
      cases hres : insertRecursive c2 t pl with
      | done c' =>
        rw [hres] at hok
        exact wf_done_three_2 hw hok
      | split l m r =>
        rw [hres] at hok
        exact wf_split_three_2 hw hok
  | case7 ps t pl c0 k0 hge0 k1 tail c1 hge1 =>
    intro lo hi hw hlot hhit hple hplnd
    rcases wfb_inv hw with ⟨hks, _⟩ | ⟨a, b, hks, _⟩ | ⟨a0, a1, b0, b1, _, _, hcs, _⟩ |
      ⟨a, b, d0, d1, hks, hps, hcs, _⟩ |
      ⟨a0, a1, b0, b1, d0, d1, d2, hks, hps, hcs, _⟩
    · simp at hks
    · simp at hks
    · simp at hcs
    · simp at hks
    · simp at hcs
  | case8 ps t pl c0 k0 hge0 hd tail =>
    intro lo hi hw hlot hhit hple hplnd
    rcases wfb_inv hw with ⟨hks, _⟩ | ⟨a, b, hks, _⟩ | ⟨a0, a1, b0, b1, _, _, hcs, _⟩ |
      ⟨a, b, d0, d1, hks, hps, hcs, _⟩ |
      ⟨a0, a1, b0, b1, d0, d1, d2, hks, hps, hcs, _⟩
    · simp at hks
    · simp at hks
    · simp at hcs
    · simp at hks
    · simp at hcs
  | case9 ps t pl c0 k0 hge0 =>
    intro lo hi hw hlot hhit hple hplnd
    rcases wfb_inv hw with ⟨hks, _⟩ | ⟨a, b, _, _, hcs, _⟩ | ⟨a0, a1, b0, b1, _, _, hcs, _⟩ |
      ⟨a, b, d0, d1, hks, hps, hcs, _⟩ |
      ⟨a0, a1, b0, b1, d0, d1, d2, hks, hps, hcs, _⟩
    · simp at hks
    · simp at hcs
    · simp at hcs
    · simp at hcs
    · simp at hks
  | case10 ps t pl hd tail =>
    intro lo hi hw hlot hhit hple hplnd
    rcases wfb_inv hw with ⟨_, _, hcs⟩ | ⟨a, b, _, _, hcs, _⟩ | ⟨a0, a1, b0, b1, _, _, hcs, _⟩ |
      ⟨a, b, d0, d1, hks, _⟩ |
      ⟨a0, a1, b0, b1, d0, d1, d2, hks, _⟩
    · simp at hcs
    · simp at hcs
    · simp at hcs
    · simp at hks
    · simp at hks

theorem nodup_append_singleton {p : List String} {d : String} (hn : p.Nodup)
    (hd : d ∉ p) : (p ++ [d]).Nodup := by
  simp [List.nodup_append, hn, hd]

theorem sr_two_left {k0 t : String} {ps : List (List String)} {c0 c1 : Node23}
    {cs2 : List Node23}
    (hlk : lookupKey t [k0] ps = none) (hlt : strLt t k0 = true) :
    searchRecursive (.mk [k0] ps (c0 :: c1 :: cs2)) t = searchRecursive c0 t := by
  rw [searchRecursive.eq_2, hlk]
  simp [hlt]

theorem sr_two_right {k0 t : String} {ps : List (List String)} {c0 c1 : Node23}
    {cs2 : List Node23}
    (hlk : lookupKey t [k0] ps = none) (hge : strLt t k0 = false) :
    searchRecursive (.mk [k0] ps (c0 :: c1 :: cs2)) t = searchRecursive c1 t := by
  rw [searchRecursive.eq_2, hlk]
  simp [hge]

theorem sr_three_left {k0 k1 t : String} {ps : List (List String)} {c0 c1 c2 : Node23}
    {ks2 : List String} {cs3 : List Node23}
    (hlk : lookupKey t (k0 :: k1 :: ks2) ps = none) (hlt : strLt t k0 = true) :
    searchRecursive (.mk (k0 :: k1 :: ks2) ps (c0 :: c1 :: c2 :: cs3)) t =
      searchRecursive c0 t := by
  rw [searchRecursive.eq_3, hlk]
  simp [hlt]

theorem sr_three_mid {k0 k1 t : String} {ps : List (List String)} {c0 c1 c2 : Node23}
    {ks2 : List String} {cs3 : List Node23}
    (hlk : lookupKey t (k0 :: k1 :: ks2) ps = none) (hge : strLt t k0 = false)
    (hlt : strLt t k1 = true) :
    searchRecursive (.mk (k0 :: k1 :: ks2) ps (c0 :: c1 :: c2 :: cs3)) t =
      searchRecursive c1 t := by
  rw [searchRecursive.eq_3, hlk]
  simp [hge, hlt]

theorem sr_three_right {k0 k1 t : String} {ps : List (List String)} {c0 c1 c2 : Node23}
    {ks2 : List String} {cs3 : List Node23}
    (hlk : lookupKey t (k0 :: k1 :: ks2) ps = none) (hge0 : strLt t k0 = false)
    (hge1 : strLt t k1 = false) :
    searchRecursive (.mk (k0 :: k1 :: ks2) ps (c0 :: c1 :: c2 :: cs3)) t =
      searchRecursive c2 t := by
  rw [searchRecursive.eq_3, hlk]
  simp [hge0, hge1]

theorem wfb_updatePostingList (n : Node23) (t d : String) :
    ∀ lo hi, wfb lo hi n = true → searchRecursive n t ≠ [] →
      wfb lo hi (updatePostingList n t d) = true := by
  induction n, t, d using updatePostingList.induct with
  | case1 ks ps cs t d r hr =>
    intro lo hi hw hs
    have hr' : (updateInNode t d ks ps).2 = true := hr
    have hupd : updatePostingList (Node23.mk ks ps cs) t d =
        Node23.mk ks (updateInNode t d ks ps).1 cs := by
      rw [updatePostingList.eq_def]
      simp only [hr', if_true]
    rw [hupd]
    rcases wfb_inv hw with ⟨rfl, rfl, rfl⟩ |
      ⟨k0, p0, rfl, rfl, rfl, hlo, hhi, hb0, hn0⟩ |
      ⟨k0, k1, p0, p1, rfl, rfl, rfl, hlo, hss, hhi, h2, hb0, hb1, hn0, hn1⟩ |
      ⟨k0, p0, c0, c1, rfl, rfl, rfl, hlo, hhi, hp0, hw0, hw1⟩ |
      ⟨k0, k1, p0, p1, c0, c1, c2, rfl, rfl, rfl, hlo, hss, hhi, h2, hp0, hp1, hw0, hw1, hw2⟩
    · simp [updateInNode] at hr'
    · by_cases htk : t = k0
      · have h1 : (updateInNode t d [k0] [p0]).1 =
            [if d ∈ p0 then p0 else p0 ++ [d]] := by
          simp [updateInNode, htk]
        rw [h1]
        have hq1 : (if d ∈ p0 then p0 else p0 ++ [d]) ≠ [] := by
          split_ifs with hdp
          · exact hb0
          · simp
        have hq2 : (if d ∈ p0 then p0 else p0 ++ [d]).Nodup := by
          split_ifs with hdp
          · exact hn0
          · exact nodup_append_singleton hn0 hdp
        exact wfb_leaf1 hlo hhi hq1 hq2
      · have : (updateInNode t d [k0] [p0]).2 = false := by
          simp [updateInNode, htk]
        rw [this] at hr'
        exact absurd hr' (by simp)
    · by_cases htk : t = k0
      · have h1 : (updateInNode t d [k0, k1] [p0, p1]).1 =
            [if d ∈ p0 then p0 else p0 ++ [d], p1] := by
          simp [updateInNode, htk]
        rw [h1]
        have hq1 : (if d ∈ p0 then p0 else p0 ++ [d]) ≠ [] := by
          split_ifs with hdp
          · exact hb0
          · simp
        have hq2 : (if d ∈ p0 then p0 else p0 ++ [d]).Nodup := by
          split_ifs with hdp
          · exact hn0
          · exact nodup_append_singleton hn0 hdp
        exact wfb_leaf2 hlo hss hhi h2 hq1 hb1 hq2 hn1
      · by_cases htk1 : t = k1
        · have hne : ¬ k1 = k0 := by
            rw [← htk1]; exact htk
          have h1 : (updateInNode t d [k0, k1] [p0, p1]).1 =
              [p0, if d ∈ p1 then p1 else p1 ++ [d]] := by
            simp [updateInNode, htk, htk1, hne]
          rw [h1]
          have hq1 : (if d ∈ p1 then p1 else p1 ++ [d]) ≠ [] := by
            split_ifs with hdp
            · exact hb1
            · simp
          have hq2 : (if d ∈ p1 then p1 else p1 ++ [d]).Nodup := by
            split_ifs with hdp
            · exact hn1
            · exact nodup_append_singleton hn1 hdp
          exact wfb_leaf2 hlo hss hhi h2 hb0 hq1 hn0 hq2
        · have : (updateInNode t d [k0, k1] [p0, p1]).2 = false := by
            simp [updateInNode, htk, htk1]
          rw [this] at hr'
          exact absurd hr' (by simp)
    · exfalso
      subst hp0
      by_cases htk : t = k0
      · apply hs
        refine searchRecursive_found [c0, c1] ?_
        simp [lookupKey, htk]
      · have : (updateInNode t d [k0] [[]]).2 = false := by
          simp [updateInNode, htk]
        rw [this] at hr'
        exact absurd hr' (by simp)
    · exfalso
      subst hp0
      subst hp1
      by_cases htk : t = k0
      · apply hs
        refine searchRecursive_found [c0, c1, c2] ?_
        simp [lookupKey, htk]
      · by_cases htk1 : t = k1
        · apply hs
          refine searchRecursive_found [c0, c1, c2] ?_
          simp [lookupKey, htk, htk1]
        · have : (updateInNode t d [k0, k1] [[], []]).2 = false := by
            simp [updateInNode, htk, htk1]
          rw [this] at hr'
          exact absurd hr' (by simp)
  | case2 ks ps t d r hr =>
    intro lo hi hw hs
    have hr' : ¬ (updateInNode t d ks ps).2 = true := hr
    have hupd : updatePostingList (Node23.mk ks ps []) t d = Node23.mk ks ps [] := by
      rw [updatePostingList.eq_def]
      simp [hr']
    rw [hupd]
    exact hw
  | case3 ps t d c0 cs' k0 ks' hlt r hr ih =>
    intro lo hi hw hs
    have hr' : ¬ (updateInNode t d (k0 :: ks') ps).2 = true := hr
    have hupd : updatePostingList (Node23.mk (k0 :: ks') ps (c0 :: cs')) t d =
        Node23.mk (k0 :: ks') ps (updatePostingList c0 t d :: cs') := by
      rw [updatePostingList.eq_def]
      simp [hr', hlt]
    rw [hupd]
    rcases wfb_inv hw with ⟨hks, _⟩ | ⟨a, b, _, _, hcs, _⟩ | ⟨a0, a1, b0, b1, _, _, hcs, _⟩ |
      ⟨a, b, d0, d1, hks, hps, hcs, hlo, hhi, hp0, hw0, hw1⟩ |
      ⟨a0, a1, b0, b1, d0, d1, d2, hks, hps, hcs, hlo, hss, hhi, h2, hp0, hp1, hw0, hw1, hw2⟩
    · simp at hks
    · simp at hcs
    · simp at hcs
    · injection hks with ha htl
      injection hcs with hc hctl
      subst ha; subst htl; subst hps; subst hp0; subst hc; subst hctl
      have htk : ¬ t = k0 := by
        intro he
        apply hr'
        simp [updateInNode, he]
      have hlk : lookupKey t [k0] [[]] = none := by
        simp [lookupKey, htk]
      have hs0 : searchRecursive c0 t ≠ [] := by
        rwa [sr_two_left hlk hlt] at hs
      exact wfb_int2 hlo hhi (ih lo (some k0) hw0 hs0) hw1
    · injection hks with ha htl
      injection hcs with hc hctl
      subst ha; subst htl; subst hps; subst hp0; subst hp1; subst hc; subst hctl
      have htk : ¬ t = k0 := by
        intro he
        apply hr'
        simp [updateInNode, he]
      have hlk : lookupKey t [k0, a1] [[], []] = none := by
        by_cases htk1 : t = a1
        · exfalso
          apply hr'
          have hne : ¬ a1 = k0 := by
            rw [← htk1]; exact htk
          simp [updateInNode, htk, htk1, hne]
        · simp [lookupKey, htk, htk1]
      have hs0 : searchRecursive c0 t ≠ [] := by
        rwa [sr_three_left hlk hlt] at hs
      exact wfb_int3 hlo hss hhi h2 (ih lo (some k0) hw0 hs0) hw1 hw2
  | case4 ps t d c0 k0 hge c1 tail r hr ih =>
    intro lo hi hw hs
    have hr' : ¬ (updateInNode t d [k0] ps).2 = true := hr
    have hupd : updatePostingList (Node23.mk [k0] ps (c0 :: c1 :: tail)) t d =
        Node23.mk [k0] ps (c0 :: updatePostingList c1 t d :: tail) := by
      rw [updatePostingList.eq_def]
      simp [hr', hge]
    rw [hupd]
    rcases wfb_inv hw with ⟨hks, _⟩ | ⟨a, b, _, _, hcs, _⟩ | ⟨a0, a1, b0, b1, _, _, hcs, _⟩ |
      ⟨a, b, d0, d1, hks, hps, hcs, hlo, hhi, hp0, hw0, hw1⟩ |
      ⟨a0, a1, b0, b1, d0, d1, d2, hks, hps, hcs, _⟩
    · simp at hks
    · simp at hcs
    · simp at hcs
    · injection hks with ha _
      injection hcs with hc hctl
      injection hctl with hc1 hctl2
      subst ha; subst hps; subst hp0; subst hc; subst hc1; subst hctl2
      have htk : ¬ t = k0 := by
        intro he
        apply hr'
        simp [updateInNode, he]
      have hlk : lookupKey t [k0] [[]] = none := by
        simp [lookupKey, htk]
      have hge' : strLt t k0 = false := by
        rwa [Bool.not_eq_true] at hge
      have hs1 : searchRecursive c1 t ≠ [] := by
        rwa [sr_two_right hlk hge'] at hs
      exact wfb_int2 hlo hhi hw0 (ih (some k0) hi hw1 hs1)
    · simp at hks
  | case5 ps t d c0 k0 hge k1 tail c1 cs'' hlt r hr ih =>
    intro lo hi hw hs
    have hr' : ¬ (updateInNode t d (k0 :: k1 :: tail) ps).2 = true := hr
    have hupd : updatePostingList (Node23.mk (k0 :: k1 :: tail) ps (c0 :: c1 :: cs'')) t d =
        Node23.mk (k0 :: k1 :: tail) ps (c0 :: updatePostingList c1 t d :: cs'') := by
      rw [updatePostingList.eq_def]
      simp [hr', hge, hlt]
    rw [hupd]
    rcases wfb_inv hw with ⟨hks, _⟩ | ⟨a, b, hks, _⟩ | ⟨a0, a1, b0, b1, _, _, hcs, _⟩ |
      ⟨a, b, d0, d1, hks, _⟩ |
      ⟨a0, a1, b0, b1, d0, d1, d2, hks, hps, hcs, hlo, hss, hhi, h2, hp0, hp1, hw0, hw1, hw2⟩
    · simp at hks
    · simp at hks
    · simp at hcs
    · simp at hks
    · injection hks with ha htl
      injection htl with ha1 htl2
      injection hcs with hc hctl
      injection hctl with hc1 hctl2
      subst ha; subst ha1; subst htl2; subst hps; subst hp0; subst hp1
      subst hc; subst hc1; subst hctl2
      have htk : ¬ t = k0 := by
        intro he
        apply hr'
        simp [updateInNode, he]
      have htk1 : ¬ t = k1 := by
        intro he
        apply hr'
        have hne : ¬ k1 = k0 := by
          rw [← he]; exact htk
        simp [updateInNode, htk, he, hne]
      have hlk : lookupKey t [k0, k1] [[], []] = none := by
        simp [lookupKey, htk, htk1]
      have hge' : strLt t k0 = false := by
        rwa [Bool.not_eq_true] at hge
      have hs1 : searchRecursive c1 t ≠ [] := by
        rwa [sr_three_mid hlk hge' hlt] at hs
      exact wfb_int3 hlo hss hhi h2 hw0 (ih (some k0) (some k1) hw1 hs1) hw2
  | case6 ps t d c0 k0 hge0 k1 tail c1 hge1 c2 tail1 r hr ih =>
    intro lo hi hw hs
    have hr' : ¬ (updateInNode t d (k0 :: k1 :: tail) ps).2 = true := hr
    have hupd : updatePostingList (Node23.mk (k0 :: k1 :: tail) ps (c0 :: c1 :: c2 :: tail1)) t d =
        Node23.mk (k0 :: k1 :: tail) ps (c0 :: c1 :: updatePostingList c2 t d :: tail1) := by
      rw [updatePostingList.eq_def]
      simp [hr', hge0, hge1]
    rw [hupd]
    rcases wfb_inv hw with ⟨hks, _⟩ | ⟨a, b, hks, _⟩ | ⟨a0, a1, b0, b1, _, _, hcs, _⟩ |
      ⟨a, b, d0, d1, hks, _⟩ |
      ⟨a0, a1, b0, b1, d0, d1, d2, hks, hps, hcs, hlo, hss, hhi, h2, hp0, hp1, hw0, hw1, hw2⟩
    · simp at hks
    · simp at hks
    · simp at hcs
    · simp at hks
    · injection hks with ha htl
      injection htl with ha1 htl2
      injection hcs with hc hctl
      injection hctl with hc1 hctl2
      injection hctl2 with hc2 hctl3
      subst ha; subst ha1; subst htl2; subst hps; subst hp0; subst hp1
      subst hc; subst hc1; subst hc2; subst hctl3
      have htk : ¬ t = k0 := by
        intro he
        apply hr'
        simp [updateInNode, he]
      have htk1 : ¬ t = k1 := by
        intro he
        apply hr'
        have hne : ¬ k1 = k0 := by
          rw [← he]; exact htk
        simp [updateInNode, htk, he, hne]
      have hlk : lookupKey t [k0, k1] [[], []] = none := by
        simp [lookupKey, htk, htk1]
      have hge0' : strLt t k0 = false := by
        rwa [Bool.not_eq_true] at hge0
      have hge1' : strLt t k1 = false := by
        rwa [Bool.not_eq_true] at hge1
      have hs2 : searchRecursive c2 t ≠ [] := by
        rwa [sr_three_right hlk hge0' hge1'] at hs
      exact wfb_int3 hlo hss hhi h2 hw0 hw1 (ih (some k1) hi hw2 hs2)
  | case7 ps t d c0 k0 hge0 k1 tail c1 hge1 r hr =>
    intro lo hi hw hs
    have hr' : ¬ (updateInNode t d (k0 :: k1 :: tail) ps).2 = true := hr
    have hupd : updatePostingList (Node23.mk (k0 :: k1 :: tail) ps [c0, c1]) t d =
        Node23.mk (k0 :: k1 :: tail) ps [c0, c1] := by
      rw [updatePostingList.eq_def]
      simp [hr', hge0, hge1]
    rw [hupd]
    exact hw
  | case8 ps t d c0 k0 hge0 k1 tail r hr =>
    intro lo hi hw hs
    have hr' : ¬ (updateInNode t d (k0 :: k1 :: tail) ps).2 = true := hr
    have hupd : updatePostingList (Node23.mk (k0 :: k1 :: tail) ps [c0]) t d =
        Node23.mk (k0 :: k1 :: tail) ps [c0] := by
      rw [updatePostingList.eq_def]
      simp [hr', hge0]
    rw [hupd]
    exact hw
  | case9 ps t d c0 k0 hge0 r hr =>
    intro lo hi hw hs
    have hr' : ¬ (updateInNode t d [k0] ps).2 = true := hr
    have hupd : updatePostingList (Node23.mk [k0] ps [c0]) t d = Node23.mk [k0] ps [c0] := by
      rw [updatePostingList.eq_def]
      simp [hr', hge0]
    rw [hupd]
    exact hw
  | case10 ps t d hd tl r hr =>
    intro lo hi hw hs
    have hr' : ¬ (updateInNode t d [] ps).2 = true := hr
    have hupd : updatePostingList (Node23.mk [] ps (hd :: tl)) t d =
        Node23.mk [] ps (hd :: tl) := by
      rw [updatePostingList.eq_def]
      simp [hr']
    rw [hupd]
    exact hw

theorem strLt_of_ne_of_le {t k : String} (hne : t ≠ k) (hle : strLt k t = false) :
    strLt t k = true := by
  by_contra h
  rw [Bool.not_eq_true] at h
  exact hne (strLt_antisymm h hle)

theorem lookup_none_of_not_mem {t : String} {ks : List String} (h : t ∉ ks) :
    ∀ ps, lookupKey t ks ps = none := by
  induction ks with
  | nil => intro ps; rfl
  | cons k ks ih =>
    intro ps
    have hne : ¬ t = k := fun he => h (he ▸ List.mem_cons_self k ks)
    have hnm : t ∉ ks := fun hm => h (List.mem_cons_of_mem k hm)
    cases ps with
    | nil => simp [lookupKey, hne, ih hnm []]
    | cons p ps => simp [lookupKey, hne, ih hnm ps]

theorem lookup_found_mem {t : String} {ks : List String} :
    ∀ ps : List (List String), ps.length = ks.length → t ∈ ks →
      ∃ p, lookupKey t ks ps = some p ∧ (t, p) ∈ ks.zip ps := by
  induction ks with
  | nil => intro ps _ ht; simp at ht
  | cons k ks ih =>
    intro ps hlen ht
    cases ps with
    | nil => simp at hlen
    | cons p ps =>
      by_cases htk : t = k
      · refine ⟨p, by simp [lookupKey, htk], ?_⟩
        subst htk
        simp
      · have ht' : t ∈ ks := by
          rcases List.mem_cons.mp ht with he | hm
          · exact absurd he htk
          · exact hm
        obtain ⟨q, hq1, hq2⟩ := ih ps (by simpa using hlen) ht'
        exact ⟨q, by simp [lookupKey, htk, hq1], by simp [hq2]⟩

theorem zip_mem_entries {t : String} {p : List String} {ks : List String}
    {ps : List (List String)} {cs : List Node23} (h : (t, p) ∈ ks.zip ps) :
    (t, p) ∈ collectAllTerms (.mk ks ps cs) := by
  rw [collectAllTerms_mk]
  exact List.mem_append_left _ h

theorem internalKeys_subset_allKeys (n : Node23) :
    ∀ k, k ∈ internalKeys n → k ∈ allKeys n := by
  induction n using node_ind with
  | step ks ps cs ih =>
    intro k hk
    cases cs with
    | nil => simp [internalKeys_leaf] at hk
    | cons c cs' =>
      rw [internalKeys_node] at hk
      rw [allKeys_mk]
      rcases List.mem_append.mp hk with hk | hk
      · exact List.mem_append_left _ hk
      · refine List.mem_append_right _ ?_
        have H : ∀ l : List Node23,
            (∀ c' ∈ l, ∀ k', k' ∈ internalKeys c' → k' ∈ allKeys c') →
            k ∈ internalKeysList l → k ∈ allKeysList l := by
          intro l
          induction l with
          | nil =>
            intro _ hkl
            simpa [internalKeysList_nil] using hkl
          | cons x xs ihx =>
            intro hall hkl
            rw [internalKeysList_cons] at hkl
            rw [allKeysList_cons]
            rcases List.mem_append.mp hkl with h1 | h2
            · exact List.mem_append_left _ (hall x (by simp) k h1)
            · exact List.mem_append_right _
                (ihx (fun c' hc' => hall c' (by simp [hc'])) h2)
        exact H (c :: cs') (fun c' hc' k' hk' => ih c' hc' k' hk') hk

theorem entries_nodup_of_wfb (n : Node23) :
    ∀ lo hi, wfb lo hi n = true → ∀ e ∈ collectAllTerms n, (e.2 : List String).Nodup := by
  induction n using node_ind with
  | step ks ps cs ih =>
    intro lo hi hw e he
    rcases wfb_inv hw with ⟨rfl, rfl, rfl⟩ |
      ⟨k0, p0, rfl, rfl, rfl, _, _, _, hn0⟩ |
      ⟨k0, k1, p0, p1, rfl, rfl, rfl, _, _, _, _, _, _, hn0, hn1⟩ |
      ⟨k0, p0, c0, c1, rfl, rfl, rfl, _, _, hp0, hw0, hw1⟩ |
      ⟨k0, k1, p0, p1, c0, c1, c2, rfl, rfl, rfl, _, _, _, _, hp0, hp1, hw0, hw1, hw2⟩
    · simp [collectAllTerms_mk, collectAllTermsList_nil] at he
    · rw [collectAllTerms_mk, collectAllTermsList_nil] at he
      simp at he
      subst he
      exact hn0
    · rw [collectAllTerms_mk, collectAllTermsList_nil] at he
      simp at he
      rcases he with he | he <;> subst he
      · exact hn0
      · exact hn1
    · subst hp0
      rw [collectAllTerms_mk, collectAllTermsList_cons, collectAllTermsList_cons,
        collectAllTermsList_nil] at he
      simp only [List.append_nil, List.mem_append] at he
      rcases he with he | he | he
      · simp at he
        subst he
        exact List.nodup_nil
      · exact ih c0 (by simp) lo (some k0) hw0 e he
      · exact ih c1 (by simp) (some k0) hi hw1 e he
    · subst hp0; subst hp1
      rw [collectAllTerms_mk, collectAllTermsList_cons, collectAllTermsList_cons,
        collectAllTermsList_cons, collectAllTermsList_nil] at he
      simp only [List.append_nil, List.mem_append] at he
      rcases he with he | he | he | he
      · simp at he
        rcases he with he | he <;> subst he <;> exact List.nodup_nil
      · exact ih c0 (by simp) lo (some k0) hw0 e he
      · exact ih c1 (by simp) (some k0) (some k1) hw1 e he
      · exact ih c2 (by simp) (some k1) hi hw2 e he

theorem empty_entry_internal (n : Node23) :
    ∀ lo hi, wfb lo hi n = true → ∀ t, (t, ([] : List String)) ∈ collectAllTerms n →
      t ∈ internalKeys n := by
  induction n using node_ind with
  | step ks ps cs ih =>
    intro lo hi hw t he
    rcases wfb_inv hw with ⟨rfl, rfl, rfl⟩ |
      ⟨k0, p0, rfl, rfl, rfl, _, _, hb0, _⟩ |
      ⟨k0, k1, p0, p1, rfl, rfl, rfl, _, _, _, _, hb0, hb1, _, _⟩ |
      ⟨k0, p0, c0, c1, rfl, rfl, rfl, _, _, hp0, hw0, hw1⟩ |
      ⟨k0, k1, p0, p1, c0, c1, c2, rfl, rfl, rfl, _, _, _, _, hp0, hp1, hw0, hw1, hw2⟩
    · simp [collectAllTerms_mk, collectAllTermsList_nil] at he
    · rw [collectAllTerms_mk, collectAllTermsList_nil] at he
      simp at he
      exact absurd he.2 hb0
    · rw [collectAllTerms_mk, collectAllTermsList_nil] at he
      simp at he
      rcases he with he | he
      · exact absurd he.2 hb0
      · exact absurd he.2 hb1
    · subst hp0
      rw [collectAllTerms_mk, collectAllTermsList_cons, collectAllTermsList_cons,
        collectAllTermsList_nil] at he
      simp only [List.append_nil, List.mem_append] at he
      rw [internalKeys_node, internalKeysList_cons, internalKeysList_cons,
        internalKeysList_nil]
      simp only [List.append_nil, List.mem_append]
      rcases he with he | he | he
      · simp at he
        exact Or.inl (by simp [he])
      · exact Or.inr (Or.inl (ih c0 (by simp) lo (some k0) hw0 t he))
      · exact Or.inr (Or.inr (ih c1 (by simp) (some k0) hi hw1 t he))
    · subst hp0; subst hp1
      rw [collectAllTerms_mk, collectAllTermsList_cons, collectAllTermsList_cons,
        collectAllTermsList_cons, collectAllTermsList_nil] at he
      simp only [List.append_nil, List.mem_append] at he
      rw [internalKeys_node, internalKeysList_cons, internalKeysList_cons,
        internalKeysList_cons, internalKeysList_nil]
      simp only [List.append_nil, List.mem_append]
      rcases he with he | he | he | he
      · simp at he
        rcases he with he | he
        · exact Or.inl (by simp [he])
        · exact Or.inl (by simp [he])
      · exact Or.inr (Or.inl (ih c0 (by simp) lo (some k0) hw0 t he))
      · exact Or.inr (Or.inr (Or.inl (ih c1 (by simp) (some k0) (some k1) hw1 t he)))
      · exact Or.inr (Or.inr (Or.inr (ih c2 (by simp) (some k1) hi hw2 t he)))

theorem search_finds (n : Node23) :
    ∀ lo hi, wfb lo hi n = true → ∀ t, t ∈ allKeys n →
      ∃ p, (t, p) ∈ collectAllTerms n ∧ searchRecursive n t = p := by
  induction n using node_ind with
  | step ks ps cs ih =>
    intro lo hi hw t ht
    rcases wfb_inv hw with ⟨rfl, rfl, rfl⟩ |
      ⟨k0, p0, rfl, rfl, rfl, _⟩ |
      ⟨k0, k1, p0, p1, rfl, rfl, rfl, _⟩ |
      ⟨k0, p0, c0, c1, rfl, rfl, rfl, _, _, hp0, hw0, hw1⟩ |
      ⟨k0, k1, p0, p1, c0, c1, c2, rfl, rfl, rfl, _, _, _, _, hp0, hp1, hw0, hw1, hw2⟩
    · simp [allKeys_mk, allKeysList_nil] at ht
    · rw [allKeys_mk, allKeysList_nil, List.append_nil] at ht
      obtain ⟨p, hl, hm⟩ := lookup_found_mem [p0] (by simp) ht
      exact ⟨p, zip_mem_entries hm, searchRecursive_found [] hl⟩
    · rw [allKeys_mk, allKeysList_nil, List.append_nil] at ht
      obtain ⟨p, hl, hm⟩ := lookup_found_mem [p0, p1] (by simp) ht
      exact ⟨p, zip_mem_entries hm, searchRecursive_found [] hl⟩
    · subst hp0
      by_cases hmem : t ∈ [k0]
      · obtain ⟨p, hl, hm⟩ := lookup_found_mem [[]] (by simp) hmem
        exact ⟨p, zip_mem_entries hm, searchRecursive_found [c0, c1] hl⟩
      · have htk : t ≠ k0 := fun he => hmem (by simp [he])
        have hlk : lookupKey t [k0] [[]] = none := lookup_none_of_not_mem hmem [[]]
        rw [allKeys_mk, allKeysList_cons, allKeysList_cons, allKeysList_nil,
          List.append_nil] at ht
        simp only [List.mem_append] at ht
        rcases ht with ht | ht | ht
        · exact absurd ht hmem
        · have hbd := allKeys_bounds c0 hw0 t ht
          have hlt : strLt t k0 = true :=
            strLt_of_ne_of_le htk (hiGe_some_iff.mp hbd.2)
          obtain ⟨p, hm, he⟩ := ih c0 (by simp) lo (some k0) hw0 t ht
          refine ⟨p, ?_, ?_⟩
          · rw [collectAllTerms_mk]
            refine List.mem_append_right _ ?_
            rw [collectAllTermsList_cons]
            exact List.mem_append_left _ hm
          · rw [sr_two_left hlk hlt]
            exact he
        · have hbd := allKeys_bounds c1 hw1 t ht
          have hge : strLt t k0 = false := loLe_some_iff.mp hbd.1
          obtain ⟨p, hm, he⟩ := ih c1 (by simp) (some k0) hi hw1 t ht
          refine ⟨p, ?_, ?_⟩
          · rw [collectAllTerms_mk]
            refine List.mem_append_right _ ?_
            rw [collectAllTermsList_cons, collectAllTermsList_cons]
            refine List.mem_append_right _ (List.mem_append_left _ hm)
          · rw [sr_two_right hlk hge]
            exact he
    · subst hp0; subst hp1
      by_cases hmem : t ∈ [k0, k1]
      · obtain ⟨p, hl, hm⟩ := lookup_found_mem [[], []] (by simp) hmem
        exact ⟨p, zip_mem_entries hm, searchRecursive_found [c0, c1, c2] hl⟩
      · have htk0 : t ≠ k0 := fun he => hmem (by simp [he])
        have htk1 : t ≠ k1 := fun he => hmem (by simp [he])
        have hlk : lookupKey t [k0, k1] [[], []] = none := lookup_none_of_not_mem hmem _
        rw [allKeys_mk, allKeysList_cons, allKeysList_cons, allKeysList_cons,
          allKeysList_nil, List.append_nil] at ht
        simp only [List.mem_append] at ht
        rcases ht with ht | ht | ht | ht
        · exact absurd ht hmem
        · have hbd := allKeys_bounds c0 hw0 t ht
          have hlt : strLt t k0 = true :=
            strLt_of_ne_of_le htk0 (hiGe_some_iff.mp hbd.2)
          obtain ⟨p, hm, he⟩ := ih c0 (by simp) lo (some k0) hw0 t ht
          refine ⟨p, ?_, ?_⟩
          · rw [collectAllTerms_mk]
            refine List.mem_append_right _ ?_
            rw [collectAllTermsList_cons]
            exact List.mem_append_left _ hm
          · rw [sr_three_left hlk hlt]
            exact he
        · have hbd := allKeys_bounds c1 hw1 t ht
          have hge : strLt t k0 = false := loLe_some_iff.mp hbd.1
          have hlt1 : strLt t k1 = true :=
            strLt_of_ne_of_le htk1 (hiGe_some_iff.mp hbd.2)
          obtain ⟨p, hm, he⟩ := ih c1 (by simp) (some k0) (some k1) hw1 t ht
          refine ⟨p, ?_, ?_⟩
          · rw [collectAllTerms_mk]
            refine List.mem_append_right _ ?_
            rw [collectAllTermsList_cons, collectAllTermsList_cons]
            exact List.mem_append_right _ (List.mem_append_left _ hm)
          · rw [sr_three_mid hlk hge hlt1]
            exact he
        · have hbd := allKeys_bounds c2 hw2 t ht
          have hge1 : strLt t k1 = false := loLe_some_iff.mp hbd.1
          have hge0 : strLt t k0 = false := by
            rcases wfb_inv hw with ⟨he, _⟩ | ⟨a, b, he, _⟩ | ⟨a0, a1, b0, b1, _, _, he, _⟩ |
              ⟨a, b, d0, d1, he, _⟩ |
              ⟨a0, a1, b0, b1, d0, d1, d2, he, _, _, _, hss, _⟩
            · simp at he
            · simp at he
            · simp at he
            · simp at he
            · injection he with h1 he'
              injection he' with h2 _
              exact strLt_le_trans (h1 ▸ h2 ▸ hss) hge1
          obtain ⟨p, hm, he⟩ := ih c2 (by simp) (some k1) hi hw2 t ht
          refine ⟨p, ?_, ?_⟩
          · rw [collectAllTerms_mk]
            refine List.mem_append_right _ ?_
            rw [collectAllTermsList_cons, collectAllTermsList_cons, collectAllTermsList_cons]
            exact List.mem_append_right _ (List.mem_append_right _ (List.mem_append_left _ hm))
          · rw [sr_three_right hlk hge0 hge1]
            exact he

theorem search_internal_empty (n : Node23) :
    ∀ lo hi, wfb lo hi n = true → ∀ t, t ∈ internalKeys n → searchRecursive n t = [] := by
  induction n using node_ind with
  | step ks ps cs ih =>
    intro lo hi hw t ht
    rcases wfb_inv hw with ⟨rfl, rfl, rfl⟩ |
      ⟨k0, p0, rfl, rfl, rfl, _⟩ |
      ⟨k0, k1, p0, p1, rfl, rfl, rfl, _⟩ |
      ⟨k0, p0, c0, c1, rfl, rfl, rfl, _, _, hp0, hw0, hw1⟩ |
      ⟨k0, k1, p0, p1, c0, c1, c2, rfl, rfl, rfl, _, hss, _, _, hp0, hp1, hw0, hw1, hw2⟩
    · simp [internalKeys_leaf] at ht
    · simp [internalKeys_leaf] at ht
    · simp [internalKeys_leaf] at ht
    · subst hp0
      by_cases hmem : t ∈ [k0]
      · obtain ⟨p, hl, hm⟩ := lookup_found_mem [[]] (by simp) hmem
        have hp : p = [] := by
          simp at hm
          exact hm.2
        rw [searchRecursive_found [c0, c1] hl, hp]
      · have htk : t ≠ k0 := fun he => hmem (by simp [he])
        have hlk : lookupKey t [k0] [[]] = none := lookup_none_of_not_mem hmem _
        rw [internalKeys_node, internalKeysList_cons, internalKeysList_cons,
          internalKeysList_nil, List.append_nil] at ht
        simp only [List.mem_append] at ht
        rcases ht with ht | ht | ht
        · exact absurd ht hmem
        · have hak := internalKeys_subset_allKeys c0 t ht
          have hbd := allKeys_bounds c0 hw0 t hak
          have hlt : strLt t k0 = true :=
            strLt_of_ne_of_le htk (hiGe_some_iff.mp hbd.2)
          rw [sr_two_left hlk hlt]
          exact ih c0 (by simp) lo (some k0) hw0 t ht
        · have hak := internalKeys_subset_allKeys c1 t ht
          have hbd := allKeys_bounds c1 hw1 t hak
          have hge : strLt t k0 = false := loLe_some_iff.mp hbd.1
          rw [sr_two_right hlk hge]
          exact ih c1 (by simp) (some k0) hi hw1 t ht
    · subst hp0; subst hp1
      by_cases hmem : t ∈ [k0, k1]
      · obtain ⟨p, hl, hm⟩ := lookup_found_mem [[], []] (by simp) hmem
        have hp : p = [] := by
          simp at hm
          rcases hm with hm | hm
          · exact hm.2
          · exact hm.2
        rw [searchRecursive_found [c0, c1, c2] hl, hp]
      · have htk0 : t ≠ k0 := fun he => hmem (by simp [he])
        have htk1 : t ≠ k1 := fun he => hmem (by simp [he])
        have hlk : lookupKey t [k0, k1] [[], []] = none := lookup_none_of_not_mem hmem _
        rw [internalKeys_node, internalKeysList_cons, internalKeysList_cons,
          internalKeysList_cons, internalKeysList_nil, List.append_nil] at ht
        simp only [List.mem_append] at ht
        rcases ht with ht | ht | ht | ht
        · exact absurd ht hmem
        · have hak := internalKeys_subset_allKeys c0 t ht
          have hbd := allKeys_bounds c0 hw0 t hak
          have hlt : strLt t k0 = true :=
            strLt_of_ne_of_le htk0 (hiGe_some_iff.mp hbd.2)
          rw [sr_three_left hlk hlt]
          exact ih c0 (by simp) lo (some k0) hw0 t ht
        · have hak := internalKeys_subset_allKeys c1 t ht
          have hbd := allKeys_bounds c1 hw1 t hak
          have hge : strLt t k0 = false := loLe_some_iff.mp hbd.1
          have hlt1 : strLt t k1 = true :=
            strLt_of_ne_of_le htk1 (hiGe_some_iff.mp hbd.2)
          rw [sr_three_mid hlk hge hlt1]
          exact ih c1 (by simp) (some k0) (some k1) hw1 t ht
        · have hak := internalKeys_subset_allKeys c2 t ht
          have hbd := allKeys_bounds c2 hw2 t hak
          have hge1 : strLt t k1 = false := loLe_some_iff.mp hbd.1
          have hge0 : strLt t k0 = false := strLt_le_trans hss hge1
          rw [sr_three_right hlk hge0 hge1]
          exact ih c2 (by simp) (some k1) hi hw2 t ht

theorem search_updatePostingList (n : Node23) (t d : String) :
    ∀ lo hi, wfb lo hi n = true → searchRecursive n t ≠ [] →
      searchRecursive (updatePostingList n t d) t =
        (if d ∈ searchRecursive n t then searchRecursive n t
         else searchRecursive n t ++ [d]) := by
  induction n, t, d using updatePostingList.induct with
  | case1 ks ps cs t d r hr =>
    intro lo hi hw hs
    have hr' : (updateInNode t d ks ps).2 = true := hr
    have hupd : updatePostingList (Node23.mk ks ps cs) t d =
        Node23.mk ks (updateInNode t d ks ps).1 cs := by
      rw [updatePostingList.eq_def]
      simp only [hr', if_true]
    rw [hupd]
    rcases wfb_inv hw with ⟨rfl, rfl, rfl⟩ |
      ⟨k0, p0, rfl, rfl, rfl, _⟩ |
      ⟨k0, k1, p0, p1, rfl, rfl, rfl, _⟩ |
      ⟨k0, p0, c0, c1, rfl, rfl, rfl, _, _, hp0, hw0, hw1⟩ |
      ⟨k0, k1, p0, p1, c0, c1, c2, rfl, rfl, rfl, _, _, _, _, hp0, hp1, hw0, hw1, hw2⟩
    · simp [updateInNode] at hr'
    · by_cases htk : t = k0
      · have h1 : (updateInNode t d [k0] [p0]).1 =
            [if d ∈ p0 then p0 else p0 ++ [d]] := by
          simp [updateInNode, htk]
        rw [h1]
        have hsn : searchRecursive (Node23.mk [k0] [p0] []) t = p0 :=
          searchRecursive_found [] (by simp [lookupKey, htk])
        have hsu : searchRecursive
            (Node23.mk [k0] [if d ∈ p0 then p0 else p0 ++ [d]] []) t =
            (if d ∈ p0 then p0 else p0 ++ [d]) :=
          searchRecursive_found [] (by simp [lookupKey, htk])
        rw [hsn, hsu]
      · have : (updateInNode t d [k0] [p0]).2 = false := by
          simp [updateInNode, htk]
        rw [this] at hr'
        exact absurd hr' (by simp)
    · by_cases htk : t = k0
      · have h1 : (updateInNode t d [k0, k1] [p0, p1]).1 =
            [if d ∈ p0 then p0 else p0 ++ [d], p1] := by
          simp [updateInNode, htk]
        rw [h1]
        have hsn : searchRecursive (Node23.mk [k0, k1] [p0, p1] []) t = p0 :=
          searchRecursive_found [] (by simp [lookupKey, htk])
        have hsu : searchRecursive
            (Node23.mk [k0, k1] [if d ∈ p0 then p0 else p0 ++ [d], p1] []) t =
            (if d ∈ p0 then p0 else p0 ++ [d]) :=
          searchRecursive_found [] (by simp [lookupKey, htk])
        rw [hsn, hsu]
      · by_cases htk1 : t = k1
        · have hne : ¬ k1 = k0 := by
            rw [← htk1]; exact htk
          have h1 : (updateInNode t d [k0, k1] [p0, p1]).1 =
              [p0, if d ∈ p1 then p1 else p1 ++ [d]] := by
            simp [updateInNode, htk, htk1, hne]
          rw [h1]
          have hsn : searchRecursive (Node23.mk [k0, k1] [p0, p1] []) t = p1 :=
            searchRecursive_found [] (by simp [lookupKey, htk, htk1, hne])
          have hsu : searchRecursive
              (Node23.mk [k0, k1] [p0, if d ∈ p1 then p1 else p1 ++ [d]] []) t =
              (if d ∈ p1 then p1 else p1 ++ [d]) :=
            searchRecursive_found [] (by simp [lookupKey, htk, htk1, hne])
          rw [hsn, hsu]
        · have : (updateInNode t d [k0, k1] [p0, p1]).2 = false := by
            simp [updateInNode, htk, htk1]
          rw [this] at hr'
          exact absurd hr' (by simp)
    · exfalso
      subst hp0
      by_cases htk : t = k0
      · apply hs
        exact searchRecursive_found [c0, c1] (by simp [lookupKey, htk])
      · have : (updateInNode t d [k0] [[]]).2 = false := by
          simp [updateInNode, htk]
        rw [this] at hr'
        exact absurd hr' (by simp)
    · exfalso
      subst hp0; subst hp1
      by_cases htk : t = k0
      · apply hs
        exact searchRecursive_found [c0, c1, c2] (by simp [lookupKey, htk])
      · by_cases htk1 : t = k1
        · apply hs
          exact searchRecursive_found [c0, c1, c2] (by simp [lookupKey, htk, htk1])
        · have : (updateInNode t d [k0, k1] [[], []]).2 = false := by
            simp [updateInNode, htk, htk1]
          rw [this] at hr'
          exact absurd hr' (by simp)
  | case2 ks ps t d r hr =>
    intro lo hi hw hs
    exfalso
    have hr' : ¬ (updateInNode t d ks ps).2 = true := hr
    apply hs
    rcases wfb_inv hw with ⟨rfl, rfl, _⟩ |
      ⟨k0, p0, rfl, rfl, _, _⟩ |
      ⟨k0, k1, p0, p1, rfl, rfl, _, _⟩ |
      ⟨k0, p0, c0, c1, _, _, hcs, _⟩ |
      ⟨k0, k1, p0, p1, c0, c1, c2, _, _, hcs, _⟩
    · rfl
    · have htk : ¬ t = k0 := by
        intro he
        apply hr'
        simp [updateInNode, he]
      rw [searchRecursive.eq_1, lookup_none_of_not_mem (by simp [htk]) [p0]]
    · have htk : ¬ t = k0 := by
        intro he
        apply hr'
        simp [updateInNode, he]
      have htk1 : ¬ t = k1 := by
        intro he
        apply hr'
        have hne : ¬ k1 = k0 := by
          rw [← he]; exact htk
        simp [updateInNode, htk, he, hne]
      rw [searchRecursive.eq_1, lookup_none_of_not_mem (by simp [htk, htk1]) [p0, p1]]
    · simp at hcs
    · simp at hcs
  | case3 ps t d c0 cs' k0 ks' hlt r hr ih =>
    intro lo hi hw hs
    have hr' : ¬ (updateInNode t d (k0 :: ks') ps).2 = true := hr
    have hupd : updatePostingList (Node23.mk (k0 :: ks') ps (c0 :: cs')) t d =
        Node23.mk (k0 :: ks') ps (updatePostingList c0 t d :: cs') := by
      rw [updatePostingList.eq_def]
      simp [hr', hlt]
    rw [hupd]
    rcases wfb_inv hw with ⟨hks, _⟩ | ⟨a, b, _, _, hcs, _⟩ | ⟨a0, a1, b0, b1, _, _, hcs, _⟩ |
      ⟨a, b, d0, d1, hks, hps, hcs, _, _, hp0, hw0, hw1⟩ |
      ⟨a0, a1, b0, b1, d0, d1, d2, hks, hps, hcs, _, hss, _, _, hp0, hp1, hw0, hw1, hw2⟩
    · simp at hks
    · simp at hcs
    · simp at hcs
    · injection hks with ha htl
      injection hcs with hc hctl
      subst ha; subst htl; subst hps; subst hp0; subst hc; subst hctl
      have htk : ¬ t = k0 := by
        intro he
        apply hr'
        simp [updateInNode, he]
      have hlk : lookupKey t [k0] [[]] = none := lookup_none_of_not_mem (by simp [htk]) _
      rw [sr_two_left hlk hlt] at hs ⊢
      rw [sr_two_left hlk hlt]
      exact ih lo (some k0) hw0 hs
    · injection hks with ha htl
      injection hcs with hc hctl
      subst ha; subst htl; subst hps; subst hp0; subst hp1; subst hc; subst hctl
      have htk : ¬ t = k0 := by
        intro he
        apply hr'
        simp [updateInNode, he]
      have htk1 : ¬ t = a1 := by
        intro he
        apply hr'
        have hne : ¬ a1 = k0 := by
          rw [← he]; exact htk
        simp [updateInNode, htk, he, hne]
      have hlk : lookupKey t [k0, a1] [[], []] = none :=
        lookup_none_of_not_mem (by simp [htk, htk1]) _
      rw [sr_three_left hlk hlt] at hs ⊢
      rw [sr_three_left hlk hlt]
      exact ih lo (some k0) hw0 hs
  | case4 ps t d c0 k0 hge c1 tail r hr ih =>
    intro lo hi hw hs
    have hr' : ¬ (updateInNode t d [k0] ps).2 = true := hr
    have hupd : updatePostingList (Node23.mk [k0] ps (c0 :: c1 :: tail)) t d =
        Node23.mk [k0] ps (c0 :: updatePostingList c1 t d :: tail) := by
      rw [updatePostingList.eq_def]
      simp [hr', hge]
    rw [hupd]
    rcases wfb_inv hw with ⟨hks, _⟩ | ⟨a, b, _, _, hcs, _⟩ | ⟨a0, a1, b0, b1, _, _, hcs, _⟩ |
      ⟨a, b, d0, d1, hks, hps, hcs, _, _, hp0, hw0, hw1⟩ |
      ⟨a0, a1, b0, b1, d0, d1, d2, hks, _⟩
    · simp at hks
    · simp at hcs
    · simp at hcs
    · injection hks with ha _
      injection hcs with hc hctl
      injection hctl with hc1 hctl2
      subst ha; subst hps; subst hp0; subst hc; subst hc1; subst hctl2
      have htk : ¬ t = k0 := by
        intro he
        apply hr'
        simp [updateInNode, he]
      have hlk : lookupKey t [k0] [[]] = none := lookup_none_of_not_mem (by simp [htk]) _
      have hge' : strLt t k0 = false := by
        rwa [Bool.not_eq_true] at hge
      rw [sr_two_right hlk hge'] at hs ⊢
      rw [sr_two_right hlk hge']
      exact ih (some k0) hi hw1 hs
    · simp at hks
  | case5 ps t d c0 k0 hge k1 tail c1 cs'' hlt r hr ih =>
    intro lo hi hw hs
    have hr' : ¬ (updateInNode t d (k0 :: k1 :: tail) ps).2 = true := hr
    have hupd : updatePostingList (Node23.mk (k0 :: k1 :: tail) ps (c0 :: c1 :: cs'')) t d =
        Node23.mk (k0 :: k1 :: tail) ps (c0 :: updatePostingList c1 t d :: cs'') := by
      rw [updatePostingList.eq_def]
      simp [hr', hge, hlt]
    rw [hupd]
    rcases wfb_inv hw with ⟨hks, _⟩ | ⟨a, b, hks, _⟩ | ⟨a0, a1, b0, b1, _, _, hcs, _⟩ |
      ⟨a, b, d0, d1, hks, _⟩ |
      ⟨a0, a1, b0, b1, d0, d1, d2, hks, hps, hcs, _, hss, _, _, hp0, hp1, hw0, hw1, hw2⟩
    · simp at hks
    · simp at hks
    · simp at hcs
    · simp at hks
    · injection hks with ha htl
      injection htl with ha1 htl2
      injection hcs with hc hctl
      injection hctl with hc1 hctl2
      subst ha; subst ha1; subst htl2; subst hps; subst hp0; subst hp1
      subst hc; subst hc1; subst hctl2
      have htk : ¬ t = k0 := by
        intro he
        apply hr'
        simp [updateInNode, he]
      have htk1 : ¬ t = k1 := by
        intro he
        apply hr'
        have hne : ¬ k1 = k0 := by
          rw [← he]; exact htk
        simp [updateInNode, htk, he, hne]
      have hlk : lookupKey t [k0, k1] [[], []] = none :=
        lookup_none_of_not_mem (by simp [htk, htk1]) _
      have hge' : strLt t k0 = false := by
        rwa [Bool.not_eq_true] at hge
      rw [sr_three_mid hlk hge' hlt] at hs ⊢
      rw [sr_three_mid hlk hge' hlt]
      exact ih (some k0) (some k1) hw1 hs
  | case6 ps t d c0 k0 hge0 k1 tail c1 hge1 c2 tail1 r hr ih =>
    intro lo hi hw hs
    have hr' : ¬ (updateInNode t d (k0 :: k1 :: tail) ps).2 = true := hr
    have hupd : updatePostingList (Node23.mk (k0 :: k1 :: tail) ps (c0 :: c1 :: c2 :: tail1)) t d =
        Node23.mk (k0 :: k1 :: tail) ps (c0 :: c1 :: updatePostingList c2 t d :: tail1) := by
      rw [updatePostingList.eq_def]
      simp [hr', hge0, hge1]
    rw [hupd]
    rcases wfb_inv hw with ⟨hks, _⟩ | ⟨a, b, hks, _⟩ | ⟨a0, a1, b0, b1, _, _, hcs, _⟩ |
      ⟨a, b, d0, d1, hks, _⟩ |
      ⟨a0, a1, b0, b1, d0, d1, d2, hks, hps, hcs, _, hss, _, _, hp0, hp1, hw0, hw1, hw2⟩
    · simp at hks
    · simp at hks
    · simp at hcs
    · simp at hks
    · injection hks with ha htl
      injection htl with ha1 htl2
      injection hcs with hc hctl
      injection hctl with hc1 hctl2
      injection hctl2 with hc2 hctl3
      subst ha; subst ha1; subst htl2; subst hps; subst hp0; subst hp1
      subst hc; subst hc1; subst hc2; subst hctl3
      have htk : ¬ t = k0 := by
        intro he
        apply hr'
        simp [updateInNode, he]
      have htk1 : ¬ t = k1 := by
        intro he
        apply hr'
        have hne : ¬ k1 = k0 := by
          rw [← he]; exact htk
        simp [updateInNode, htk, he, hne]
      have hlk : lookupKey t [k0, k1] [[], []] = none :=
        lookup_none_of_not_mem (by simp [htk, htk1]) _
      have hge0' : strLt t k0 = false := by
        rwa [Bool.not_eq_true] at hge0
      have hge1' : strLt t k1 = false := by
        rwa [Bool.not_eq_true] at hge1
      rw [sr_three_right hlk hge0' hge1'] at hs ⊢
      rw [sr_three_right hlk hge0' hge1']
      exact ih (some k1) hi hw2 hs
  | case7 ps t d c0 k0 hge0 k1 tail c1 hge1 r hr =>
    intro lo hi hw hs
    rcases wfb_inv hw with ⟨hks, _⟩ | ⟨a, b, hks, _⟩ | ⟨a0, a1, b0, b1, _, _, hcs, _⟩ |
      ⟨a, b, d0, d1, hks, _⟩ |
      ⟨a0, a1, b0, b1, d0, d1, d2, hks, hps, hcs, _⟩
    · simp at hks
    · simp at hks
    · simp at hcs
    · simp at hks
    · simp at hcs
  | case8 ps t d c0 k0 hge0 k1 tail r hr =>
    intro lo hi hw hs
    rcases wfb_inv hw with ⟨hks, _⟩ | ⟨a, b, hks, _⟩ | ⟨a0, a1, b0, b1, _, _, hcs, _⟩ |
      ⟨a, b, d0, d1, hks, _⟩ |
      ⟨a0, a1, b0, b1, d0, d1, d2, hks, hps, hcs, _⟩
    · simp at hks
    · simp at hks
    · simp at hcs
    · simp at hks
    · simp at hcs
  | case9 ps t d c0 k0 hge0 r hr =>
    intro lo hi hw hs
    rcases wfb_inv hw with ⟨hks, _⟩ | ⟨a, b, _, _, hcs, _⟩ | ⟨a0, a1, b0, b1, _, _, hcs, _⟩ |
      ⟨a, b, d0, d1, hks, hps, hcs, _⟩ |
      ⟨a0, a1, b0, b1, d0, d1, d2, hks, _⟩
    · simp at hks
    · simp at hcs
    · simp at hcs
    · simp at hcs
    · simp at hks
  | case10 ps t d hd tl r hr =>
    intro lo hi hw hs
    rcases wfb_inv hw with ⟨_, _, hcs⟩ | ⟨a, b, hks, _⟩ | ⟨a0, a1, b0, b1, hks, _⟩ |
      ⟨a, b, d0, d1, hks, _⟩ |
      ⟨a0, a1, b0, b1, d0, d1, d2, hks, _⟩
    · simp at hcs
    · simp at hks
    · simp at hks
    · simp at hks
    · simp at hks

theorem allKeys_updatePostingList (n : Node23) (t d : String) :
    allKeys (updatePostingList n t d) = allKeys n := by
  induction n, t, d using updatePostingList.induct with
  | case1 ks ps cs t d r hr =>
    have hr' : (updateInNode t d ks ps).2 = true := hr
    have hupd : updatePostingList (Node23.mk ks ps cs) t d =
        Node23.mk ks (updateInNode t d ks ps).1 cs := by
      rw [updatePostingList.eq_def]
      simp only [hr', if_true]
    rw [hupd, allKeys_mk, allKeys_mk]
  | case2 ks ps t d r hr =>
    have hr' : ¬ (updateInNode t d ks ps).2 = true := hr
    have hupd : updatePostingList (Node23.mk ks ps []) t d = Node23.mk ks ps [] := by
      rw [updatePostingList.eq_def]
      simp [hr']
    rw [hupd]
  | case3 ps t d c0 cs' k0 ks' hlt r hr ih =>
    have hr' : ¬ (updateInNode t d (k0 :: ks') ps).2 = true := hr
    have hupd : updatePostingList (Node23.mk (k0 :: ks') ps (c0 :: cs')) t d =
        Node23.mk (k0 :: ks') ps (updatePostingList c0 t d :: cs') := by
      rw [updatePostingList.eq_def]
      simp [hr', hlt]
    rw [hupd, allKeys_mk, allKeys_mk, allKeysList_cons, allKeysList_cons, ih]
  | case4 ps t d c0 k0 hge c1 tail r hr ih =>
    have hr' : ¬ (updateInNode t d [k0] ps).2 = true := hr
    have hupd : updatePostingList (Node23.mk [k0] ps (c0 :: c1 :: tail)) t d =
        Node23.mk [k0] ps (c0 :: updatePostingList c1 t d :: tail) := by
      rw [updatePostingList.eq_def]
      simp [hr', hge]
    rw [hupd, allKeys_mk, allKeys_mk, allKeysList_cons, allKeysList_cons,
      allKeysList_cons, allKeysList_cons, ih]
  | case5 ps t d c0 k0 hge k1 tail c1 cs'' hlt r hr ih =>
    have hr' : ¬ (updateInNode t d (k0 :: k1 :: tail) ps).2 = true := hr
    have hupd : updatePostingList (Node23.mk (k0 :: k1 :: tail) ps (c0 :: c1 :: cs'')) t d =
        Node23.mk (k0 :: k1 :: tail) ps (c0 :: updatePostingList c1 t d :: cs'') := by
      rw [updatePostingList.eq_def]
      simp [hr', hge, hlt]
    rw [hupd, allKeys_mk, allKeys_mk, allKeysList_cons, allKeysList_cons,
      allKeysList_cons, allKeysList_cons, ih]
  | case6 ps t d c0 k0 hge0 k1 tail c1 hge1 c2 tail1 r hr ih =>
    have hr' : ¬ (updateInNode t d (k0 :: k1 :: tail) ps).2 = true := hr
    have hupd : updatePostingList (Node23.mk (k0 :: k1 :: tail) ps (c0 :: c1 :: c2 :: tail1)) t d =
        Node23.mk (k0 :: k1 :: tail) ps (c0 :: c1 :: updatePostingList c2 t d :: tail1) := by
      rw [updatePostingList.eq_def]
      simp [hr', hge0, hge1]
    rw [hupd, allKeys_mk, allKeys_mk, allKeysList_cons, allKeysList_cons,
      allKeysList_cons, allKeysList_cons, allKeysList_cons, allKeysList_cons, ih]
  | case7 ps t d c0 k0 hge0 k1 tail c1 hge1 r hr =>
    have hr' : ¬ (updateInNode t d (k0 :: k1 :: tail) ps).2 = true := hr
    have hupd : updatePostingList (Node23.mk (k0 :: k1 :: tail) ps [c0, c1]) t d =
        Node23.mk (k0 :: k1 :: tail) ps [c0, c1] := by
      rw [updatePostingList.eq_def]
      simp [hr', hge0, hge1]
    rw [hupd]
  | case8 ps t d c0 k0 hge0 k1 tail r hr =>
    have hr' : ¬ (updateInNode t d (k0 :: k1 :: tail) ps).2 = true := hr
    have hupd : updatePostingList (Node23.mk (k0 :: k1 :: tail) ps [c0]) t d =
        Node23.mk (k0 :: k1 :: tail) ps [c0] := by
      rw [updatePostingList.eq_def]
      simp [hr', hge0]
    rw [hupd]
  | case9 ps t d c0 k0 hge0 r hr =>
    have hr' : ¬ (updateInNode t d [k0] ps).2 = true := hr
    have hupd : updatePostingList (Node23.mk [k0] ps [c0]) t d = Node23.mk [k0] ps [c0] := by
      rw [updatePostingList.eq_def]
      simp [hr', hge0]
    rw [hupd]
  | case10 ps t d hd tl r hr =>
    have hr' : ¬ (updateInNode t d [] ps).2 = true := hr
    have hupd : updatePostingList (Node23.mk [] ps (hd :: tl)) t d =
        Node23.mk [] ps (hd :: tl) := by
      rw [updatePostingList.eq_def]
      simp [hr']
    rw [hupd]

theorem wf_insert_struct (n : Node23) (t d : String)
    (hw : wfb none none n = true) (hs : search n t = []) :
    wfb none none (insert n t d) = true ∧
    List.Perm (allKeys (insert n t d)) (t :: allKeys n) ∧
    (∀ e ∈ collectAllTerms (insert n t d),
      e = (t, [d]) ∨ e.2 = ([] : List String) ∨ e ∈ collectAllTerms n) ∧
    (∀ k ∈ internalKeys n, k ∈ internalKeys (insert n t d)) := by
  have hok := wfOK_insertRecursive n t [d] none none hw rfl rfl (by simp) (by simp)
  have hins : insert n t d =
      (match insertRecursive n t [d] with
       | .done n' => n'
       | .split l m r => .mk [m] [[]] [l, r]) := by
    simp only [insert, hs, ne_eq, not_true_eq_false, if_false]
  cases hres : insertRecursive n t [d] with
  | done n' =>
    rw [hres] at hok
    rw [hres] at hins
    obtain ⟨h1, h2, h3, h4⟩ := hok
    rw [hins]
    exact ⟨h1, h2, h3, h4⟩
  | split l m r =>
    rw [hres] at hok
    rw [hres] at hins
    obtain ⟨hl, hr, _, _, hperm, hent, hint⟩ := hok
    rw [hins]
    refine ⟨?_, ?_, ?_, ?_⟩
    · rw [wfb.eq_4]
      simp [loLe, hiGe, hl, hr]
    · simp only [allKeys_mk, allKeysList_cons, allKeysList_nil]
      rw [List.perm_iff_count] at hperm ⊢
      intro a
      have h := hperm a
      simp only [List.count_append, List.count_cons, List.count_nil] at h ⊢
      split_ifs at h ⊢ <;> omega
    · intro e he
      have hne : collectAllTerms (.mk [m] [[]] [l, r]) =
          (m, []) :: (collectAllTerms l ++ (collectAllTerms r ++ [])) := rfl
      rw [hne] at he
      simp only [List.append_nil, List.mem_cons, List.mem_append] at he
      rcases he with rfl | he | he
      · exact Or.inr (Or.inl rfl)
      · exact hent e (Or.inl he)
      · exact hent e (Or.inr he)
    · intro k hk
      have hne : internalKeys (.mk [m] [[]] [l, r]) =
          [m] ++ (internalKeys l ++ (internalKeys r ++ [])) := rfl
      rw [hne]
      simp only [List.append_nil, List.mem_append, List.mem_singleton]
      rcases hint k hk with h | h | h
      · exact Or.inr (Or.inl h)
      · exact Or.inl h
      · exact Or.inr (Or.inr h)

theorem wfb_insert (n : Node23) (t d : String) (hw : wfb none none n = true) :
    wfb none none (insert n t d) = true := by
  by_cases hs : search n t = []
  · exact (wf_insert_struct n t d hw hs).1
  · have hup : insert n t d = updatePostingList n t d := by
      simp [insert, hs]
    rw [hup]
    exact wfb_updatePostingList n t d none none hw hs

theorem wfb_foldl_insert (l : List (String × String)) :
    ∀ n, wfb none none n = true →
      wfb none none (l.foldl (fun n p => insert n p.1 p.2) n) = true := by
  induction l with
  | nil => intro n h; exact h
  | cons p l ih =>
    intro n h
    exact ih _ (wfb_insert n p.1 p.2 h)

theorem wfb_buildT (ps : List (String × String)) : wfb none none (buildT ps) = true :=
  wfb_foldl_insert ps fresh rfl

theorem wfb_foldl_terms (l : List String) (doc : String) :
    ∀ n, wfb none none n = true →
      wfb none none (l.foldl (fun n term => insert n term doc) n) = true := by
  induction l with
  | nil => intro n h; exact h
  | cons term l ih =>
    intro n h
    exact ih _ (wfb_insert n term doc h)

theorem wfb_add_document (n : Node23) (doc text : String) (h : wfb none none n = true) :
    wfb none none (add_document n doc text) = true :=
  wfb_foldl_terms (normalize (tokenize text)) doc n h

theorem wfb_buildIndex (corpus : List (String × String)) :
    wfb none none (buildIndex corpus) = true := by
  suffices H : ∀ (l : List (String × String)) (n : Node23), wfb none none n = true →
      wfb none none (l.foldl (fun n d => add_document n d.1 d.2) n) = true by
    exact H corpus fresh rfl
  intro l
  induction l with
  | nil => intro n h; exact h
  | cons dc l ih =>
    intro n h
    exact ih _ (wfb_add_document n dc.1 dc.2 h)

theorem wfb_reachable {n : Node23} (h : Reachable n) : wfb none none n = true := by
  obtain ⟨ps, rfl⟩ := h
  exact wfb_buildT ps

theorem search_not_mem (n : Node23) :
    ∀ lo hi, wfb lo hi n = true → ∀ t, t ∉ allKeys n → searchRecursive n t = [] := by
  induction n using node_ind with
  | step ks ps cs ih =>
    intro lo hi hw t ht
    rcases wfb_inv hw with ⟨rfl, rfl, rfl⟩ |
      ⟨k0, p0, rfl, rfl, rfl, _⟩ |
      ⟨k0, k1, p0, p1, rfl, rfl, rfl, _⟩ |
      ⟨k0, p0, c0, c1, rfl, rfl, rfl, _, _, hp0, hw0, hw1⟩ |
      ⟨k0, k1, p0, p1, c0, c1, c2, rfl, rfl, rfl, _, _, _, _, hp0, hp1, hw0, hw1, hw2⟩
    · rfl
    · have hnk : t ∉ [k0] := by
        intro hm
        exact ht (by rw [allKeys_mk, allKeysList_nil, List.append_nil]; exact hm)
      rw [searchRecursive.eq_1, lookup_none_of_not_mem hnk [p0]]
    · have hnk : t ∉ [k0, k1] := by
        intro hm
        exact ht (by rw [allKeys_mk, allKeysList_nil, List.append_nil]; exact hm)
      rw [searchRecursive.eq_1, lookup_none_of_not_mem hnk [p0, p1]]
    · subst hp0
      rw [allKeys_mk, allKeysList_cons, allKeysList_cons, allKeysList_nil,
        List.append_nil] at ht
      simp only [List.mem_append, not_or] at ht
      obtain ⟨hnk, hn0, hn1⟩ := ht
      have hlk : lookupKey t [k0] [[]] = none := lookup_none_of_not_mem hnk _
      by_cases hcmp : strLt t k0 = true
      · rw [sr_two_left hlk hcmp]
        exact ih c0 (by simp) lo (some k0) hw0 t hn0
      · rw [Bool.not_eq_true] at hcmp
        rw [sr_two_right hlk hcmp]
        exact ih c1 (by simp) (some k0) hi hw1 t hn1
    · subst hp0; subst hp1
      rw [allKeys_mk, allKeysList_cons, allKeysList_cons, allKeysList_cons,
        allKeysList_nil, List.append_nil] at ht
      simp only [List.mem_append, not_or] at ht
      obtain ⟨hnk, hn0, hn1, hn2⟩ := ht
      have hlk : lookupKey t [k0, k1] [[], []] = none := lookup_none_of_not_mem hnk _
      by_cases hcmp : strLt t k0 = true
      · rw [sr_three_left hlk hcmp]
        exact ih c0 (by simp) lo (some k0) hw0 t hn0
      · rw [Bool.not_eq_true] at hcmp
        by_cases hcmp1 : strLt t k1 = true
        · rw [sr_three_mid hlk hcmp hcmp1]
          exact ih c1 (by simp) (some k0) (some k1) hw1 t hn1
        · rw [Bool.not_eq_true] at hcmp1
          rw [sr_three_right hlk hcmp hcmp1]
          exact ih c2 (by simp) (some k1) hi hw2 t hn2

theorem search_mem {n : Node23} {t : String} {lo hi : Option String}
    (hw : wfb lo hi n = true) (hs : searchRecursive n t ≠ []) : t ∈ allKeys n := by
  by_contra h
  exact hs (search_not_mem n lo hi hw t h)

theorem mem_allKeys_insert (n : Node23) (t d k : String) (hw : wfb none none n = true) :
    k ∈ allKeys (insert n t d) ↔ k = t ∨ k ∈ allKeys n := by
  by_cases hs : search n t = []
  · have hperm := (wf_insert_struct n t d hw hs).2.1
    rw [hperm.mem_iff]
    simp
  · have hup : insert n t d = updatePostingList n t d := by
      simp [insert, hs]
    rw [hup, allKeys_updatePostingList]
    have hmem : t ∈ allKeys n := search_mem hw hs
    constructor
    · exact Or.inr
    · rintro (rfl | h)
      · exact hmem
      · exact h

theorem forall₂_mem_right {α β : Type} {R : α → β → Prop} {l1 : List α} {l2 : List β}
    (h : List.Forall₂ R l1 l2) : ∀ y ∈ l2, ∃ x ∈ l1, R x y := by
  induction h with
  | nil => intro y hy; simp at hy
  | @cons a b l1' l2' hab htl ih =>
    intro y hy
    rcases List.mem_cons.mp hy with rfl | hy'
    · exact ⟨a, by simp, hab⟩
    · obtain ⟨x, hx, hr⟩ := ih y hy'
      exact ⟨x, by simp [hx], hr⟩

theorem insert_entry_sound (n : Node23) (t d : String) (hw : wfb none none n = true) :
    ∀ e ∈ collectAllTerms (insert n t d), ∀ x ∈ e.2,
      (e.1 = t ∧ x = d) ∨ ∃ e' ∈ collectAllTerms n, e'.1 = e.1 ∧ x ∈ e'.2 := by
  intro e he x hx
  by_cases hs : search n t = []
  · rcases (wf_insert_struct n t d hw hs).2.2.1 e he with rfl | hemp | hold
    · refine Or.inl ⟨rfl, ?_⟩
      simpa using hx
    · rw [hemp] at hx
      simp at hx
    · exact Or.inr ⟨e, hold, rfl, hx⟩
  · have hup : insert n t d = updatePostingList n t d := by
      simp [insert, hs]
    rw [hup] at he
    have hsteps := entries_updatePostingList n t d
    obtain ⟨a, ha, hstep⟩ := forall₂_mem_right hsteps e he
    obtain ⟨heq, hcase⟩ := hstep
    rcases hcase with hsame | ⟨hat, happ⟩
    · exact Or.inr ⟨a, ha, heq, by rw [hsame] at hx; exact hx⟩
    · rw [happ] at hx
      rcases List.mem_append.mp hx with hxa | hxd
      · exact Or.inr ⟨a, ha, heq, hxa⟩
      · refine Or.inl ⟨?_, by simpa using hxd⟩
        rw [← heq, hat]

theorem entry_key_mem (n : Node23) :
    ∀ t p, (t, p) ∈ collectAllTerms n → t ∈ allKeys n := by
  induction n using node_ind with
  | step ks ps cs ih =>
    intro t p he
    rw [collectAllTerms_mk] at he
    rw [allKeys_mk]
    rcases List.mem_append.mp he with he | he
    · refine List.mem_append_left _ ?_
      have : ∀ (l1 : List String) (l2 : List (List String)), (t, p) ∈ l1.zip l2 → t ∈ l1 := by
        intro l1
        induction l1 with
        | nil => intro l2 h; simp at h
        | cons a l1' ihl =>
          intro l2 h
          cases l2 with
          | nil => simp at h
          | cons b l2' =>
            rcases List.mem_cons.mp h with heq | htl
            · injection heq with h1 _
              simp [h1]
            · exact List.mem_cons_of_mem a (ihl l2' htl)
      exact this ks ps he
    · refine List.mem_append_right _ ?_
      have H : ∀ l : List Node23,
          (∀ c ∈ l, ∀ t' p', (t', p') ∈ collectAllTerms c → t' ∈ allKeys c) →
          (t, p) ∈ collectAllTermsList l → t ∈ allKeysList l := by
        intro l
        induction l with
        | nil =>
          intro _ h
          simp [collectAllTermsList_nil] at h
        | cons x xs ihx =>
          intro hall h
          rw [collectAllTermsList_cons] at h
          rw [allKeysList_cons]
          rcases List.mem_append.mp h with h1 | h2
          · exact List.mem_append_left _ (hall x (by simp) t p h1)
          · exact List.mem_append_right _
              (ihx (fun c hc => hall c (by simp [hc])) h2)
      exact H cs (fun c hc t' p' h' => ih c hc t' p' h') he

theorem insert_self_search (n : Node23) (t d : String) (hw : wfb none none n = true) :
    d ∈ search (insert n t d) t ∨ search (insert n t d) t = [] := by
  by_cases hs : search n t = []
  · by_cases hs1 : search (insert n t d) t = []
    · exact Or.inr hs1
    · left
      have hw1 := wfb_insert n t d hw
      have hmem : t ∈ allKeys (insert n t d) := search_mem hw1 hs1
      obtain ⟨p, hpe, hps⟩ := search_finds (insert n t d) none none hw1 t hmem
      rcases (wf_insert_struct n t d hw hs).2.2.1 (t, p) hpe with heq | hemp | hold
      · injection heq with _ hp
        rw [show search (insert n t d) t = p from hps, hp]
        simp
      · exfalso
        apply hs1
        rw [show search (insert n t d) t = p from hps]
        exact hemp
      · exfalso
        have hkeymem : t ∈ allKeys n := entry_key_mem n t p hold
        obtain ⟨q, hqe, hqs⟩ := search_finds n none none hw t hkeymem
        have hq : q = [] := by
          rw [← hqs]
          exact hs
        rw [hq] at hqe
        have hint := empty_entry_internal n none none hw t hqe
        have hint1 := (wf_insert_struct n t d hw hs).2.2.2 t hint
        exact hs1 (search_internal_empty (insert n t d) none none hw1 t hint1)
  · have hup : insert n t d = updatePostingList n t d := by
      simp [insert, hs]
    rw [hup]
    left
    rw [show search (updatePostingList n t d) t =
        searchRecursive (updatePostingList n t d) t from rfl]
    rw [search_updatePostingList n t d none none hw hs]
    split_ifs with hd
    · exact hd
    · simp

/-- Claim C2: on every reachable tree, inserting the same `(term,
doc_id)` pair twice leaves `search(term)` identical to inserting it
once, and after the double insertion no posting list anywhere in the
tree contains a duplicate entry. -/
theorem C2_idempotence (ps : List (String × String)) (t d : String) :
    search (insert (insert (buildT ps) t d) t d) t =
      search (insert (buildT ps) t d) t ∧
    ∀ e ∈ collectAllTerms (insert (insert (buildT ps) t d) t d),
      (e.2 : List String).Nodup := by
  have hw := wfb_buildT ps
  have hw1 := wfb_insert (buildT ps) t d hw
  have hw2 := wfb_insert (insert (buildT ps) t d) t d hw1
  refine ⟨?_, fun e he => entries_nodup_of_wfb _ none none hw2 e he⟩
  rcases insert_self_search (buildT ps) t d hw with hd | hnil
  · have hne : ¬ search (insert (buildT ps) t d) t = [] := by
      intro h0
      rw [h0] at hd
      simp at hd
    rw [insert_update_of_found (insert (buildT ps) t d) t d hne]
    rw [show search (updatePostingList (insert (buildT ps) t d) t d) t =
        searchRecursive (updatePostingList (insert (buildT ps) t d) t d) t from rfl]
    rw [search_updatePostingList (insert (buildT ps) t d) t d none none hw1 hne]
    have hd' : d ∈ searchRecursive (insert (buildT ps) t d) t := hd
    rw [if_pos hd']
    rfl
  · rw [hnil]
    have htmem : t ∈ allKeys (insert (buildT ps) t d) :=
      (mem_allKeys_insert (buildT ps) t d t hw).mpr (Or.inl rfl)
    obtain ⟨p, hpe, hps⟩ := search_finds (insert (buildT ps) t d) none none hw1 t htmem
    have hp : p = [] := by
      rw [← hps]
      exact hnil
    rw [hp] at hpe
    have hint := empty_entry_internal (insert (buildT ps) t d) none none hw1 t hpe
    have hint2 := (wf_insert_struct (insert (buildT ps) t d) t d hw1 hnil).2.2.2 t hint
    exact search_internal_empty _ none none hw2 t hint2

/-- Claim C5: in every reachable tree in which a term occurs as the key
of an internal node, `search` on that term returns the empty posting
list: the descent stops at the first matching key, which is an internal
routing key carrying an empty posting list, even when the term also
occurs with real postings lower in the tree. -/
theorem C5_internal_routing (n : Node23) (t : String) (h1 : Reachable n)
    (h2 : t ∈ internalKeys n) : search n t = [] :=
  search_internal_empty n none none (wfb_reachable h1) t h2

theorem C5_internal_routing_witness :
    "b" ∈ internalKeys (buildT [("a", "1"), ("b", "1"), ("c", "1"), ("b", "2")]) ∧
    ("b", ["2"]) ∈ collectAllTerms (buildT [("a", "1"), ("b", "1"), ("c", "1"), ("b", "2")]) ∧
    search (buildT [("a", "1"), ("b", "1"), ("c", "1"), ("b", "2")]) "b" = [] := by
  refine ⟨by decide, by decide, ?_⟩
  exact C5_internal_routing _ "b" ⟨[("a", "1"), ("b", "1"), ("c", "1"), ("b", "2")], rfl⟩
    (by decide)

theorem orderedWeak_of_wfb (n : Node23) :
    ∀ lo hi, wfb lo hi n = true → orderedWeak n = true := by
  induction n using node_ind with
  | step ks ps cs ih =>
    intro lo hi hw
    rcases wfb_inv hw with ⟨rfl, rfl, rfl⟩ |
      ⟨k0, p0, rfl, rfl, rfl, _⟩ |
      ⟨k0, k1, p0, p1, rfl, rfl, rfl, _, hss, _⟩ |
      ⟨k0, p0, c0, c1, rfl, rfl, rfl, _, _, hp0, hw0, hw1⟩ |
      ⟨k0, k1, p0, p1, c0, c1, c2, rfl, rfl, rfl, _, hss, _, _, hp0, hp1, hw0, hw1, hw2⟩
    · rfl
    · rfl
    · rw [show orderedWeak (.mk [k0, k1] [p0, p1] []) =
          (chainLe [k0, k1] && true) from rfl]
      simp [chainLe, hss]
    · rw [show orderedWeak (.mk [k0] [p0] [c0, c1]) =
          (chainLe [k0] &&
            ((allKeys c0).all (fun x => !(strLt k0 x)) &&
             (allKeys c1).all (fun x => !(strLt x k0)) &&
             orderedWeak c0 && orderedWeak c1)) from rfl]
      have h0 : (allKeys c0).all (fun x => !(strLt k0 x)) = true := by
        rw [List.all_eq_true]
        intro x hx
        have := (allKeys_bounds c0 hw0 x hx).2
        rw [hiGe_some_iff] at this
        simp [this]
      have h1 : (allKeys c1).all (fun x => !(strLt x k0)) = true := by
        rw [List.all_eq_true]
        intro x hx
        have := (allKeys_bounds c1 hw1 x hx).1
        rw [loLe_some_iff] at this
        simp [this]
      simp [chainLe, h0, h1, ih c0 (by simp) lo (some k0) hw0,
        ih c1 (by simp) (some k0) hi hw1]
    · rw [show orderedWeak (.mk [k0, k1] [p0, p1] [c0, c1, c2]) =
          (chainLe [k0, k1] &&
            ((allKeys c0).all (fun x => !(strLt k0 x)) &&
             (allKeys c1).all (fun x => !(strLt x k0)) &&
             (allKeys c1).all (fun x => !(strLt k1 x)) &&
             (allKeys c2).all (fun x => !(strLt x k1)) &&
             orderedWeak c0 && orderedWeak c1 && orderedWeak c2)) from rfl]
      have h0 : (allKeys c0).all (fun x => !(strLt k0 x)) = true := by
        rw [List.all_eq_true]
        intro x hx
        have := (allKeys_bounds c0 hw0 x hx).2
        rw [hiGe_some_iff] at this
        simp [this]
      have h1a : (allKeys c1).all (fun x => !(strLt x k0)) = true := by
        rw [List.all_eq_true]
        intro x hx
        have := (allKeys_bounds c1 hw1 x hx).1
        rw [loLe_some_iff] at this
        simp [this]
      have h1b : (allKeys c1).all (fun x => !(strLt k1 x)) = true := by
        rw [List.all_eq_true]
        intro x hx
        have := (allKeys_bounds c1 hw1 x hx).2
        rw [hiGe_some_iff] at this
        simp [this]
      have h2 : (allKeys c2).all (fun x => !(strLt x k1)) = true := by
        rw [List.all_eq_true]
        intro x hx
        have := (allKeys_bounds c2 hw2 x hx).1
        rw [loLe_some_iff] at this
        simp [this]
      simp [chainLe, hss, h0, h1a, h1b, h2, ih c0 (by simp) lo (some k0) hw0,
        ih c1 (by simp) (some k0) (some k1) hw1, ih c2 (by simp) (some k1) hi hw2]

/-- Claim C7 (amended): after every sequence of insertions from a fresh
tree, the weak ordering invariant holds — keys within each node are
weakly increasing and every key reachable in a child lies weakly
between the separators surrounding that child.  The strict version
claimed by the specification (strictly increasing keys, strict subtree
separation, no key in more than one node) fails on reachable trees. -/
theorem C7_ordering_amended (ps : List (String × String)) :
    orderedWeak (buildT ps) = true :=
  orderedWeak_of_wfb (buildT ps) none none (wfb_buildT ps)

theorem refPostings_append (c1 c2 : List (String × String)) (t : String) :
    refPostings (c1 ++ c2) t = refPostings c1 t ++ refPostings c2 t := by
  simp [refPostings, List.filter_append]

theorem mem_refPostings_of {dc : String × String} {corpus : List (String × String)}
    {t : String} (h1 : dc ∈ corpus) (h2 : t ∈ normalize (tokenize dc.2)) :
    dc.1 ∈ refPostings corpus t := by
  rw [refPostings]
  exact List.mem_map_of_mem Prod.fst (List.mem_filter.mpr ⟨h1, by simpa using h2⟩)

theorem mem_refTerms_iff {k : String} {c : List (String × String)} :
    k ∈ refTerms c ↔ ∃ dc ∈ c, k ∈ normalize (tokenize dc.2) := by
  rw [refTerms, List.mem_dedup, List.mem_flatten]
  constructor
  · rintro ⟨l, hl, hk⟩
    obtain ⟨dc, hdc, rfl⟩ := List.mem_map.mp hl
    exact ⟨dc, hdc, hk⟩
  · rintro ⟨dc, hdc, hk⟩
    exact ⟨normalize (tokenize dc.2), List.mem_map_of_mem _ hdc, hk⟩

theorem keys_foldl_insert (doc : String) (l : List String) :
    ∀ m, wfb none none m = true →
      (wfb none none (l.foldl (fun n term => insert n term doc) m) = true ∧
       ∀ k, k ∈ allKeys (l.foldl (fun n term => insert n term doc) m) ↔
         k ∈ l ∨ k ∈ allKeys m) := by
  induction l with
  | nil =>
    intro m hw
    exact ⟨hw, fun k => by simp⟩
  | cons t l ih =>
    intro m hw
    simp only [List.foldl_cons]
    obtain ⟨hw', hk⟩ := ih (insert m t doc) (wfb_insert m t doc hw)
    refine ⟨hw', fun k => ?_⟩
    rw [hk k, mem_allKeys_insert m t doc k hw]
    constructor
    · rintro (h | heq | h)
      · exact Or.inl (List.mem_cons_of_mem t h)
      · exact Or.inl (by rw [heq]; exact List.mem_cons_self t l)
      · exact Or.inr h
    · rintro (h | h)
      · rcases List.mem_cons.mp h with rfl | h'
        · exact Or.inr (Or.inl rfl)
        · exact Or.inl h'
      · exact Or.inr (Or.inr h)

theorem sound_foldl_insert (doc : String) (corpus : List (String × String))
    (l : List String) :
    ∀ m, wfb none none m = true →
      (∀ e ∈ collectAllTerms m, ∀ x ∈ e.2, x ∈ refPostings corpus e.1) →
      (∀ t ∈ l, doc ∈ refPostings corpus t) →
      ∀ e ∈ collectAllTerms (l.foldl (fun n term => insert n term doc) m),
        ∀ x ∈ e.2, x ∈ refPostings corpus e.1 := by
  induction l with
  | nil =>
    intro m _ hsnd _
    exact hsnd
  | cons t l ih =>
    intro m hw hsnd hins
    refine ih (insert m t doc) (wfb_insert m t doc hw) ?_
      (fun t' ht' => hins t' (List.mem_cons_of_mem t ht'))
    intro e he x hx
    rcases insert_entry_sound m t doc hw e he x hx with ⟨h1, rfl⟩ | ⟨e', he', heq, hxe⟩
    · rw [h1]
      exact hins t (List.mem_cons_self t l)
    · rw [← heq]
      exact hsnd e' he' x hxe

theorem add_document_inv (n : Node23) (doc text : String)
    (done : List (String × String))
    (hw : wfb none none n = true)
    (hkeys : ∀ k, k ∈ allKeys n ↔ k ∈ refTerms done)
    (hsnd : ∀ e ∈ collectAllTerms n, ∀ x ∈ e.2, x ∈ refPostings done e.1) :
    wfb none none (add_document n doc text) = true ∧
    (∀ k, k ∈ allKeys (add_document n doc text) ↔
      k ∈ refTerms (done ++ [(doc, text)])) ∧
    (∀ e ∈ collectAllTerms (add_document n doc text), ∀ x ∈ e.2,
      x ∈ refPostings (done ++ [(doc, text)]) e.1) := by
  obtain ⟨hw', hk⟩ := keys_foldl_insert doc (normalize (tokenize text)) n hw
  refine ⟨hw', ?_, ?_⟩
  · intro k
    rw [show add_document n doc text =
        (normalize (tokenize text)).foldl (fun n term => insert n term doc) n from rfl]
    rw [hk k, hkeys k]
    rw [mem_refTerms_iff, mem_refTerms_iff]
    constructor
    · rintro (h | ⟨dc, hdc, hmem⟩)
      · exact ⟨(doc, text), by simp, h⟩
      · exact ⟨dc, by simp [hdc], hmem⟩
    · rintro ⟨dc, hdc, hmem⟩
      rcases List.mem_append.mp hdc with h | h
      · exact Or.inr ⟨dc, h, hmem⟩
      · left
        have : dc = (doc, text) := by simpa using h
        rw [this] at hmem
        exact hmem
  · rw [show add_document n doc text =
        (normalize (tokenize text)).foldl (fun n term => insert n term doc) n from rfl]
    refine sound_foldl_insert doc (done ++ [(doc, text)]) (normalize (tokenize text)) n hw
      ?_ ?_
    · intro e he x hx
      rw [refPostings_append]
      exact List.mem_append_left _ (hsnd e he x hx)
    · intro t ht
      exact @mem_refPostings_of (doc, text) (done ++ [(doc, text)]) t (by simp) ht

/-- Claim C3 (amended): after building the index with `add_document`
over any corpus, the keys of the full traversal are exactly the terms
of the reference brute-force scan, and every document identifier
appearing in any traversal posting list does appear in the reference
posting list of that entry's term.  The converse inclusion — and hence
the claimed set equality of (term, posting-list) pairs — fails: a node
split discards the promoted key's posting list, so a reference pair can
be missing from the traversal even though its term is present. -/
theorem C3_roundtrip_amended (corpus : List (String × String)) :
    (∀ k, k ∈ allKeys (buildIndex corpus) ↔ k ∈ refTerms corpus) ∧
    (∀ e ∈ collectAllTerms (buildIndex corpus), ∀ x ∈ e.2,
      x ∈ refPostings corpus e.1) := by
  suffices H : ∀ (rest done : List (String × String)) (n : Node23),
      wfb none none n = true →
      (∀ k, k ∈ allKeys n ↔ k ∈ refTerms done) →
      (∀ e ∈ collectAllTerms n, ∀ x ∈ e.2, x ∈ refPostings done e.1) →
      (∀ k, k ∈ allKeys (rest.foldl (fun n d => add_document n d.1 d.2) n) ↔
        k ∈ refTerms (done ++ rest)) ∧
      (∀ e ∈ collectAllTerms (rest.foldl (fun n d => add_document n d.1 d.2) n),
        ∀ x ∈ e.2, x ∈ refPostings (done ++ rest) e.1) by
    have h := H corpus [] fresh rfl
      (fun k => by simp [allKeys_mk, allKeysList_nil, refTerms, fresh])
      (fun e he => by simp [collectAllTerms_mk, collectAllTermsList_nil, fresh] at he)
    simpa [buildIndex] using h
  intro rest
  induction rest with
  | nil =>
    intro done n _ hkeys hsnd
    constructor
    · intro k
      rw [List.append_nil]
      exact hkeys k
    · intro e he x hx
      rw [List.append_nil]
      exact hsnd e he x hx
  | cons dc rest ih =>
    intro done n hw hkeys hsnd
    obtain ⟨hw', hk', hs'⟩ := add_document_inv n dc.1 dc.2 done hw hkeys hsnd
    have happ : done ++ [(dc.1, dc.2)] ++ rest = done ++ dc :: rest := by
      simp
    have h := ih (done ++ [(dc.1, dc.2)]) (add_document n dc.1 dc.2) hw' hk' hs'
    rw [happ] at h
    exact h
end Tree23
